import Mathlib

/-!
# Verification of the agenda-mover scheduling core

Shallow embedding of `src/utils/schedule.ts`, `src/utils/time.ts` and the data
model of `src/models.ts`.  Times and durations are JavaScript numbers used as
integers by the program; they are modelled as `Int`.  Optional config fields
are `Option Int`; JavaScript truthiness of a number (`!!x`) is modelled by
`truthy` (defined and nonzero).  JavaScript `Map`-based grouping by section id
is modelled by `actsFor` (see its doc comment for why this is faithful).
-/

namespace AgendaMover

/-- `ID` from `models.ts`: ids are strings. -/
abbrev ID := String

/-- `Activity` from `models.ts`.  Optional text fields are kept (with defaults
for concise test inputs); the scheduling core only reads `id`, `durationMin`,
`sectionId`, `isSystem` and `systemKey`. -/
structure Activity where
  id : ID
  title : String := ""
  owner : String := ""
  slideNumber : Option String := none
  durationMin : Int
  files : Option String := none
  details : Option String := none
  notes : Option String := none
  sectionId : ID
  isSystem : Option Bool := none
  systemKey : Option String := none
  completed : Option Bool := none
deriving DecidableEq, Repr

/-- `Section` from `models.ts`. -/
structure Section where
  id : ID
  name : String := ""
  order : Int
  dayNumber : Option Int := none
deriving DecidableEq, Repr

/-- `DayConfig` from `models.ts`. -/
structure DayConfig where
  dayStartMin : Int
  dayEndMin : Int
  numberOfDays : Option Int := none
  breakIntervalMin : Option Int := none
  breakDurationMin : Option Int := none
  lunchTargetMin : Option Int := none
  lunchDurationMin : Option Int := none
deriving DecidableEq, Repr

/-- JavaScript truthiness `!!x` for an optional number field: defined and
nonzero.  (`undefined` and `0` are falsy; every other integer is truthy.) -/
def truthy (o : Option Int) : Bool := o.getD 0 ≠ 0

/-- Kind of a computed row: the discriminated-union payload of `ComputedRow`
in `models.ts` (`type` discriminant together with the variant's own field). -/
inductive RowKind where
  | activity (a : Activity)
  | breakRow (label : String)
  | lunch (label : String)
  | overflow (label : String)
deriving DecidableEq, Repr

/-- `ComputedRow` from `models.ts`: common base fields plus the variant. -/
structure ComputedRow where
  id : ID
  sectionId : Option ID
  startMin : Int
  endMin : Int
  computed : Bool
  kind : RowKind
deriving DecidableEq, Repr

/-- The `type` field of an `Injection` (`'break' | 'lunch'`). -/
inductive InjectionType where
  | breakI
  | lunchI
deriving DecidableEq, Repr

/-- `Injection` from `models.ts`. -/
structure Injection where
  id : ID
  itype : InjectionType
  label : String
  sectionId : ID
  durationMin : Int
  anchorBeforeActivityId : ID
deriving DecidableEq, Repr

/-! ## Time codec (`src/utils/time.ts`) -/

/-- The character-level splitter behind `value.split(':')`: splits a list of
characters at every `':'`.  Like the JavaScript `String.prototype.split` with
a single-character separator, the empty string yields `[""]` and a trailing
separator yields a trailing empty part. -/
def splitCols : List Char → List (List Char)
  | [] => [[]]
  | c :: cs =>
    if c = ':' then [] :: splitCols cs
    else
      match splitCols cs with
      | [] => [[c]]
      | p :: ps => (c :: p) :: ps

/-- Whitespace for the purpose of `Number()` conversion (the common ASCII
whitespace characters). -/
def isWs (c : Char) : Bool := c = ' ' || c = '\t' || c = '\n' || c = '\r'

/-- Strip leading and trailing whitespace, as `Number()` does before parsing. -/
def trimWs (cs : List Char) : List Char :=
  ((cs.dropWhile isWs).reverse.dropWhile isWs).reverse

/-- Base-10 value of a digit character list. -/
def digitsNat (cs : List Char) : Nat :=
  cs.foldl (fun n c => n * 10 + (c.toNat - 48)) 0

/-- Value of a nonempty all-digit character list; `none` otherwise. -/
def digitsVal (cs : List Char) : Option Nat :=
  if cs ≠ [] && cs.all Char.isDigit then some (digitsNat cs) else none

/-- Models the JavaScript `Number(string)` conversion on the fragment
exercised by `parseTimeToMin`: surrounding whitespace is ignored, the empty
string converts to `0`, an optionally signed decimal digit string converts to
its value, and anything else is NaN (modelled as `none`).  (Hexadecimal,
fractional and exponent forms of `Number()` are outside the inputs this
parser is specified for and are mapped to `none`.) -/
def jsNumber (cs : List Char) : Option Int :=
  let t := trimWs cs
  match t with
  | [] => some 0
  | c :: rest =>
    if c = '-' then (digitsVal rest).map (fun n => -(n : Int))
    else if c = '+' then (digitsVal rest).map (fun n => (n : Int))
    else (digitsVal t).map (fun n => (n : Int))

/-- `parseTimeToMin` from `src/utils/time.ts`:
`if (!value) return null; const parts = value.split(':');
if (parts.length < 2) return null; const h = Number(parts[0]);
const m = Number(parts[1]); if (isNaN(h) || isNaN(m)) return null;
return h * 60 + m;` -/
def parseTimeToMin (value : String) : Option Int :=
  if value.data = [] then none
  else
    let parts := splitCols value.data
    if parts.length < 2 then none
    else
      match jsNumber (parts.getD 0 []), jsNumber (parts.getD 1 []) with
      | some h, some m => some (h * 60 + m)
      | _, _ => none

/-! ## Ordering and grouping (`src/utils/schedule.ts`) -/

/-- Stable insertion of a section into a list already sorted by `order`
ascending; an incoming element goes before the first element it is not
strictly after, matching the stable ascending sort of
`[...sections].sort((a, b) => a.order - b.order)`. -/
def insertByOrder (s : Section) : List Section → List Section
  | [] => [s]
  | t :: ts => if s.order ≤ t.order then s :: t :: ts else t :: insertByOrder s ts

/-- Stable sort of sections by `order` ascending, as in
`[...sections].sort((a, b) => a.order - b.order)`. -/
def sortByOrder : List Section → List Section
  | [] => []
  | s :: ss => insertByOrder s (sortByOrder ss)

/-- Lexicographic key for `buildScheduleFromActivities`'s section sort:
day number (defaulting to 1) ascending, then `order` ascending. -/
def dayOrderLe (a b : Section) : Bool :=
  a.dayNumber.getD 1 < b.dayNumber.getD 1 ||
    (a.dayNumber.getD 1 = b.dayNumber.getD 1 && a.order ≤ b.order)

/-- Stable insertion for the (day, order) sort of
`buildScheduleFromActivities`. -/
def insertByDayOrder (s : Section) : List Section → List Section
  | [] => [s]
  | t :: ts => if dayOrderLe s t then s :: t :: ts else t :: insertByDayOrder s ts

/-- Stable sort of sections by `(dayNumber ?? 1, order)`, as in the comparator
of `buildScheduleFromActivities`. -/
def sortByDayOrder : List Section → List Section
  | [] => []
  | s :: ss => insertByDayOrder s (sortByDayOrder ss)

/-- The per-section activity lists.  The source builds
`new Map(orderedSections.map(s => [s.id, []]))` and pushes each activity onto
`map.get(a.sectionId)` when that key exists; looking the map up at a section
id therefore yields exactly the activities with that `sectionId`, in input
order, and the empty list for ids no section carries (duplicate section ids
share one bucket, which this functional reading reproduces). -/
def actsFor (sections : List Section) (activities : List Activity) (sid : ID) :
    List Activity :=
  if sections.any (fun s => s.id = sid) then
    activities.filter (fun a => a.sectionId = sid)
  else []

/-! ## Direct Walker: `computeSchedule` -/

/-- The mutable locals of `computeSchedule`: `clock`, `minutesSinceBreak`,
`lunchInserted`. -/
structure CSState where
  clock : Int
  msb : Int
  lunchIns : Bool
deriving DecidableEq, Repr

/-- `label.toLowerCase()` for the ASCII labels the walker uses. -/
def jsToLower (s : String) : String := String.mk (s.data.map Char.toLower)

/-- The `pushBreak` helper of `computeSchedule`: emit a break/lunch row at the
current clock, advance the clock by the duration and reset the break timer.
(`lunchInserted` is set by the caller, as in the source.) -/
def pushBreak (label : String) (sectionId : Option ID) (durationMin : Int)
    (st : CSState) : ComputedRow × CSState :=
  let startMin := st.clock
  let endMin := st.clock + durationMin
  let row : ComputedRow :=
    { id := label ++ "-" ++ toString startMin
      kind := if jsToLower label = "lunch" then .lunch label else .breakRow label
      sectionId := sectionId
      startMin := startMin
      endMin := endMin
      computed := true }
  (row, { clock := endMin, msb := 0, lunchIns := st.lunchIns })

/-- The break/lunch decision made before placing one activity in
`computeSchedule`: the `needBreak`/`crossesLunch` tests and the
`if (crossesLunch) ... else if (needBreak) ...` emission. -/
def csPre (cfg : DayConfig) (sec : Section) (a : Activity) (st : CSState) :
    List ComputedRow × CSState :=
  let needBreak := truthy cfg.breakIntervalMin && truthy cfg.breakDurationMin &&
    decide (st.msb + a.durationMin > cfg.breakIntervalMin.getD 0)
  let crossesLunch := truthy cfg.lunchTargetMin && truthy cfg.lunchDurationMin &&
    !st.lunchIns && decide (st.clock < cfg.lunchTargetMin.getD 0) &&
    decide (st.clock + a.durationMin > cfg.lunchTargetMin.getD 0)
  if crossesLunch then
    let (row, st') := pushBreak "Lunch" (some sec.id) (cfg.lunchDurationMin.getD 0) st
    ([row], { st' with lunchIns := true })
  else if needBreak then
    let (row, st') := pushBreak "Break" (some sec.id) (cfg.breakDurationMin.getD 0) st
    ([row], st')
  else ([], st)

/-- The activity row placed by `computeSchedule` at the current clock. -/
def csActRow (sec : Section) (a : Activity) (clock : Int) : ComputedRow :=
  { id := a.id
    kind := .activity a
    sectionId := some sec.id
    startMin := clock
    endMin := clock + a.durationMin
    computed := false }

/-- The overflow row of `computeSchedule`, emitted once the clock passes
`dayEndMin`. -/
def csOverflowRow (cfg : DayConfig) (sec : Section) (clock : Int) : ComputedRow :=
  { id := "overflow-" ++ toString clock
    kind := .overflow "Runs past end of day"
    sectionId := some sec.id
    startMin := cfg.dayEndMin
    endMin := clock
    computed := true }

/-- Inner loop of `computeSchedule` over one section's activities.  Returns
the emitted rows and `some` final state, or the rows and `none` when the
overflow row was emitted and the whole walk returned early. -/
def csActLoop (cfg : DayConfig) (sec : Section) :
    List Activity → CSState → List ComputedRow × Option CSState
  | [], st => ([], some st)
  | a :: rest, st =>
    let ps := csPre cfg sec a st
    let row := csActRow sec a ps.2.clock
    let st2 : CSState :=
      { clock := ps.2.clock + a.durationMin, msb := ps.2.msb + a.durationMin
        lunchIns := ps.2.lunchIns }
    if st2.clock > cfg.dayEndMin then
      (ps.1 ++ [row, csOverflowRow cfg sec st2.clock], none)
    else
      let res := csActLoop cfg sec rest st2
      (ps.1 ++ row :: res.1, res.2)

/-- Outer loop of `computeSchedule` over the ordered sections; `g` is the
section-id-to-activities lookup. -/
def csSecLoop (cfg : DayConfig) (g : ID → List Activity) :
    List Section → CSState → List ComputedRow × Option CSState
  | [], st => ([], some st)
  | s :: rest, st =>
    match csActLoop cfg s (g s.id) st with
    | (rows, none) => (rows, none)
    | (rows, some st') =>
      let res := csSecLoop cfg g rest st'
      (rows ++ res.1, res.2)

/-- The trailing-lunch block at the end of `computeSchedule`: if lunch is
configured, never inserted, the clock is still within the day and the target
is not before day start, append one lunch row anchored to the last ordered
section (or to no section when there are none). -/
def csTrailingLunch (cfg : DayConfig) (ordered : List Section) (st : CSState) :
    List ComputedRow :=
  if truthy cfg.lunchTargetMin && truthy cfg.lunchDurationMin && !st.lunchIns &&
      decide (st.clock ≤ cfg.dayEndMin) &&
      decide (cfg.lunchTargetMin.getD 0 ≥ cfg.dayStartMin) then
    [(pushBreak "Lunch" (ordered.getLast?.map (fun s => s.id))
        (cfg.lunchDurationMin.getD 0) st).1]
  else []

/-- `computeSchedule` from `src/utils/schedule.ts`: the Direct Walker. -/
def computeSchedule (cfg : DayConfig) (sections : List Section)
    (activities : List Activity) : List ComputedRow :=
  let ordered := sortByOrder sections
  match csSecLoop cfg (actsFor sections activities) ordered
      { clock := cfg.dayStartMin, msb := 0, lunchIns := false } with
  | (rows, none) => rows
  | (rows, some st) => rows ++ csTrailingLunch cfg ordered st

/-! ## Injection Planner: `planInjections`

`planInjectionsTagged` is the source function verbatim, except that each
pushed `Injection` is paired with ghost data: the `dayIndex` current at the
push, and whether it is a lunch planned by the in-loop crossing test.  The
ghost data exists only to state the per-day invariants of the planner;
`planInjections` projects it away. -/

/-- JavaScript truthiness for an optional string (`undefined` and `''` are
falsy). -/
def strTruthy (o : Option String) : Bool := o.getD "" ≠ ""

/-- An injection together with ghost provenance: the planner's `dayIndex`
when it was pushed, and whether it is a lunch planned by the in-loop
`crossesLunch` test (as opposed to the end-of-run forced lunch). -/
structure PlannedInj where
  inj : Injection
  day : Int
  crossing : Bool
deriving DecidableEq, Repr

/-- The mutable locals of `planInjections`. -/
structure PIState where
  dayIndex : Int
  clockWithinDay : Int
  msb : Int
  lunchPlanned : Bool
  preLunchBreakPlanned : Bool
  afterLunchStarted : Bool
  postLunchBreakPlanned : Bool
  lastActAfterLunch : Option ID
deriving DecidableEq, Repr

/-- The body of `planInjections`'s loop after the day-rollover check: the
`crossesBreak`/`crossesLunch` tests, the pushes they cause, and the final
clock/timer advance for the activity. -/
def piBody (cfg : DayConfig) (sec : Section) (a : Activity) (st : PIState) :
    List PlannedInj × PIState :=
  let dayTarget := cfg.lunchTargetMin.getD 0 - cfg.dayStartMin
  let crossesBreak := truthy cfg.breakIntervalMin && truthy cfg.breakDurationMin &&
    decide (st.msb + a.durationMin > cfg.breakIntervalMin.getD 0)
  let crossesLunch := truthy cfg.lunchTargetMin && truthy cfg.lunchDurationMin &&
    !st.lunchPlanned && decide (dayTarget > 0) &&
    decide (st.clockWithinDay < dayTarget) &&
    decide (st.clockWithinDay + a.durationMin > dayTarget)
  let (out, st1) :=
    if crossesLunch then
      let preB : List PlannedInj :=
        if !st.preLunchBreakPlanned && truthy cfg.breakDurationMin &&
            truthy cfg.breakIntervalMin then
          [⟨{ id := "inj-break-pre-" ++ a.id, itype := .breakI, label := "Break"
              sectionId := sec.id, durationMin := cfg.breakDurationMin.getD 0
              anchorBeforeActivityId := a.id }, st.dayIndex, false⟩]
        else []
      let lunchInj : PlannedInj :=
        ⟨{ id := "inj-lunch-" ++ a.id, itype := .lunchI, label := "Lunch"
           sectionId := sec.id, durationMin := cfg.lunchDurationMin.getD 0
           anchorBeforeActivityId := a.id }, st.dayIndex, true⟩
      (preB ++ [lunchInj],
        { st with
            clockWithinDay := st.clockWithinDay + cfg.lunchDurationMin.getD 0
            msb := 0
            lunchPlanned := true
            preLunchBreakPlanned := st.preLunchBreakPlanned || !preB.isEmpty
            afterLunchStarted := true
            lastActAfterLunch := none })
    else if crossesBreak then
      ([⟨{ id := "inj-break-" ++ a.id, itype := .breakI, label := "Break"
           sectionId := sec.id, durationMin := cfg.breakDurationMin.getD 0
           anchorBeforeActivityId := a.id }, st.dayIndex, false⟩],
        { st with
            clockWithinDay := st.clockWithinDay + cfg.breakDurationMin.getD 0
            msb := 0
            postLunchBreakPlanned := st.postLunchBreakPlanned || st.afterLunchStarted })
    else ([], st)
  (out,
    { st1 with
        clockWithinDay := st1.clockWithinDay + a.durationMin
        msb := st1.msb + a.durationMin
        lastActAfterLunch :=
          if st1.afterLunchStarted then some a.id else st1.lastActAfterLunch })

/-- The post-lunch-break backfill pushed when a day is about to end
(`planInjections` lines 154-165): one break anchored before the last
post-lunch activity, if one is owed. -/
def piBackfill (cfg : DayConfig) (sec : Section) (st : PIState) : List PlannedInj :=
  if st.afterLunchStarted && !st.postLunchBreakPlanned &&
      strTruthy st.lastActAfterLunch && truthy cfg.breakDurationMin &&
      truthy cfg.breakIntervalMin then
    [⟨{ id := "inj-break-post-" ++ st.lastActAfterLunch.getD "", itype := .breakI
        label := "Break", sectionId := sec.id
        durationMin := cfg.breakDurationMin.getD 0
        anchorBeforeActivityId := st.lastActAfterLunch.getD "" }, st.dayIndex, false⟩]
  else []

/-- One activity of `planInjections`'s loop: the would-overflow check with
its backfill and early `return`/rollover, then `piBody`.  `none` as the state
means the early `return injections` at line 168 fired. -/
def piStep (cfg : DayConfig) (sec : Section) (a : Activity) (st : PIState) :
    List PlannedInj × Option PIState :=
  let numDays := max 1 (cfg.numberOfDays.getD 1)
  let dayLen := max 1 (cfg.dayEndMin - cfg.dayStartMin)
  if st.clockWithinDay + a.durationMin > dayLen then
    let pre := piBackfill cfg sec st
    if st.dayIndex + 1 ≥ numDays then (pre, none)
    else
      let st1 : PIState :=
        { dayIndex := st.dayIndex + 1, clockWithinDay := 0, msb := 0
          lunchPlanned := false, preLunchBreakPlanned := false
          afterLunchStarted := false, postLunchBreakPlanned := false
          lastActAfterLunch := none }
      let res := piBody cfg sec a st1
      (pre ++ res.1, some res.2)
  else
    let res := piBody cfg sec a st
    (res.1, some res.2)

/-- `planInjections`'s inner loop over one section's activities. -/
def piActLoop (cfg : DayConfig) (sec : Section) :
    List Activity → PIState → List PlannedInj × Option PIState
  | [], st => ([], some st)
  | a :: rest, st =>
    match piStep cfg sec a st with
    | (out, none) => (out, none)
    | (out, some st') =>
      let res := piActLoop cfg sec rest st'
      (out ++ res.1, res.2)

/-- `planInjections`'s outer loop over the ordered sections. -/
def piSecLoop (cfg : DayConfig) (g : ID → List Activity) :
    List Section → PIState → List PlannedInj × Option PIState
  | [], st => ([], some st)
  | s :: rest, st =>
    match piActLoop cfg s (g s.id) st with
    | (out, none) => (out, none)
    | (out, some st') =>
      let res := piSecLoop cfg g rest st'
      (out ++ res.1, res.2)

/-- The two blocks after `planInjections`'s loop: the forced lunch for the
last day (anchored before the first activity of the last section) and the
final post-lunch-break check. -/
def piFinal (cfg : DayConfig) (ordered : List Section) (g : ID → List Activity)
    (activities : List Activity) (st : PIState) : List PlannedInj :=
  let numDays := max 1 (cfg.numberOfDays.getD 1)
  let lunchPart : List PlannedInj :=
    if truthy cfg.lunchTargetMin && truthy cfg.lunchDurationMin &&
        !st.lunchPlanned && !ordered.isEmpty && decide (st.dayIndex < numDays) then
      match ordered.getLast? with
      | some last =>
        match (g last.id).head? with
        | some first =>
          [⟨{ id := "inj-lunch-" ++ first.id, itype := .lunchI, label := "Lunch"
              sectionId := last.id, durationMin := cfg.lunchDurationMin.getD 0
              anchorBeforeActivityId := first.id }, st.dayIndex, false⟩]
        | none => []
      | none => []
    else []
  let breakPart : List PlannedInj :=
    if st.afterLunchStarted && !st.postLunchBreakPlanned &&
        strTruthy st.lastActAfterLunch && truthy cfg.breakDurationMin &&
        truthy cfg.breakIntervalMin then
      [⟨{ id := "inj-break-post-" ++ st.lastActAfterLunch.getD "", itype := .breakI
          label := "Break"
          sectionId :=
            match ordered.getLast? with
            | some s => s.id
            | none => (activities.head?.map (fun a => a.sectionId)).getD ""
          durationMin := cfg.breakDurationMin.getD 0
          anchorBeforeActivityId := st.lastActAfterLunch.getD "" }, st.dayIndex, false⟩]
    else []
  lunchPart ++ breakPart

/-- The planner's initial state. -/
def piInit : PIState :=
  { dayIndex := 0, clockWithinDay := 0, msb := 0, lunchPlanned := false
    preLunchBreakPlanned := false, afterLunchStarted := false
    postLunchBreakPlanned := false, lastActAfterLunch := none }

/-- `planInjections` with ghost provenance on every pushed injection. -/
def planInjectionsTagged (cfg : DayConfig) (sections : List Section)
    (activities : List Activity) : List PlannedInj :=
  let ordered := sortByOrder sections
  let g := actsFor sections activities
  match piSecLoop cfg g ordered piInit with
  | (out, none) => out
  | (out, some st) => out ++ piFinal cfg ordered g activities st

/-- `planInjections` from `src/utils/schedule.ts`: the Injection Planner. -/
def planInjections (cfg : DayConfig) (sections : List Section)
    (activities : List Activity) : List Injection :=
  (planInjectionsTagged cfg sections activities).map (fun p => p.inj)

/-! ## Injection Renderer: `buildScheduleWithInjections` -/

/-- Stable insertion for the renderer's per-section injection sort. -/
def insertByAnchor (i : Injection) : List Injection → List Injection
  | [] => [i]
  | j :: js =>
    if i.anchorBeforeActivityId ≤ j.anchorBeforeActivityId then i :: j :: js
    else j :: insertByAnchor i js

/-- The renderer's per-section stable sort
`arr.sort((a, b) => a.anchorBeforeActivityId.localeCompare(b.anchorBeforeActivityId))`,
modelled with the codepoint order on strings. -/
def sortInjByAnchor : List Injection → List Injection
  | [] => []
  | i :: is => insertByAnchor i (sortInjByAnchor is)

/-- The renderer's clock state: current day index and display clock. -/
structure BRState where
  dayIndex : Int
  clock : Int
deriving DecidableEq, Repr

/-- The renderer's overflow row (`label: 'Runs past end of schedule'`). -/
def brOverflowRow (cfg : DayConfig) (sec : Section) (clock endMin : Int) :
    ComputedRow :=
  { id := "overflow-" ++ toString clock
    kind := .overflow "Runs past end of schedule"
    sectionId := some sec.id
    startMin := cfg.dayEndMin
    endMin := endMin
    computed := true }

/-- The row emitted for one injection by the renderer. -/
def brInjRow (sec : Section) (inj : Injection) (clock : Int) : ComputedRow :=
  { id := inj.id
    kind :=
      match inj.itype with
      | .breakI => .breakRow inj.label
      | .lunchI => .lunch inj.label
    sectionId := some sec.id
    startMin := clock
    endMin := clock + inj.durationMin
    computed := true }

/-- The renderer's loop over the injections anchored before one activity:
each is day-overflow-checked (roll over, or emit an overflow row and stop)
and then emitted at the clock. -/
def brInjLoop (cfg : DayConfig) (sec : Section) :
    List Injection → BRState → List ComputedRow × Option BRState
  | [], st => ([], some st)
  | inj :: rest, st =>
    let numDays := max 1 (cfg.numberOfDays.getD 1)
    let continueFrom := fun (st1 : BRState) =>
      let row := brInjRow sec inj st1.clock
      let res := brInjLoop cfg sec rest { st1 with clock := st1.clock + inj.durationMin }
      (row :: res.1, res.2)
    if st.clock + inj.durationMin > cfg.dayEndMin then
      if st.dayIndex + 1 ≥ numDays then
        ([brOverflowRow cfg sec st.clock (st.clock + inj.durationMin)], none)
      else continueFrom { dayIndex := st.dayIndex + 1, clock := cfg.dayStartMin }
    else continueFrom st

/-- The renderer's loop over one section's activities: the activity's own
day-overflow check, then its anchored injections, then the activity row. -/
def brActLoop (cfg : DayConfig) (sec : Section) (sectionInj : List Injection) :
    List Activity → BRState → List ComputedRow × Option BRState
  | [], st => ([], some st)
  | a :: rest, st =>
    let numDays := max 1 (cfg.numberOfDays.getD 1)
    let continueFrom := fun (st1 : BRState) =>
      let anchored := sectionInj.filter (fun inj => inj.anchorBeforeActivityId = a.id)
      match brInjLoop cfg sec anchored st1 with
      | (rows, none) => (rows, none)
      | (rows, some st2) =>
        let row := csActRow sec a st2.clock
        let res :=
          brActLoop cfg sec sectionInj rest { st2 with clock := st2.clock + a.durationMin }
        (rows ++ row :: res.1, res.2)
    if st.clock + a.durationMin > cfg.dayEndMin then
      if st.dayIndex + 1 ≥ numDays then
        ([brOverflowRow cfg sec st.clock (st.clock + a.durationMin)], none)
      else continueFrom { dayIndex := st.dayIndex + 1, clock := cfg.dayStartMin }
    else continueFrom st

/-- The renderer's outer loop over the ordered sections. -/
def brSecLoop (cfg : DayConfig) (g : ID → List Activity)
    (injections : List Injection) :
    List Section → BRState → List ComputedRow × Option BRState
  | [], st => ([], some st)
  | s :: rest, st =>
    let sectionInj :=
      sortInjByAnchor (injections.filter (fun inj => inj.sectionId = s.id))
    match brActLoop cfg s sectionInj (g s.id) st with
    | (rows, none) => (rows, none)
    | (rows, some st') =>
      let res := brSecLoop cfg g injections rest st'
      (rows ++ res.1, res.2)

/-- `buildScheduleWithInjections` from `src/utils/schedule.ts`: the Injection
Renderer.  (The source takes a `Pick` of `DayConfig`; it reads only
`dayStartMin`, `dayEndMin` and `numberOfDays`.) -/
def buildScheduleWithInjections (cfg : DayConfig) (sections : List Section)
    (activities : List Activity) (injections : List Injection) :
    List ComputedRow :=
  let ordered := sortByOrder sections
  (brSecLoop cfg (actsFor sections activities) injections ordered
      { dayIndex := 0, clock := cfg.dayStartMin }).1

/-! ## Day-Partitioned Walker: `buildScheduleFromActivities` -/

/-- The mutable locals of `buildScheduleFromActivities` (the source also
computes `dayLen` and `numDays`, which its body never reads). -/
structure DPState where
  dayIndex : Int
  clock : Int
  msb : Int
  curDay : Int
deriving DecidableEq, Repr

/-- Inner loop of `buildScheduleFromActivities` over one section's
activities: place each activity at the clock (never rolling to another day),
and reset the break timer on `lunch:day` system entries. -/
def dpActLoop (sec : Section) :
    List Activity → Int → Int → List ComputedRow × Int × Int
  | [], clock, msb => ([], clock, msb)
  | a :: rest, clock, msb =>
    let row := csActRow sec a clock
    let msb' :=
      if a.isSystem.getD false &&
          (a.systemKey.map (fun k => k.startsWith "lunch:day")).getD false then 0
      else msb + a.durationMin
    let res := dpActLoop sec rest (clock + a.durationMin) msb'
    (row :: res.1, res.2)

/-- Outer loop of `buildScheduleFromActivities`: on entering a section whose
resolved day differs from the tracked day, reset the clock and break timer. -/
def dpSecLoop (cfg : DayConfig) (g : ID → List Activity) :
    List Section → DPState → List ComputedRow × DPState
  | [], st => ([], st)
  | s :: rest, st =>
    let secDay := s.dayNumber.getD st.curDay
    let st1 : DPState :=
      if secDay ≠ st.curDay then
        { curDay := secDay, dayIndex := secDay - 1, clock := cfg.dayStartMin, msb := 0 }
      else st
    let res := dpActLoop s (g s.id) st1.clock st1.msb
    let res' := dpSecLoop cfg g rest { st1 with clock := res.2.1, msb := res.2.2 }
    (res.1 ++ res'.1, res'.2)

/-- `buildScheduleFromActivities` from `src/utils/schedule.ts`: the
Day-Partitioned Walker (the production path). -/
def buildScheduleFromActivities (cfg : DayConfig) (sections : List Section)
    (activities : List Activity) : List ComputedRow :=
  let ordered := sortByDayOrder sections
  let cur0 :=
    match ordered.head? with
    | some s => s.dayNumber.getD 1
    | none => 1
  (dpSecLoop cfg (actsFor sections activities) ordered
      { dayIndex := 0, clock := cfg.dayStartMin, msb := 0, curDay := cur0 }).1

/-! ## Helper facts about the time parser -/

theorem digit_not_ws {c : Char} (h : c.isDigit = true) : isWs c = false := by
  have h1 : c ≠ ' ' := fun e => by subst e; exact absurd h (by decide)
  have h2 : c ≠ '\t' := fun e => by subst e; exact absurd h (by decide)
  have h3 : c ≠ '\n' := fun e => by subst e; exact absurd h (by decide)
  have h4 : c ≠ '\r' := fun e => by subst e; exact absurd h (by decide)
  simp [isWs, h1, h2, h3, h4]

theorem digit_ne_dash {c : Char} (h : c.isDigit = true) : c ≠ '-' :=
  fun e => by subst e; exact absurd h (by decide)

theorem digit_ne_plus {c : Char} (h : c.isDigit = true) : c ≠ '+' :=
  fun e => by subst e; exact absurd h (by decide)

theorem dropWhile_ws_of_digits {cs : List Char} (h : cs.all Char.isDigit = true) :
    cs.dropWhile isWs = cs := by
  cases cs with
  | nil => rfl
  | cons c rest =>
    have hc : c.isDigit = true := by
      simp only [List.all_cons, Bool.and_eq_true] at h
      exact h.1
    simp [List.dropWhile_cons, digit_not_ws hc]

theorem trimWs_of_digits {cs : List Char} (h : cs.all Char.isDigit = true) :
    trimWs cs = cs := by
  have hrev : cs.reverse.all Char.isDigit = true := by
    simp only [List.all_eq_true] at h ⊢
    intro c hc
    exact h c (List.mem_reverse.mp hc)
  unfold trimWs
  rw [dropWhile_ws_of_digits h, dropWhile_ws_of_digits hrev, List.reverse_reverse]

theorem jsNumber_of_digits {cs : List Char} (h1 : cs ≠ [])
    (h2 : cs.all Char.isDigit = true) : jsNumber cs = some (digitsNat cs) := by
  unfold jsNumber
  rw [trimWs_of_digits h2]
  cases cs with
  | nil => exact absurd rfl h1
  | cons c rest =>
    have hc : c.isDigit = true := by
      simp only [List.all_cons, Bool.and_eq_true] at h2
      exact h2.1
    simp only [if_neg (digit_ne_dash hc), if_neg (digit_ne_plus hc)]
    unfold digitsVal
    rw [if_pos (by simp [h2])]
    rfl

/-- C9.  The time parser accepts well-formed `H:MM`/`HH:MM` text — whenever
the input splits at `':'` into exactly two nonempty digit parts it returns
`hours * 60 + minutes` — and it returns `null` (never throwing; the function
is total) exactly when the input has no colon (including the empty string) or
when the hour or minute part does not convert to a number. -/
theorem c9_parseTime_wellformed_and_null (v : String) :
    (∀ p₁ p₂, splitCols v.data = [p₁, p₂] → p₁ ≠ [] → p₁.all Char.isDigit = true →
      p₂ ≠ [] → p₂.all Char.isDigit = true →
      parseTimeToMin v = some ((digitsNat p₁ : Int) * 60 + (digitsNat p₂ : Int))) ∧
    (parseTimeToMin v = none ↔
      (splitCols v.data).length < 2 ∨
      jsNumber ((splitCols v.data).getD 0 []) = none ∨
      jsNumber ((splitCols v.data).getD 1 []) = none) := by
  constructor
  · intro p₁ p₂ hsplit h1 hd1 h2 hd2
    have hv : ¬(v.data = []) := by
      intro h0
      rw [h0] at hsplit
      simp [splitCols] at hsplit
    unfold parseTimeToMin
    rw [if_neg hv]
    simp only [hsplit]
    rw [if_neg (by simp)]
    simp only [List.getD_cons_zero, List.getD_cons_succ]
    rw [jsNumber_of_digits h1 hd1, jsNumber_of_digits h2 hd2]
    rfl
  · by_cases hv : v.data = []
    · constructor
      · intro _
        left
        rw [hv]
        simp [splitCols]
      · intro _
        unfold parseTimeToMin
        rw [if_pos hv]
    · unfold parseTimeToMin
      rw [if_neg hv]
      by_cases hl : (splitCols v.data).length < 2
      · simp [hl]
      · simp only [if_neg hl]
        cases hj1 : jsNumber ((splitCols v.data).getD 0 []) <;>
          cases hj2 : jsNumber ((splitCols v.data).getD 1 []) <;>
            simp [hl, hj1, hj2]

/-- Witness for C9 at concrete inputs: "8:30" is well-formed and parses to
510 minutes; the hypotheses of the theorem hold at that input. -/
theorem c9_witness : parseTimeToMin "8:30" = some 510 :=
  (c9_parseTime_wellformed_and_null "8:30").1 ['8'] ['3', '0']
    (by decide) (by decide) (by decide) (by decide) (by decide)

/-! ## C2: the Direct Walker on the 20/45/30 scenario -/

/-- Shape of a row for scenario statements: kind tag (0 activity, 1 break,
2 lunch, 3 overflow). -/
def kindTag : RowKind → Nat
  | .activity _ => 0
  | .breakRow _ => 1
  | .lunch _ => 2
  | .overflow _ => 3

/-- `(startMin, endMin, kind tag)` of a row. -/
def rowShape (r : ComputedRow) : Int × Int × Nat := (r.startMin, r.endMin, kindTag r.kind)

/-- The C2 scenario's day configuration: 9:00-16:00, breaks every 60 minutes
for 15 minutes, no lunch. -/
def c2cfg : DayConfig :=
  { dayStartMin := 540, dayEndMin := 960
    breakIntervalMin := some 60, breakDurationMin := some 15 }

/-- The C2 scenario's single section. -/
def c2sec : Section := { id := "s1", order := 1 }

/-- The C2 scenario's three activities of 20, 45 and 30 minutes. -/
def c2acts : List Activity :=
  [ { id := "a1", durationMin := 20, sectionId := "s1" },
    { id := "a2", durationMin := 45, sectionId := "s1" },
    { id := "a3", durationMin := 30, sectionId := "s1" } ]

/-- C2 counterexample.  On the claimed input the Direct Walker does NOT
return the four claimed rows (activity [540,560), break [560,575), activity
[575,620), activity [620,650)): the break test before activity 3 is
`minutesSinceBreak + durationMin > breakIntervalMin`, i.e. `45 + 30 > 60`,
so a break is emitted before activity 3. -/
theorem c2_counterexample :
    (computeSchedule c2cfg [c2sec] c2acts).map rowShape ≠
      [(540, 560, 0), (560, 575, 1), (575, 620, 0), (620, 650, 0)] := by
  decide

/-- C2 amended.  On the scenario input the Direct Walker returns exactly:
activity 1 at [540,560), a break at [560,575), activity 2 at [575,620), a
second break at [620,635) (since 45 + 30 > 60), and activity 3 at [635,665). -/
theorem c2_amended :
    (computeSchedule c2cfg [c2sec] c2acts).map rowShape =
      [(540, 560, 0), (560, 575, 1), (575, 620, 0), (620, 635, 1), (635, 665, 0)] := by
  decide


/-! ## C4: the Direct Walker's lunch-crossing test -/

/-- C4 counterexample inputs: lunch target 10:00, one 60-minute activity
starting at 9:00, so `clock < lunchTarget ≤ clock + duration` holds with
equality on the right. -/
def c4cfg : DayConfig :=
  { dayStartMin := 540, dayEndMin := 960
    lunchTargetMin := some 600, lunchDurationMin := some 30 }

/-- The C4 counterexample's section. -/
def c4sec : Section := { id := "s1", order := 1 }

/-- The C4 counterexample's single 60-minute activity. -/
def c4act : Activity := { id := "a1", durationMin := 60, sectionId := "s1" }

/-- C4 counterexample.  With `clock = 540`, `lunchTarget = 600` and
`durationMin = 60` we have `clock < lunchTarget ≤ clock + durationMin`
(equality on the right), so the claim requires a lunch row immediately
before the activity; the code's test is the strict
`clock + durationMin > lunchTargetMin`, so no lunch is emitted before the
activity (the first output row is the activity itself; the lunch row the
walker does produce comes after it, from the trailing-lunch block). -/
theorem c4_counterexample :
    (540 : Int) < 600 ∧ (600 : Int) ≤ 540 + 60 ∧
    (computeSchedule c4cfg [c4sec] [c4act]).map rowShape =
      [(540, 600, 0), (600, 630, 2)] := by
  decide

/-- C4 amended.  While lunch is configured and not yet inserted, a lunch row
is emitted immediately before an activity exactly when
`clock < lunchTargetMin` AND `clock + durationMin > lunchTargetMin` (both
strict; the claim's `lunchTargetMin ≤ clock + durationMin` is wrong at
equality); and when it fires, the rows preceding the activity are exactly
the one lunch row (a simultaneously-due break is suppressed: lunch takes
priority), the one-shot flag is set and the clock advances by the lunch
duration with the break timer reset. -/
theorem c4_amended (cfg : DayConfig) (sec : Section) (a : Activity) (st : CSState)
    (hT : truthy cfg.lunchTargetMin = true) (hD : truthy cfg.lunchDurationMin = true)
    (hL : st.lunchIns = false) :
    ((∃ r ∈ (csPre cfg sec a st).1, ∃ lbl, r.kind = RowKind.lunch lbl) ↔
      (st.clock < cfg.lunchTargetMin.getD 0 ∧
        st.clock + a.durationMin > cfg.lunchTargetMin.getD 0)) ∧
    ((st.clock < cfg.lunchTargetMin.getD 0 ∧
        st.clock + a.durationMin > cfg.lunchTargetMin.getD 0) →
      csPre cfg sec a st =
        ([(pushBreak "Lunch" (some sec.id) (cfg.lunchDurationMin.getD 0) st).1],
          { clock := st.clock + cfg.lunchDurationMin.getD 0, msb := 0,
            lunchIns := true })) := by
  by_cases h1 : st.clock < cfg.lunchTargetMin.getD 0 <;>
    by_cases h2 : st.clock + a.durationMin > cfg.lunchTargetMin.getD 0
  · -- both strict inequalities hold: lunch fires
    have hbool : (truthy cfg.lunchTargetMin && truthy cfg.lunchDurationMin &&
        !st.lunchIns && decide (st.clock < cfg.lunchTargetMin.getD 0) &&
        decide (st.clock + a.durationMin > cfg.lunchTargetMin.getD 0)) = true := by
      rw [hT, hD, hL, decide_eq_true h1, decide_eq_true h2]
      rfl
    have hkey : csPre cfg sec a st =
        ([(pushBreak "Lunch" (some sec.id) (cfg.lunchDurationMin.getD 0) st).1],
          { clock := st.clock + cfg.lunchDurationMin.getD 0, msb := 0,
            lunchIns := true }) := by
      simp only [csPre, hbool, if_true]
      simp [pushBreak]
    refine ⟨⟨fun _ => ⟨h1, h2⟩, fun _ => ?_⟩, fun _ => hkey⟩
    rw [hkey]
    exact ⟨_, List.mem_singleton_self _, "Lunch", rfl⟩
  all_goals
  -- at least one inequality fails: no lunch fires
  · have hbool : (truthy cfg.lunchTargetMin && truthy cfg.lunchDurationMin &&
        !st.lunchIns && decide (st.clock < cfg.lunchTargetMin.getD 0) &&
        decide (st.clock + a.durationMin > cfg.lunchTargetMin.getD 0)) = false := by
      rw [hT, hD, hL]
      first
        | (rw [decide_eq_false h2]; simp)
        | (rw [decide_eq_false h1]; simp)
    have hnc : ¬(st.clock < cfg.lunchTargetMin.getD 0 ∧
        st.clock + a.durationMin > cfg.lunchTargetMin.getD 0) := by
      intro hx
      first
        | exact h2 hx.2
        | exact h1 hx.1
    refine ⟨⟨fun hex => ?_, fun hx => absurd hx hnc⟩, fun hx => absurd hx hnc⟩
    exfalso
    simp only [csPre, hbool, Bool.false_eq_true, if_false] at hex
    by_cases hb : (truthy cfg.breakIntervalMin && truthy cfg.breakDurationMin &&
        decide (st.msb + a.durationMin > cfg.breakIntervalMin.getD 0)) = true
    · simp only [hb, if_true] at hex
      obtain ⟨r, hr, lbl, hk⟩ := hex
      rw [List.mem_singleton] at hr
      subst hr
      have : (pushBreak "Break" (some sec.id) (cfg.breakDurationMin.getD 0) st).1.kind =
          RowKind.breakRow "Break" := rfl
      rw [this] at hk
      cases hk
    · simp only [Bool.not_eq_true] at hb
      simp only [hb, Bool.false_eq_true, if_false] at hex
      obtain ⟨r, hr, _⟩ := hex
      cases hr

/-- C4 witness config. -/
def c4wcfg : DayConfig :=
  { dayStartMin := 540, dayEndMin := 960
    lunchTargetMin := some 600, lunchDurationMin := some 30 }

/-- C4 witness activity: 100 minutes, so `540 < 600 < 640` strictly. -/
def c4wact : Activity := { id := "a1", durationMin := 100, sectionId := "s1" }

/-- C4 witness state. -/
def c4wst : CSState := { clock := 540, msb := 0, lunchIns := false }

/-- Witness for C4 amended at a concrete input where the strict crossing
condition holds: the lunch-emission iff is realised. -/
theorem c4_witness :
    truthy c4wcfg.lunchTargetMin = true ∧
    ((∃ r ∈ (csPre c4wcfg c4sec c4wact c4wst).1, ∃ lbl, r.kind = RowKind.lunch lbl) ↔
      (c4wst.clock < c4wcfg.lunchTargetMin.getD 0 ∧
        c4wst.clock + c4wact.durationMin > c4wcfg.lunchTargetMin.getD 0)) :=
  ⟨by decide, (c4_amended c4wcfg c4sec c4wact c4wst (by decide) (by decide) (by decide)).1⟩

/-! ## C6: the Direct Walker's trailing lunch -/

/-- C6 counterexample config: lunch target 2000 is far past `dayEndMin =
960`. -/
def c6cfg : DayConfig :=
  { dayStartMin := 540, dayEndMin := 960
    lunchTargetMin := some 2000, lunchDurationMin := some 60 }

/-- The C6 counterexample's section. -/
def c6sec : Section := { id := "s1", order := 1 }

/-- The C6 counterexample's single activity. -/
def c6act : Activity := { id := "a1", durationMin := 20, sectionId := "s1" }

/-- C6 counterexample.  The walk completes without inserting lunch and the
lunch target (2000) is NOT within day bounds (it exceeds `dayEndMin = 960`),
yet a trailing lunch row ([560,620), kind tag 2) is appended: the code only
checks `clock <= dayEndMin && lunchTargetMin >= dayStartMin`, never
`lunchTargetMin <= dayEndMin`. -/
theorem c6_counterexample :
    (2000 : Int) > 960 ∧
    (computeSchedule c6cfg [c6sec] [c6act]).map rowShape =
      [(540, 560, 0), (560, 620, 2)] := by
  decide

/-- C6 amended.  If the walk over all sections and activities completes
(final state `st`) with lunch configured and never inserted, then a final
lunch row is appended after the very last row — anchored to the last section
in display order, or to no section when there are none — if and only if the
final clock is at most `dayEndMin` AND the lunch target is at least
`dayStartMin` (the claim's "lunch target still within day bounds" is wrong:
a target beyond `dayEndMin` still gets the trailing lunch). -/
theorem c6_amended (cfg : DayConfig) (sections : List Section)
    (activities : List Activity) (rows : List ComputedRow) (st : CSState)
    (hrun : csSecLoop cfg (actsFor sections activities) (sortByOrder sections)
        { clock := cfg.dayStartMin, msb := 0, lunchIns := false } = (rows, some st))
    (hT : truthy cfg.lunchTargetMin = true) (hD : truthy cfg.lunchDurationMin = true)
    (hL : st.lunchIns = false) :
    computeSchedule cfg sections activities =
      rows ++
        (if st.clock ≤ cfg.dayEndMin ∧ cfg.lunchTargetMin.getD 0 ≥ cfg.dayStartMin then
          [(pushBreak "Lunch" ((sortByOrder sections).getLast?.map (fun s => s.id))
              (cfg.lunchDurationMin.getD 0) st).1]
        else []) := by
  simp only [computeSchedule]
  rw [hrun]
  show rows ++ csTrailingLunch cfg (sortByOrder sections) st = _
  congr 1
  unfold csTrailingLunch
  by_cases hc : st.clock ≤ cfg.dayEndMin ∧ cfg.lunchTargetMin.getD 0 ≥ cfg.dayStartMin
  · have hb2 : (truthy cfg.lunchTargetMin && truthy cfg.lunchDurationMin &&
        !st.lunchIns && decide (st.clock ≤ cfg.dayEndMin) &&
        decide (cfg.lunchTargetMin.getD 0 ≥ cfg.dayStartMin)) = true := by
      rw [hT, hD, hL, decide_eq_true hc.1, decide_eq_true hc.2]
      rfl
    rw [hb2, if_pos rfl, if_pos hc]
  · have hb2 : (truthy cfg.lunchTargetMin && truthy cfg.lunchDurationMin &&
        !st.lunchIns && decide (st.clock ≤ cfg.dayEndMin) &&
        decide (cfg.lunchTargetMin.getD 0 ≥ cfg.dayStartMin)) = false := by
      rw [hT, hD, hL]
      by_cases ha : st.clock ≤ cfg.dayEndMin
      · have hbb : ¬(cfg.lunchTargetMin.getD 0 ≥ cfg.dayStartMin) := fun hb => hc ⟨ha, hb⟩
        rw [decide_eq_false hbb]
        simp
      · rw [decide_eq_false ha]
        simp
    rw [hb2, if_neg (by simp), if_neg hc]

/-- C6 witness config: lunch target noon, day 9:00-16:00. -/
def c6wcfg : DayConfig :=
  { dayStartMin := 540, dayEndMin := 960
    lunchTargetMin := some 720, lunchDurationMin := some 60 }

/-- C6 witness section. -/
def c6wsec : Section := { id := "s1", order := 1 }

/-- C6 witness activity. -/
def c6wact : Activity := { id := "a1", durationMin := 20, sectionId := "s1" }

/-- The single activity row the C6 witness walk emits. -/
def c6wrow : ComputedRow :=
  { id := "a1", sectionId := some "s1", startMin := 540, endMin := 560
    computed := false, kind := RowKind.activity c6wact }

/-- Witness for C6 amended: one 20-minute activity, lunch target 720; the
walk ends at clock 560 with lunch not inserted, and the trailing lunch row
[560,620) is appended, anchored to the last section. -/
theorem c6_witness :
    (computeSchedule c6wcfg [c6wsec] [c6wact]).map rowShape =
      [(540, 560, 0), (560, 620, 2)] := by
  have h := c6_amended c6wcfg [c6wsec] [c6wact] [c6wrow]
    { clock := 560, msb := 20, lunchIns := false }
    (by decide) (by decide) (by decide) (by decide)
  rw [h]
  decide

/-! ## C3: overflow terminates the Direct Walker -/

/-- Whether a row is an overflow row. -/
def isOverflowRow (r : ComputedRow) : Bool :=
  match r.kind with
  | .overflow _ => true
  | _ => false

/-- The `(sectionId, activity)` payloads of the activity rows of a row list,
in order. -/
def actPairs (l : List ComputedRow) : List (Option ID × Activity) :=
  l.filterMap (fun r =>
    match r.kind with
    | .activity a => some (r.sectionId, a)
    | _ => none)

/-- The full iteration order of the walk: every section's activities, tagged
with the section id, concatenated in section order. -/
def flatWalk (g : ID → List Activity) (secs : List Section) :
    List (Option ID × Activity) :=
  (secs.map (fun s => (g s.id).map (fun a => ((some s.id : Option ID), a)))).flatten

/-- Shape of a row list produced by a walk that stopped on overflow, relative
to the iteration order `walk`: it ends in exactly one overflow row, that row
starts at `dayEndMin` and ends strictly past it at the end of the last
activity row, and the activity rows are a nonempty prefix (`take k`) of the
iteration order — nothing after the triggering activity is represented. -/
def StoppedShape (cfg : DayConfig) (walk : List (Option ID × Activity))
    (rows : List ComputedRow) : Prop :=
  ∃ rows' o k, rows = rows' ++ [o] ∧ isOverflowRow o = true ∧
    (∀ r ∈ rows', isOverflowRow r = false) ∧
    o.startMin = cfg.dayEndMin ∧ o.endMin > cfg.dayEndMin ∧
    1 ≤ k ∧ k ≤ walk.length ∧ actPairs rows' = walk.take k ∧
    ∃ ar b, rows'.getLast? = some ar ∧ ar.kind = RowKind.activity b ∧
      ar.endMin = o.endMin

theorem csPre_kinds (cfg : DayConfig) (sec : Section) (a : Activity) (st : CSState) :
    ∀ r ∈ (csPre cfg sec a st).1,
      (∃ lbl, r.kind = RowKind.breakRow lbl) ∨ ∃ lbl, r.kind = RowKind.lunch lbl := by
  intro r hr
  simp only [csPre, pushBreak] at hr
  split at hr
  · rw [List.mem_singleton] at hr
    subst hr
    right
    exact ⟨"Lunch", rfl⟩
  · split at hr
    · rw [List.mem_singleton] at hr
      subst hr
      left
      exact ⟨"Break", rfl⟩
    · cases hr

theorem csPre_overflow_free (cfg : DayConfig) (sec : Section) (a : Activity)
    (st : CSState) : ∀ r ∈ (csPre cfg sec a st).1, isOverflowRow r = false := by
  intro r hr
  rcases csPre_kinds cfg sec a st r hr with ⟨lbl, hk⟩ | ⟨lbl, hk⟩ <;>
    simp [isOverflowRow, hk]

theorem actPairs_csPre (cfg : DayConfig) (sec : Section) (a : Activity)
    (st : CSState) : actPairs (csPre cfg sec a st).1 = [] := by
  apply List.filterMap_eq_nil_iff.mpr
  intro r hr
  rcases csPre_kinds cfg sec a st r hr with ⟨lbl, hk⟩ | ⟨lbl, hk⟩ <;> simp [hk]

theorem actPairs_append (l₁ l₂ : List ComputedRow) :
    actPairs (l₁ ++ l₂) = actPairs l₁ ++ actPairs l₂ :=
  List.filterMap_append l₁ l₂ _

/-- Inner-loop shape lemma for the Direct Walker: over one section's
activity list, either the loop completes and the activity rows are exactly
the section's activities in order with no overflow row, or it stops with the
`StoppedShape` relative to the section's own iteration order. -/
theorem csActLoop_shape (cfg : DayConfig) (sec : Section) (acts : List Activity) :
    ∀ st : CSState,
      (∀ rows st', csActLoop cfg sec acts st = (rows, some st') →
        actPairs rows = acts.map (fun a => ((some sec.id : Option ID), a)) ∧
        ∀ r ∈ rows, isOverflowRow r = false) ∧
      (∀ rows, csActLoop cfg sec acts st = (rows, none) →
        StoppedShape cfg (acts.map (fun a => ((some sec.id : Option ID), a))) rows) := by
  induction acts with
  | nil =>
    intro st
    constructor
    · intro rows st' h
      simp only [csActLoop] at h
      obtain ⟨h1, _⟩ := Prod.mk.injEq .. ▸ h
      constructor
      · rw [← h1]
        rfl
      · intro r hr
        rw [← h1] at hr
        cases hr
    · intro rows h
      simp only [csActLoop, Prod.mk.injEq] at h
      exact absurd h.2 (by simp)
  | cons a rest ih =>
    intro st
    have hunf : csActLoop cfg sec (a :: rest) st =
        (if (csPre cfg sec a st).2.clock + a.durationMin > cfg.dayEndMin then
          ((csPre cfg sec a st).1 ++
            [csActRow sec a (csPre cfg sec a st).2.clock,
              csOverflowRow cfg sec ((csPre cfg sec a st).2.clock + a.durationMin)],
            none)
        else
          ((csPre cfg sec a st).1 ++
            csActRow sec a (csPre cfg sec a st).2.clock ::
              (csActLoop cfg sec rest
                { clock := (csPre cfg sec a st).2.clock + a.durationMin
                  msb := (csPre cfg sec a st).2.msb + a.durationMin
                  lunchIns := (csPre cfg sec a st).2.lunchIns }).1,
            (csActLoop cfg sec rest
              { clock := (csPre cfg sec a st).2.clock + a.durationMin
                msb := (csPre cfg sec a st).2.msb + a.durationMin
                lunchIns := (csPre cfg sec a st).2.lunchIns }).2)) := rfl
    by_cases hov : (csPre cfg sec a st).2.clock + a.durationMin > cfg.dayEndMin
    · rw [hunf, if_pos hov]
      constructor
      · intro rows st' h
        simp only [Prod.mk.injEq] at h
        exact absurd h.2 (by simp)
      · intro rows h
        simp only [Prod.mk.injEq] at h
        refine ⟨(csPre cfg sec a st).1 ++ [csActRow sec a (csPre cfg sec a st).2.clock],
          csOverflowRow cfg sec ((csPre cfg sec a st).2.clock + a.durationMin), 1,
          ?_, rfl, ?_, rfl, hov, le_refl 1, by simp, ?_, ?_⟩
        · rw [← h.1]
          simp
        · intro r hr
          rcases List.mem_append.mp hr with hr1 | hr2
          · exact csPre_overflow_free cfg sec a st r hr1
          · rw [List.mem_singleton] at hr2
            subst hr2
            rfl
        · rw [actPairs_append, actPairs_csPre]
          simp [actPairs, csActRow, List.take_succ_cons]
        · exact ⟨csActRow sec a (csPre cfg sec a st).2.clock, a,
            List.getLast?_concat _, rfl, rfl⟩
    · rw [hunf, if_neg hov]
      set st2 : CSState :=
        { clock := (csPre cfg sec a st).2.clock + a.durationMin
          msb := (csPre cfg sec a st).2.msb + a.durationMin
          lunchIns := (csPre cfg sec a st).2.lunchIns } with hst2
      constructor
      · intro rows st' h
        simp only [Prod.mk.injEq] at h
        obtain ⟨hrows, hst?⟩ := h
        rcases hres : csActLoop cfg sec rest st2 with ⟨rows₀, st₀?⟩
        rw [hres] at hrows hst?
        simp only at hrows hst?
        obtain ⟨hA, hB⟩ := ((ih st2).1 rows₀ st' (by rw [hres, hst?]))
        constructor
        · rw [← hrows, actPairs_append, actPairs_csPre]
          simp only [List.nil_append, List.map_cons]
          show actPairs (csActRow sec a (csPre cfg sec a st).2.clock :: rows₀) = _
          simp only [actPairs, List.filterMap_cons]
          simpa [csActRow] using hA
        · intro r hr
          rw [← hrows] at hr
          rcases List.mem_append.mp hr with hr1 | hr2
          · exact csPre_overflow_free cfg sec a st r hr1
          · rcases List.mem_cons.mp hr2 with hr3 | hr4
            · subst hr3
              rfl
            · exact hB r hr4
      · intro rows h
        simp only [Prod.mk.injEq] at h
        obtain ⟨hrows, hst?⟩ := h
        rcases hres : csActLoop cfg sec rest st2 with ⟨rows₀, st₀?⟩
        rw [hres] at hrows hst?
        simp only at hrows hst?
        cases st₀? with
        | some s => exact absurd hst? (by simp)
        | none =>
          obtain ⟨rows', o, k, hsplit, hovf, hfree, hstart, hend, hk1, hklen, hpairs,
            ar, b, hlast, hark, hare⟩ := (ih st2).2 rows₀ hres
          refine ⟨(csPre cfg sec a st).1 ++
              csActRow sec a (csPre cfg sec a st).2.clock :: rows', o, k + 1,
            ?_, hovf, ?_, hstart, hend, by omega,
            by simp only [List.length_map, List.length_cons] at hklen ⊢; omega, ?_, ?_⟩
          · rw [← hrows, hsplit]
            simp
          · intro r hr
            rcases List.mem_append.mp hr with hr1 | hr2
            · exact csPre_overflow_free cfg sec a st r hr1
            · rcases List.mem_cons.mp hr2 with hr3 | hr4
              · subst hr3
                rfl
              · exact hfree r hr4
          · rw [actPairs_append, actPairs_csPre]
            simp only [List.nil_append, List.map_cons, List.take_succ_cons]
            show actPairs (csActRow sec a (csPre cfg sec a st).2.clock :: rows') = _
            simp only [actPairs, List.filterMap_cons]
            simpa [csActRow] using hpairs
          · have hne : rows' ≠ [] := by
              intro hnil
              rw [hnil] at hlast
              cases hlast
            refine ⟨ar, b, ?_, hark, hare⟩
            rw [List.getLast?_append_of_ne_nil _ (by simp [hne]), ← hlast]
            cases rows' with
            | nil => exact absurd rfl hne
            | cons x xs => rfl

/-- Outer-loop shape lemma for the Direct Walker, relative to the full
iteration order `flatWalk`. -/
theorem csSecLoop_shape (cfg : DayConfig) (g : ID → List Activity)
    (secs : List Section) :
    ∀ st : CSState,
      (∀ rows st', csSecLoop cfg g secs st = (rows, some st') →
        actPairs rows = flatWalk g secs ∧ ∀ r ∈ rows, isOverflowRow r = false) ∧
      (∀ rows, csSecLoop cfg g secs st = (rows, none) →
        StoppedShape cfg (flatWalk g secs) rows) := by
  induction secs with
  | nil =>
    intro st
    constructor
    · intro rows st' h
      simp only [csSecLoop, Prod.mk.injEq] at h
      constructor
      · rw [← h.1]
        rfl
      · intro r hr
        rw [← h.1] at hr
        cases hr
    · intro rows h
      simp only [csSecLoop, Prod.mk.injEq] at h
      exact absurd h.2 (by simp)
  | cons s rest ih =>
    intro st
    have hflat : flatWalk g (s :: rest) =
        (g s.id).map (fun a => ((some s.id : Option ID), a)) ++ flatWalk g rest := by
      simp [flatWalk]
    rcases h1 : csActLoop cfg s (g s.id) st with ⟨rows₁, st₁?⟩
    cases st₁? with
    | none =>
      have hloop : csSecLoop cfg g (s :: rest) st = (rows₁, none) := by
        simp only [csSecLoop, h1]
      constructor
      · intro rows st' h
        rw [hloop] at h
        simp only [Prod.mk.injEq] at h
        exact absurd h.2 (by simp)
      · intro rows h
        rw [hloop] at h
        simp only [Prod.mk.injEq] at h
        obtain ⟨rows', o, k, hsplit, hovf, hfree, hstart, hend, hk1, hklen, hpairs,
          ar, b, hlast, hark, hare⟩ := (csActLoop_shape cfg s (g s.id) st).2 rows₁ h1
        refine ⟨rows', o, k, by rw [← h.1]; exact hsplit, hovf, hfree, hstart, hend,
          hk1, ?_, ?_, ar, b, hlast, hark, hare⟩
        · rw [hflat]
          simp only [List.length_append]
          omega
        · rw [hflat, List.take_append_of_le_length (by simpa using hklen), hpairs]
    | some st₁ =>
      have hloop : csSecLoop cfg g (s :: rest) st =
          (rows₁ ++ (csSecLoop cfg g rest st₁).1, (csSecLoop cfg g rest st₁).2) := by
        simp only [csSecLoop, h1]
      obtain ⟨hA1, hB1⟩ := (csActLoop_shape cfg s (g s.id) st).1 rows₁ st₁ h1
      rcases h2 : csSecLoop cfg g rest st₁ with ⟨rows₂, st₂?⟩
      rw [h2] at hloop
      simp only at hloop
      constructor
      · intro rows st' h
        rw [hloop] at h
        simp only [Prod.mk.injEq] at h
        obtain ⟨hrows, hst?⟩ := h
        obtain ⟨hA2, hB2⟩ := (ih st₁).1 rows₂ st' (by rw [h2, hst?])
        constructor
        · rw [← hrows, actPairs_append, hA1, hA2, hflat]
        · intro r hr
          rw [← hrows] at hr
          rcases List.mem_append.mp hr with hr1 | hr2
          · exact hB1 r hr1
          · exact hB2 r hr2
      · intro rows h
        rw [hloop] at h
        simp only [Prod.mk.injEq] at h
        obtain ⟨hrows, hst?⟩ := h
        cases st₂? with
        | some s2 => exact absurd hst? (by simp)
        | none =>
          obtain ⟨rows', o, k, hsplit, hovf, hfree, hstart, hend, hk1, hklen, hpairs,
            ar, b, hlast, hark, hare⟩ := (ih st₁).2 rows₂ h2
          refine ⟨rows₁ ++ rows', o,
            ((g s.id).map (fun a => ((some s.id : Option ID), a))).length + k,
            ?_, hovf, ?_, hstart, hend, by omega, ?_, ?_, ?_⟩
          · rw [← hrows, hsplit, List.append_assoc]
          · intro r hr
            rcases List.mem_append.mp hr with hr1 | hr2
            · exact hB1 r hr1
            · exact hfree r hr2
          · rw [hflat]
            simp only [List.length_append]
            omega
          · rw [actPairs_append, hA1, hflat, List.take_append, ← hpairs]
          · have hne : rows' ≠ [] := by
              intro hnil
              rw [hnil] at hlast
              cases hlast
            refine ⟨ar, b, ?_, hark, hare⟩
            rw [List.getLast?_append_of_ne_nil _ hne]
            exact hlast

theorem csTrailingLunch_kinds (cfg : DayConfig) (ordered : List Section)
    (st : CSState) : ∀ r ∈ csTrailingLunch cfg ordered st,
      ∃ lbl, r.kind = RowKind.lunch lbl := by
  intro r hr
  simp only [csTrailingLunch] at hr
  split at hr
  · rw [List.mem_singleton] at hr
    subst hr
    exact ⟨"Lunch", rfl⟩
  · cases hr

/-- C3.  If the Direct Walker's output contains an overflow row, then the
output ends in exactly one overflow row (no other row is one), that row has
`startMin = dayEndMin` and `endMin` strictly past day end equal to the end of
the last activity row placed (the clock), and the activity rows of the output
are a nonempty prefix (`take k`) of the full section-ordered iteration over
the activities — no activity or section ordered after the triggering
activity contributes any row. -/
theorem c3_overflow_terminates (cfg : DayConfig) (sections : List Section)
    (activities : List Activity)
    (hov : ∃ r ∈ computeSchedule cfg sections activities, isOverflowRow r = true) :
    StoppedShape cfg
      (flatWalk (actsFor sections activities) (sortByOrder sections))
      (computeSchedule cfg sections activities) := by
  rcases hrun : csSecLoop cfg (actsFor sections activities) (sortByOrder sections)
      { clock := cfg.dayStartMin, msb := 0, lunchIns := false } with ⟨rows, st?⟩
  cases st? with
  | some st =>
    exfalso
    have hcs : computeSchedule cfg sections activities =
        rows ++ csTrailingLunch cfg (sortByOrder sections) st := by
      simp only [computeSchedule]
      rw [hrun]
    obtain ⟨r, hr, hro⟩ := hov
    rw [hcs] at hr
    rcases List.mem_append.mp hr with hr1 | hr2
    · have := ((csSecLoop_shape cfg (actsFor sections activities)
        (sortByOrder sections) _).1 rows st hrun).2 r hr1
      rw [this] at hro
      cases hro
    · obtain ⟨lbl, hk⟩ := csTrailingLunch_kinds cfg (sortByOrder sections) st r hr2
      simp [isOverflowRow, hk] at hro
  | none =>
    have hcs : computeSchedule cfg sections activities = rows := by
      simp only [computeSchedule]
      rw [hrun]
    rw [hcs]
    exact (csSecLoop_shape cfg (actsFor sections activities)
      (sortByOrder sections) _).2 rows hrun

/-- C3 witness config: the day ends at 600 and the activity runs 100 minutes
past 540, so overflow fires. -/
def c3wcfg : DayConfig := { dayStartMin := 540, dayEndMin := 600 }

/-- C3 witness section. -/
def c3wsec : Section := { id := "s1", order := 1 }

/-- C3 witness activity. -/
def c3wact : Activity := { id := "a1", durationMin := 100, sectionId := "s1" }

/-- Witness for C3: on a concrete overflowing input the walker's output has
the stopped shape. -/
theorem c3_witness :
    StoppedShape c3wcfg
      (flatWalk (actsFor [c3wsec] [c3wact]) (sortByOrder [c3wsec]))
      (computeSchedule c3wcfg [c3wsec] [c3wact]) :=
  c3_overflow_terminates c3wcfg [c3wsec] [c3wact] (by decide)

/-! ## C7: a dangling anchor is silently inert in the Injection Renderer -/

theorem filter_insertByAnchor_ne (i : Injection) (l : List Injection) (x : ID)
    (hne : ¬(i.anchorBeforeActivityId = x)) :
    (insertByAnchor i l).filter (fun j => j.anchorBeforeActivityId = x) =
      l.filter (fun j => j.anchorBeforeActivityId = x) := by
  induction l with
  | nil => simp [insertByAnchor, hne]
  | cons j js ih =>
    simp only [insertByAnchor]
    split
    · simp [List.filter_cons, hne]
    · simp only [List.filter_cons]
      split
      · rw [ih]
      · rw [ih]

theorem filter_insertByAnchor_eq (i : Injection) (l : List Injection) (x : ID)
    (heq : i.anchorBeforeActivityId = x) :
    (insertByAnchor i l).filter (fun j => j.anchorBeforeActivityId = x) =
      i :: l.filter (fun j => j.anchorBeforeActivityId = x) := by
  induction l with
  | nil => simp [insertByAnchor, heq]
  | cons j js ih =>
    simp only [insertByAnchor]
    split
    · simp [List.filter_cons, heq]
    · next hle =>
      have hjx : ¬(j.anchorBeforeActivityId = x) := by
        intro hjx
        exact hle (by rw [heq, hjx])
      simp only [List.filter_cons, hjx]
      simpa using ih

/-- The renderer's per-section sort is stable, so filtering the sorted list
by a fixed anchor id gives the same sublist, in the same order, as filtering
the unsorted list. -/
theorem filter_sortInjByAnchor (l : List Injection) (x : ID) :
    (sortInjByAnchor l).filter (fun j => j.anchorBeforeActivityId = x) =
      l.filter (fun j => j.anchorBeforeActivityId = x) := by
  induction l with
  | nil => rfl
  | cons i is ih =>
    simp only [sortInjByAnchor]
    by_cases h : i.anchorBeforeActivityId = x
    · rw [filter_insertByAnchor_eq _ _ _ h, ih]
      simp [List.filter_cons, h]
    · rw [filter_insertByAnchor_ne _ _ _ h, ih]
      simp [List.filter_cons, h]

/-- The renderer's activity loop depends on the section's injection list only
through the anchored sublists of the activities it walks. -/
theorem brActLoop_congr (cfg : DayConfig) (sec : Section) (s₁ s₂ : List Injection)
    (acts : List Activity)
    (h : ∀ a ∈ acts, s₁.filter (fun j => j.anchorBeforeActivityId = a.id) =
      s₂.filter (fun j => j.anchorBeforeActivityId = a.id)) :
    ∀ st, brActLoop cfg sec s₁ acts st = brActLoop cfg sec s₂ acts st := by
  induction acts with
  | nil => intro st; rfl
  | cons a rest ih =>
    intro st
    have ha : s₁.filter (fun j => j.anchorBeforeActivityId = a.id) =
        s₂.filter (fun j => j.anchorBeforeActivityId = a.id) :=
      h a (List.mem_cons_self a rest)
    have hrest : ∀ st, brActLoop cfg sec s₁ rest st = brActLoop cfg sec s₂ rest st :=
      ih (fun b hb => h b (List.mem_cons_of_mem a hb))
    simp only [brActLoop, ha, hrest]

/-- The renderer's section loop depends on the injection list only through
the per-section per-activity anchored sublists. -/
theorem brSecLoop_congr (cfg : DayConfig) (g : ID → List Activity)
    (i₁ i₂ : List Injection) (secs : List Section)
    (h : ∀ s ∈ secs, ∀ a ∈ g s.id,
      (i₁.filter (fun j => j.sectionId = s.id)).filter
          (fun j => j.anchorBeforeActivityId = a.id) =
        (i₂.filter (fun j => j.sectionId = s.id)).filter
          (fun j => j.anchorBeforeActivityId = a.id)) :
    ∀ st, brSecLoop cfg g i₁ secs st = brSecLoop cfg g i₂ secs st := by
  induction secs with
  | nil => intro st; rfl
  | cons s rest ih =>
    intro st
    have hact : ∀ st', brActLoop cfg s
        (sortInjByAnchor (i₁.filter (fun j => j.sectionId = s.id))) (g s.id) st' =
        brActLoop cfg s
        (sortInjByAnchor (i₂.filter (fun j => j.sectionId = s.id))) (g s.id) st' := by
      apply brActLoop_congr
      intro a ha
      rw [filter_sortInjByAnchor, filter_sortInjByAnchor]
      exact h s (List.mem_cons_self s rest) a ha
    have hrest : ∀ st', brSecLoop cfg g i₁ rest st' = brSecLoop cfg g i₂ rest st' :=
      ih (fun s' hs' => h s' (List.mem_cons_of_mem s hs'))
    simp only [brSecLoop, hact, hrest]

theorem mem_actsFor {sections : List Section} {activities : List Activity}
    {sid : ID} {a : Activity} (h : a ∈ actsFor sections activities sid) :
    a ∈ activities := by
  unfold actsFor at h
  split at h
  · exact List.mem_of_mem_filter h
  · cases h

/-- C7.  An injection whose `anchorBeforeActivityId` matches no activity in
the activity list contributes no row to the renderer's output and causes no
error (the function is total): the output computed with that injection
present anywhere in the injection list is exactly the output computed with
it removed. -/
theorem c7_dangling_anchor_inert (cfg : DayConfig) (sections : List Section)
    (activities : List Activity) (j : Injection) (l₁ l₂ : List Injection)
    (hj : ∀ a ∈ activities, a.id ≠ j.anchorBeforeActivityId) :
    buildScheduleWithInjections cfg sections activities (l₁ ++ j :: l₂) =
      buildScheduleWithInjections cfg sections activities (l₁ ++ l₂) := by
  unfold buildScheduleWithInjections
  apply congrArg Prod.fst
  apply brSecLoop_congr
  intro s _ a ha
  have haid : ¬(j.anchorBeforeActivityId = a.id) := by
    intro he
    exact hj a (mem_actsFor ha) he.symm
  by_cases hsec : j.sectionId = s.id
  · simp [List.filter_append, List.filter_cons, hsec, haid]
  · simp [List.filter_append, List.filter_cons, hsec]

/-- C7 witness config. -/
def c7wcfg : DayConfig := { dayStartMin := 540, dayEndMin := 960 }

/-- C7 witness section. -/
def c7wsec : Section := { id := "s1", order := 1 }

/-- C7 witness activity. -/
def c7wact : Activity := { id := "a1", durationMin := 30, sectionId := "s1" }

/-- C7 witness injection: anchored to an activity id that does not exist. -/
def c7winj : Injection :=
  { id := "inj-break-zz", itype := .breakI, label := "Break", sectionId := "s1"
    durationMin := 15, anchorBeforeActivityId := "zz" }

/-- Witness for C7: rendering with the dangling injection equals rendering
without it on a concrete input. -/
theorem c7_witness :
    buildScheduleWithInjections c7wcfg [c7wsec] [c7wact] ([] ++ c7winj :: []) =
      buildScheduleWithInjections c7wcfg [c7wsec] [c7wact] ([] ++ []) :=
  c7_dangling_anchor_inert c7wcfg [c7wsec] [c7wact] c7winj [] [] (by decide)

/-! ## C10: an activity with an unknown section id is silently omitted -/

theorem length_insertByOrder (s : Section) (l : List Section) :
    (insertByOrder s l).length = l.length + 1 := by
  induction l with
  | nil => rfl
  | cons t ts ih =>
    simp only [insertByOrder]
    split
    · simp
    · simp [ih]

theorem length_sortByOrder (l : List Section) :
    (sortByOrder l).length = l.length := by
  induction l with
  | nil => rfl
  | cons s ss ih => simp [sortByOrder, length_insertByOrder, ih]

/-- Removing (or inserting) an activity whose `sectionId` matches no section
does not change the grouping function at any looked-up id. -/
theorem actsFor_erase_middle (sections : List Section) (l₁ l₂ : List Activity)
    (x : Activity) (hx : ∀ s ∈ sections, s.id ≠ x.sectionId) :
    actsFor sections (l₁ ++ x :: l₂) = actsFor sections (l₁ ++ l₂) := by
  funext sid
  unfold actsFor
  split
  · next hany =>
    have hxs : ¬(x.sectionId = sid) := by
      intro he
      obtain ⟨s, hs, hsid⟩ := List.any_eq_true.mp hany
      exact hx s hs (by
        rw [he]
        exact of_decide_eq_true hsid)
    simp [List.filter_append, List.filter_cons, hxs]
  · rfl

/-- C10.  In each of the four core functions, an activity whose `sectionId`
equals no section's id contributes nothing: the output computed with it
present anywhere in the activity list equals the output computed without it
(so it produces no row and no injection and advances no clock or break/lunch
state). -/
theorem c10_unknown_section_omitted (cfg : DayConfig) (sections : List Section)
    (l₁ l₂ : List Activity) (x : Activity) (injs : List Injection)
    (hx : ∀ s ∈ sections, s.id ≠ x.sectionId) :
    computeSchedule cfg sections (l₁ ++ x :: l₂) =
        computeSchedule cfg sections (l₁ ++ l₂) ∧
      planInjections cfg sections (l₁ ++ x :: l₂) =
        planInjections cfg sections (l₁ ++ l₂) ∧
      buildScheduleWithInjections cfg sections (l₁ ++ x :: l₂) injs =
        buildScheduleWithInjections cfg sections (l₁ ++ l₂) injs ∧
      buildScheduleFromActivities cfg sections (l₁ ++ x :: l₂) =
        buildScheduleFromActivities cfg sections (l₁ ++ l₂) := by
  have hg := actsFor_erase_middle sections l₁ l₂ x hx
  refine ⟨?_, ?_, ?_, ?_⟩
  · unfold computeSchedule
    rw [hg]
  · unfold planInjections planInjectionsTagged
    rw [hg]
    by_cases hsec : sections = []
    · subst hsec
      rfl
    · have hne : sortByOrder sections ≠ [] := by
        intro hnil
        have hlen := length_sortByOrder sections
        rw [hnil] at hlen
        exact hsec (List.length_eq_zero.mp hlen.symm)
      obtain ⟨y, hy⟩ :
          ∃ y, (sortByOrder sections).getLast? = some y :=
        Option.isSome_iff_exists.mp (List.getLast?_isSome.mpr hne)
      rcases hrun : piSecLoop cfg (actsFor sections (l₁ ++ l₂))
          (sortByOrder sections) piInit with ⟨out, st?⟩
      simp only [hrun]
      cases st? with
      | none => rfl
      | some st =>
        have hfin : piFinal cfg (sortByOrder sections)
            (actsFor sections (l₁ ++ l₂)) (l₁ ++ x :: l₂) st =
            piFinal cfg (sortByOrder sections)
            (actsFor sections (l₁ ++ l₂)) (l₁ ++ l₂) st := by
          simp only [piFinal, hy]
        simp only [hfin]
  · unfold buildScheduleWithInjections
    rw [hg]
  · unfold buildScheduleFromActivities
    rw [hg]

/-- C10 witness section list. -/
def c10wsec : Section := { id := "s1", order := 1 }

/-- C10 witness activity with an unknown section id. -/
def c10wx : Activity := { id := "ghost", durationMin := 25, sectionId := "nosuch" }

/-- C10 witness known activity. -/
def c10wact : Activity := { id := "a1", durationMin := 30, sectionId := "s1" }

/-- C10 witness config. -/
def c10wcfg : DayConfig :=
  { dayStartMin := 540, dayEndMin := 960
    breakIntervalMin := some 60, breakDurationMin := some 15
    lunchTargetMin := some 720, lunchDurationMin := some 60 }

/-- Witness for C10 on a concrete input: the ghost activity changes none of
the four outputs. -/
theorem c10_witness :
    computeSchedule c10wcfg [c10wsec] ([c10wact] ++ c10wx :: []) =
        computeSchedule c10wcfg [c10wsec] ([c10wact] ++ []) ∧
      planInjections c10wcfg [c10wsec] ([c10wact] ++ c10wx :: []) =
        planInjections c10wcfg [c10wsec] ([c10wact] ++ []) ∧
      buildScheduleWithInjections c10wcfg [c10wsec] ([c10wact] ++ c10wx :: []) [] =
        buildScheduleWithInjections c10wcfg [c10wsec] ([c10wact] ++ []) [] ∧
      buildScheduleFromActivities c10wcfg [c10wsec] ([c10wact] ++ c10wx :: []) =
        buildScheduleFromActivities c10wcfg [c10wsec] ([c10wact] ++ []) :=
  c10_unknown_section_omitted c10wcfg [c10wsec] [c10wact] [] c10wx [] (by decide)

/-! ## C8: the Day-Partitioned Walker -/

theorem insertByDayOrder_perm (s : Section) (l : List Section) :
    List.Perm (insertByDayOrder s l) (s :: l) := by
  induction l with
  | nil => exact List.Perm.refl _
  | cons t ts ih =>
    simp only [insertByDayOrder]
    split
    · exact List.Perm.refl _
    · exact (ih.cons t).trans (List.Perm.swap s t ts)

theorem sortByDayOrder_perm (l : List Section) :
    List.Perm (sortByDayOrder l) l := by
  induction l with
  | nil => exact List.Perm.refl _
  | cons s ss ih =>
    exact (insertByDayOrder_perm s (sortByDayOrder ss)).trans (ih.cons s)

/-- Shape of the Day-Partitioned Walker's inner loop: each activity produces
one uncomputed activity row for this section, rows are consecutive starting
at the incoming clock, and the returned clock is the end of the last row. -/
theorem dpActLoop_shape (sec : Section) (acts : List Activity) :
    ∀ clock msb : Int,
      (∀ r ∈ (dpActLoop sec acts clock msb).1,
        r.computed = false ∧ r.sectionId = some sec.id ∧
        ∃ a, a ∈ acts ∧ r.kind = RowKind.activity a ∧
          r.endMin - r.startMin = a.durationMin) ∧
      List.Chain' (fun r r' => r'.startMin = r.endMin) (dpActLoop sec acts clock msb).1 ∧
      (∀ r ∈ (dpActLoop sec acts clock msb).1.head?, r.startMin = clock) ∧
      (∀ r ∈ (dpActLoop sec acts clock msb).1.getLast?,
        r.endMin = (dpActLoop sec acts clock msb).2.1) ∧
      ((dpActLoop sec acts clock msb).1 = [] →
        (dpActLoop sec acts clock msb).2.1 = clock) := by
  induction acts with
  | nil =>
    intro clock msb
    refine ⟨?_, ?_, ?_, ?_, fun _ => rfl⟩ <;> simp [dpActLoop]
  | cons a rest ih =>
    intro clock msb
    have hunf : dpActLoop sec (a :: rest) clock msb =
        (csActRow sec a clock ::
          (dpActLoop sec rest (clock + a.durationMin)
            (if a.isSystem.getD false &&
                (a.systemKey.map (fun k => k.startsWith "lunch:day")).getD false then 0
              else msb + a.durationMin)).1,
          (dpActLoop sec rest (clock + a.durationMin)
            (if a.isSystem.getD false &&
                (a.systemKey.map (fun k => k.startsWith "lunch:day")).getD false then 0
              else msb + a.durationMin)).2) := rfl
    obtain ⟨ihrows, ihchain, ihhead, ihlast, ihnil⟩ :=
      ih (clock + a.durationMin)
        (if a.isSystem.getD false &&
            (a.systemKey.map (fun k => k.startsWith "lunch:day")).getD false then 0
          else msb + a.durationMin)
    rw [hunf]
    refine ⟨?_, ?_, ?_, ?_, ?_⟩
    · intro r hr
      rcases List.mem_cons.mp hr with hr1 | hr2
      · subst hr1
        exact ⟨rfl, rfl, a, List.mem_cons_self a rest, rfl, by simp [csActRow]⟩
      · obtain ⟨hc, hsid, b, hbm, hk, hx⟩ := ihrows r hr2
        exact ⟨hc, hsid, b, List.mem_cons_of_mem a hbm, hk, hx⟩
    · refine List.Chain'.cons' ihchain ?_
      intro y hy
      rw [ihhead y hy]
      rfl
    · intro r hr
      simp only [List.head?_cons, Option.mem_def, Option.some.injEq] at hr
      subst hr
      rfl
    · intro r hr
      cases hrest : (dpActLoop sec rest (clock + a.durationMin)
          (if a.isSystem.getD false &&
              (a.systemKey.map (fun k => k.startsWith "lunch:day")).getD false then 0
            else msb + a.durationMin)).1 with
      | nil =>
        rw [hrest] at hr
        simp only [List.getLast?_singleton, Option.mem_def, Option.some.injEq] at hr
        subst hr
        rw [ihnil hrest]
        rfl
      | cons x xs =>
        rw [hrest] at hr
        rw [show (csActRow sec a clock :: x :: xs).getLast? = (x :: xs).getLast? from rfl]
          at hr
        rw [← hrest] at hr
        exact ihlast r hr
    · intro h
      cases h

/-- Every row of the Day-Partitioned Walker's section loop is an uncomputed
activity row, attributed to one of the walked sections, with exact
duration. -/
theorem dpSecLoop_rows (cfg : DayConfig) (g : ID → List Activity)
    (secs : List Section) :
    ∀ st, ∀ r ∈ (dpSecLoop cfg g secs st).1,
      r.computed = false ∧ ∃ s ∈ secs, r.sectionId = some s.id ∧
      ∃ a, a ∈ g s.id ∧ r.kind = RowKind.activity a ∧
        r.endMin - r.startMin = a.durationMin := by
  induction secs with
  | nil =>
    intro st r hr
    cases hr
  | cons s rest ih =>
    intro st r hr
    simp only [dpSecLoop] at hr
    rcases List.mem_append.mp hr with h1 | h2
    · obtain ⟨hc, hsid, ha⟩ := (dpActLoop_shape s (g s.id) _ _).1 r h1
      exact ⟨hc, s, List.mem_cons_self s rest, hsid, ha⟩
    · obtain ⟨hc, s', hs', hsid, ha⟩ := ih _ r h2
      exact ⟨hc, s', List.mem_cons_of_mem s hs', hsid, ha⟩

/-- When no walked section changes the tracked day, the Day-Partitioned
Walker never resets: its rows are consecutive from the incoming clock, the
final clock is the end of the last row, and the tracked day is unchanged. -/
theorem dpSecLoop_no_reset (cfg : DayConfig) (g : ID → List Activity)
    (secs : List Section) :
    ∀ st : DPState, (∀ s ∈ secs, s.dayNumber.getD st.curDay = st.curDay) →
      List.Chain' (fun r r' => r'.startMin = r.endMin) (dpSecLoop cfg g secs st).1 ∧
      (∀ r ∈ (dpSecLoop cfg g secs st).1.head?, r.startMin = st.clock) ∧
      (∀ r ∈ (dpSecLoop cfg g secs st).1.getLast?,
        r.endMin = (dpSecLoop cfg g secs st).2.clock) ∧
      ((dpSecLoop cfg g secs st).1 = [] →
        (dpSecLoop cfg g secs st).2.clock = st.clock) ∧
      (dpSecLoop cfg g secs st).2.curDay = st.curDay := by
  induction secs with
  | nil =>
    intro st _
    exact ⟨List.chain'_nil, by simp [dpSecLoop], by simp [dpSecLoop],
      fun _ => rfl, rfl⟩
  | cons s rest ih =>
    intro st h
    have hs : s.dayNumber.getD st.curDay = st.curDay := h s (List.mem_cons_self s rest)
    have hnr : ¬(s.dayNumber.getD st.curDay ≠ st.curDay) := by simpa using hs
    have hunf : dpSecLoop cfg g (s :: rest) st =
        ((dpActLoop s (g s.id) st.clock st.msb).1 ++
          (dpSecLoop cfg g rest
            { st with clock := (dpActLoop s (g s.id) st.clock st.msb).2.1, msb := (dpActLoop s (g s.id) st.clock st.msb).2.2 }).1,
          (dpSecLoop cfg g rest
            { st with clock := (dpActLoop s (g s.id) st.clock st.msb).2.1, msb := (dpActLoop s (g s.id) st.clock st.msb).2.2 }).2) := by
      simp only [dpSecLoop]
      rw [if_neg hnr]
    obtain ⟨hBrows, hBchain, hBhead, hBlast, hBnil⟩ :=
      dpActLoop_shape s (g s.id) st.clock st.msb
    obtain ⟨ihchain, ihhead, ihlast, ihnil, ihday⟩ :=
      ih { st with clock := (dpActLoop s (g s.id) st.clock st.msb).2.1, msb := (dpActLoop s (g s.id) st.clock st.msb).2.2 }
        (by
          intro s' hs'
          exact h s' (List.mem_cons_of_mem s hs'))
    rw [hunf]
    refine ⟨?_, ?_, ?_, ?_, ?_⟩
    · refine List.Chain'.append hBchain ihchain ?_
      intro x hx y hy
      rw [ihhead y hy, hBlast x hx]
    · intro r hr
      cases hB : (dpActLoop s (g s.id) st.clock st.msb).1 with
      | nil =>
        rw [hB, List.nil_append] at hr
        rw [ihhead r hr, hBnil hB]
      | cons b bs =>
        rw [hB] at hr
        simp only [List.cons_append, List.head?_cons, Option.mem_def,
          Option.some.injEq] at hr
        rw [← hr]
        exact hBhead b (by rw [hB]; rfl)
    · intro r hr
      cases hR : (dpSecLoop cfg g rest
          { st with clock := (dpActLoop s (g s.id) st.clock st.msb).2.1, msb := (dpActLoop s (g s.id) st.clock st.msb).2.2 }).1 with
      | nil =>
        rw [hR, List.append_nil] at hr
        rw [hBlast r hr]
        exact (ihnil hR).symm
      | cons x xs =>
        rw [List.getLast?_append_of_ne_nil _ (by rw [hR]; simp)] at hr
        exact ihlast r hr
    · intro h0
      obtain ⟨hB, hR⟩ := List.append_eq_nil.mp h0
      exact (ihnil hR).trans (hBnil hB)
    · exact ihday

/-- Day-Partitioned Walker section loop, general form: rows are consecutive
except possibly at section boundaries, where the clock may only restart at
`dayStartMin`; the first row starts at the incoming clock or at
`dayStartMin`.  Requires distinct section ids (rows only record the section
id, so two distinct sections sharing an id would be indistinguishable at the
row level). -/
theorem dpSecLoop_chain (cfg : DayConfig) (g : ID → List Activity)
    (secs : List Section) :
    ∀ st : DPState, (secs.map (fun s => s.id)).Nodup →
      List.Chain' (fun r r' => r'.startMin = r.endMin ∨
        (r.sectionId ≠ r'.sectionId ∧ r'.startMin = cfg.dayStartMin))
        (dpSecLoop cfg g secs st).1 ∧
      (∀ r ∈ (dpSecLoop cfg g secs st).1.head?,
        r.startMin = st.clock ∨ r.startMin = cfg.dayStartMin) := by
  induction secs with
  | nil =>
    intro st _
    exact ⟨List.chain'_nil, by simp [dpSecLoop]⟩
  | cons s rest ih =>
    intro st hnd
    simp only [List.map_cons] at hnd
    obtain ⟨hsid, hndrest⟩ := List.nodup_cons.mp hnd
    have key : ∀ st1 : DPState,
        st1.clock = st.clock ∨ st1.clock = cfg.dayStartMin →
        List.Chain' (fun r r' => r'.startMin = r.endMin ∨
          (r.sectionId ≠ r'.sectionId ∧ r'.startMin = cfg.dayStartMin))
          ((dpActLoop s (g s.id) st1.clock st1.msb).1 ++
            (dpSecLoop cfg g rest
              { st1 with clock := (dpActLoop s (g s.id) st1.clock st1.msb).2.1, msb := (dpActLoop s (g s.id) st1.clock st1.msb).2.2 }).1) ∧
        (∀ r ∈ ((dpActLoop s (g s.id) st1.clock st1.msb).1 ++
            (dpSecLoop cfg g rest
              { st1 with clock := (dpActLoop s (g s.id) st1.clock st1.msb).2.1, msb := (dpActLoop s (g s.id) st1.clock st1.msb).2.2 }).1).head?,
          r.startMin = st.clock ∨ r.startMin = cfg.dayStartMin) := by
      intro st1 hclock
      obtain ⟨hBrows, hBchain, hBhead, hBlast, hBnil⟩ :=
        dpActLoop_shape s (g s.id) st1.clock st1.msb
      obtain ⟨ihchain, ihhead⟩ :=
        ih { st1 with clock := (dpActLoop s (g s.id) st1.clock st1.msb).2.1, msb := (dpActLoop s (g s.id) st1.clock st1.msb).2.2 }
          hndrest
      constructor
      · refine List.Chain'.append (hBchain.imp ?_) ihchain ?_
        · intro a b hab
          exact Or.inl hab
        · intro x hx y hy
          rcases ihhead y hy with h1 | h2
          · left
            rw [h1]
            exact (hBlast x hx).symm
          · right
            refine ⟨?_, h2⟩
            have hx' := (hBrows x (List.mem_of_mem_getLast? hx)).2.1
            obtain ⟨_, s', hs', hy', _⟩ :=
              dpSecLoop_rows cfg g rest _ y (List.mem_of_mem_head? hy)
            rw [hx', hy']
            intro he
            rw [Option.some.injEq] at he
            exact hsid (List.mem_map.mpr ⟨s', hs', he.symm⟩)
      · intro r hr
        cases hB : (dpActLoop s (g s.id) st1.clock st1.msb).1 with
        | nil =>
          rw [hB, List.nil_append] at hr
          rcases ihhead r hr with h1 | h2
          · have hr1 : r.startMin = st1.clock := h1.trans (hBnil hB)
            rcases hclock with hc | hc
            · left
              exact hr1.trans hc
            · right
              exact hr1.trans hc
          · right
            exact h2
        | cons b bs =>
          rw [hB] at hr
          simp only [List.cons_append, List.head?_cons, Option.mem_def,
            Option.some.injEq] at hr
          have hb : b.startMin = st1.clock := hBhead b (by rw [hB]; rfl)
          rw [← hr]
          rcases hclock with hc | hc
          · left
            exact hb.trans hc
          · right
            exact hb.trans hc
    simp only [dpSecLoop]
    by_cases hres : s.dayNumber.getD st.curDay ≠ st.curDay
    · rw [if_pos hres]
      exact key _ (Or.inr rfl)
    · rw [if_neg hres]
      exact key st (Or.inl rfl)

/-- C8.  For every input to the Day-Partitioned Walker: (1) the output never
contains an overflow row or any synthesized row — every row is an uncomputed
activity row; (2) with distinct section ids, adjacent rows are consecutive
(`startMin` = previous `endMin`) except possibly at a section boundary,
where the clock can only have been reset to `dayStartMin` — in particular an
activity whose end passes `dayEndMin` is still placed at the current clock
and the next activity of the same section starts exactly where it ended,
never rolled to another day; (3) when no section carries a day number, the
tracked day never changes and no reset ever happens: all rows are
consecutive (the clock is reset only on entering a section whose day number
differs from the tracked day). -/
theorem c8_day_partitioned (cfg : DayConfig) (sections : List Section)
    (activities : List Activity) :
    (∀ r ∈ buildScheduleFromActivities cfg sections activities,
      r.computed = false ∧ ∃ a, r.kind = RowKind.activity a) ∧
    ((sections.map (fun s => s.id)).Nodup →
      List.Chain' (fun r r' => r'.startMin = r.endMin ∨
        (r.sectionId ≠ r'.sectionId ∧ r'.startMin = cfg.dayStartMin))
        (buildScheduleFromActivities cfg sections activities)) ∧
    ((∀ s ∈ sections, s.dayNumber = none) →
      List.Chain' (fun r r' => r'.startMin = r.endMin)
        (buildScheduleFromActivities cfg sections activities)) := by
  refine ⟨?_, ?_, ?_⟩
  · intro r hr
    simp only [buildScheduleFromActivities] at hr
    obtain ⟨hc, _, _, _, a, _, hk, _⟩ := dpSecLoop_rows cfg (actsFor sections activities)
      (sortByDayOrder sections) _ r hr
    exact ⟨hc, a, hk⟩
  · intro hnd
    have hnd' : ((sortByDayOrder sections).map (fun s => s.id)).Nodup :=
      (List.Perm.nodup_iff ((sortByDayOrder_perm sections).map _)).mpr hnd
    simp only [buildScheduleFromActivities]
    exact (dpSecLoop_chain cfg (actsFor sections activities)
      (sortByDayOrder sections) _ hnd').1
  · intro hnone
    simp only [buildScheduleFromActivities]
    refine (dpSecLoop_no_reset cfg (actsFor sections activities)
      (sortByDayOrder sections) _ ?_).1
    intro s hs
    rw [hnone s ((sortByDayOrder_perm sections).subset hs)]
    rfl

/-- C8 witness config. -/
def c8wcfg : DayConfig := { dayStartMin := 540, dayEndMin := 960 }

/-- C8 witness sections: two sections on days 1 and 2. -/
def c8wsecs : List Section :=
  [ { id := "s1", order := 1, dayNumber := some 1 },
    { id := "s2", order := 2, dayNumber := some 2 } ]

/-- C8 witness sections without day numbers. -/
def c8nsecs : List Section :=
  [ { id := "s1", order := 1 }, { id := "s2", order := 2 } ]

/-- C8 witness activities. -/
def c8wacts : List Activity :=
  [ { id := "b1", durationMin := 20, sectionId := "s1" },
    { id := "b2", durationMin := 20, sectionId := "s1" },
    { id := "b3", durationMin := 20, sectionId := "s2" } ]

/-- Witness for C8 at concrete inputs: the chain properties hold both for a
two-day section list (with a reset at the boundary) and for a day-less
section list (fully consecutive). -/
theorem c8_witness :
    ((c8wsecs.map (fun s => s.id)).Nodup ∧
      List.Chain' (fun r r' => r'.startMin = r.endMin ∨
        (r.sectionId ≠ r'.sectionId ∧ r'.startMin = c8wcfg.dayStartMin))
        (buildScheduleFromActivities c8wcfg c8wsecs c8wacts)) ∧
    ((∀ s ∈ c8nsecs, s.dayNumber = none) ∧
      List.Chain' (fun r r' => r'.startMin = r.endMin)
        (buildScheduleFromActivities c8wcfg c8nsecs c8wacts)) :=
  ⟨⟨by decide, (c8_day_partitioned c8wcfg c8wsecs c8wacts).2.1 (by decide)⟩,
    ⟨by decide, (c8_day_partitioned c8wcfg c8nsecs c8wacts).2.2 (by decide)⟩⟩

/-! ## C1: duration exactness and monotonicity -/

/-- The non-overflow rows of a row list. -/
def nonOverflowRows (l : List ComputedRow) : List ComputedRow :=
  l.filter (fun r => !isOverflowRow r)

theorem csActLoop_cons (cfg : DayConfig) (sec : Section) (a : Activity)
    (rest : List Activity) (st : CSState) :
    csActLoop cfg sec (a :: rest) st =
      (if (csPre cfg sec a st).2.clock + a.durationMin > cfg.dayEndMin then
        ((csPre cfg sec a st).1 ++
          [csActRow sec a (csPre cfg sec a st).2.clock,
            csOverflowRow cfg sec ((csPre cfg sec a st).2.clock + a.durationMin)],
          none)
      else
        ((csPre cfg sec a st).1 ++
          csActRow sec a (csPre cfg sec a st).2.clock ::
            (csActLoop cfg sec rest
              { clock := (csPre cfg sec a st).2.clock + a.durationMin
                msb := (csPre cfg sec a st).2.msb + a.durationMin
                lunchIns := (csPre cfg sec a st).2.lunchIns }).1,
          (csActLoop cfg sec rest
            { clock := (csPre cfg sec a st).2.clock + a.durationMin
              msb := (csPre cfg sec a st).2.msb + a.durationMin
              lunchIns := (csPre cfg sec a st).2.lunchIns }).2)) := rfl

/-- Every Direct Walker inner-loop row is a break, a lunch, an overflow, or
an activity row with exact duration. -/
theorem csActLoop_rows (cfg : DayConfig) (sec : Section) (acts : List Activity) :
    ∀ st, ∀ r ∈ (csActLoop cfg sec acts st).1,
      (∃ lbl, r.kind = RowKind.breakRow lbl) ∨ (∃ lbl, r.kind = RowKind.lunch lbl) ∨
      (∃ lbl, r.kind = RowKind.overflow lbl) ∨
      (∃ a, r.kind = RowKind.activity a ∧ r.endMin - r.startMin = a.durationMin) := by
  induction acts with
  | nil =>
    intro st r hr
    cases hr
  | cons a rest ih =>
    intro st r hr
    rw [csActLoop_cons] at hr
    by_cases hov : (csPre cfg sec a st).2.clock + a.durationMin > cfg.dayEndMin
    · rw [if_pos hov] at hr
      simp only at hr
      rcases List.mem_append.mp hr with h1 | h2
      · rcases csPre_kinds cfg sec a st r h1 with h | h
        · exact Or.inl h
        · exact Or.inr (Or.inl h)
      · rcases List.mem_cons.mp h2 with h3 | h4
        · subst h3
          exact Or.inr (Or.inr (Or.inr ⟨a, rfl, by simp [csActRow]⟩))
        · rw [List.mem_singleton] at h4
          subst h4
          exact Or.inr (Or.inr (Or.inl ⟨"Runs past end of day", rfl⟩))
    · rw [if_neg hov] at hr
      simp only at hr
      rcases List.mem_append.mp hr with h1 | h2
      · rcases csPre_kinds cfg sec a st r h1 with h | h
        · exact Or.inl h
        · exact Or.inr (Or.inl h)
      · rcases List.mem_cons.mp h2 with h3 | h4
        · subst h3
          exact Or.inr (Or.inr (Or.inr ⟨a, rfl, by simp [csActRow]⟩))
        · exact ih _ r h4

/-- Every Direct Walker row is a break, a lunch, an overflow, or an activity
row with exact duration. -/
theorem computeSchedule_rows (cfg : DayConfig) (sections : List Section)
    (activities : List Activity) :
    ∀ r ∈ computeSchedule cfg sections activities,
      (∃ lbl, r.kind = RowKind.breakRow lbl) ∨ (∃ lbl, r.kind = RowKind.lunch lbl) ∨
      (∃ lbl, r.kind = RowKind.overflow lbl) ∨
      (∃ a, r.kind = RowKind.activity a ∧ r.endMin - r.startMin = a.durationMin) := by
  have hsec : ∀ (secs : List Section) (st : CSState),
      ∀ r ∈ (csSecLoop cfg (actsFor sections activities) secs st).1,
        (∃ lbl, r.kind = RowKind.breakRow lbl) ∨ (∃ lbl, r.kind = RowKind.lunch lbl) ∨
        (∃ lbl, r.kind = RowKind.overflow lbl) ∨
        (∃ a, r.kind = RowKind.activity a ∧ r.endMin - r.startMin = a.durationMin) := by
    intro secs
    induction secs with
    | nil =>
      intro st r hr
      cases hr
    | cons s rest ih =>
      intro st r hr
      simp only [csSecLoop] at hr
      rcases h1 : csActLoop cfg s (actsFor sections activities s.id) st
        with ⟨rows₁, st₁?⟩
      rw [h1] at hr
      cases st₁? with
      | none =>
        simp only at hr
        exact csActLoop_rows cfg s _ st r (by rw [h1]; exact hr)
      | some st₁ =>
        simp only at hr
        rcases List.mem_append.mp hr with h2 | h3
        · exact csActLoop_rows cfg s _ st r (by rw [h1]; exact h2)
        · exact ih st₁ r h3
  intro r hr
  simp only [computeSchedule] at hr
  rcases hrun : csSecLoop cfg (actsFor sections activities) (sortByOrder sections)
      { clock := cfg.dayStartMin, msb := 0, lunchIns := false } with ⟨rows, st?⟩
  rw [hrun] at hr
  cases st? with
  | none =>
    exact hsec _ _ r (by rw [hrun]; exact hr)
  | some st =>
    simp only at hr
    rcases List.mem_append.mp hr with h1 | h2
    · exact hsec _ _ r (by rw [hrun]; exact h1)
    · obtain ⟨lbl, hk⟩ := csTrailingLunch_kinds cfg (sortByOrder sections) st r h2
      exact Or.inr (Or.inl ⟨lbl, hk⟩)

theorem brInjLoop_cons (cfg : DayConfig) (sec : Section) (inj : Injection)
    (rest : List Injection) (st : BRState) :
    brInjLoop cfg sec (inj :: rest) st =
      (if st.clock + inj.durationMin > cfg.dayEndMin then
        if st.dayIndex + 1 ≥ max 1 (cfg.numberOfDays.getD 1) then
          ([brOverflowRow cfg sec st.clock (st.clock + inj.durationMin)], none)
        else
          (brInjRow sec inj cfg.dayStartMin ::
            (brInjLoop cfg sec rest
              { dayIndex := st.dayIndex + 1, clock := cfg.dayStartMin + inj.durationMin }).1,
            (brInjLoop cfg sec rest
              { dayIndex := st.dayIndex + 1, clock := cfg.dayStartMin + inj.durationMin }).2)
      else
        (brInjRow sec inj st.clock ::
          (brInjLoop cfg sec rest
            { dayIndex := st.dayIndex, clock := st.clock + inj.durationMin }).1,
          (brInjLoop cfg sec rest
            { dayIndex := st.dayIndex, clock := st.clock + inj.durationMin }).2)) := rfl

/-- Every renderer injection-loop row is a break, a lunch or an overflow
row — never an activity row. -/
theorem brInjLoop_rows (cfg : DayConfig) (sec : Section) (injs : List Injection) :
    ∀ st, ∀ r ∈ (brInjLoop cfg sec injs st).1,
      (∃ lbl, r.kind = RowKind.breakRow lbl) ∨ (∃ lbl, r.kind = RowKind.lunch lbl) ∨
      ∃ lbl, r.kind = RowKind.overflow lbl := by
  induction injs with
  | nil =>
    intro st r hr
    cases hr
  | cons inj rest ih =>
    intro st r hr
    rw [brInjLoop_cons] at hr
    have hrowkind : ∀ c : Int,
        (∃ lbl, (brInjRow sec inj c).kind = RowKind.breakRow lbl) ∨
        (∃ lbl, (brInjRow sec inj c).kind = RowKind.lunch lbl) ∨
        ∃ lbl, (brInjRow sec inj c).kind = RowKind.overflow lbl := by
      intro c
      cases hty : inj.itype with
      | breakI => exact Or.inl ⟨inj.label, by simp [brInjRow, hty]⟩
      | lunchI => exact Or.inr (Or.inl ⟨inj.label, by simp [brInjRow, hty]⟩)
    by_cases hov : st.clock + inj.durationMin > cfg.dayEndMin
    · rw [if_pos hov] at hr
      by_cases hstop : st.dayIndex + 1 ≥ max 1 (cfg.numberOfDays.getD 1)
      · rw [if_pos hstop] at hr
        simp only at hr
        rw [List.mem_singleton] at hr
        subst hr
        exact Or.inr (Or.inr ⟨"Runs past end of schedule", rfl⟩)
      · rw [if_neg hstop] at hr
        simp only at hr
        rcases List.mem_cons.mp hr with h1 | h2
        · subst h1
          exact hrowkind _
        · exact ih _ r h2
    · rw [if_neg hov] at hr
      simp only at hr
      rcases List.mem_cons.mp hr with h1 | h2
      · subst h1
        exact hrowkind _
      · exact ih _ r h2

/-- Every renderer row is a break, a lunch, an overflow, or an activity row
with exact duration. -/
theorem brActLoop_rows (cfg : DayConfig) (sec : Section) (sInj : List Injection)
    (acts : List Activity) :
    ∀ st, ∀ r ∈ (brActLoop cfg sec sInj acts st).1,
      (∃ lbl, r.kind = RowKind.breakRow lbl) ∨ (∃ lbl, r.kind = RowKind.lunch lbl) ∨
      (∃ lbl, r.kind = RowKind.overflow lbl) ∨
      (∃ a, r.kind = RowKind.activity a ∧ r.endMin - r.startMin = a.durationMin) := by
  induction acts with
  | nil =>
    intro st r hr
    cases hr
  | cons a rest ih =>
    intro st r hr
    have key : ∀ st1 : BRState,
        r ∈ (match brInjLoop cfg sec
            (sInj.filter (fun i => i.anchorBeforeActivityId = a.id)) st1 with
          | (rows, none) => (rows, (none : Option BRState))
          | (rows, some st2) =>
            (rows ++ csActRow sec a st2.clock ::
              (brActLoop cfg sec sInj rest
                { dayIndex := st2.dayIndex, clock := st2.clock + a.durationMin }).1,
              (brActLoop cfg sec sInj rest
                { dayIndex := st2.dayIndex, clock := st2.clock + a.durationMin }).2)).1 →
        (∃ lbl, r.kind = RowKind.breakRow lbl) ∨ (∃ lbl, r.kind = RowKind.lunch lbl) ∨
        (∃ lbl, r.kind = RowKind.overflow lbl) ∨
        (∃ a, r.kind = RowKind.activity a ∧ r.endMin - r.startMin = a.durationMin) := by
      intro st1 hm
      rcases hj : brInjLoop cfg sec
          (sInj.filter (fun i => i.anchorBeforeActivityId = a.id)) st1 with ⟨rows₁, st₂?⟩
      rw [hj] at hm
      cases st₂? with
      | none =>
        simp only at hm
        rcases brInjLoop_rows cfg sec _ st1 r (by rw [hj]; exact hm) with h | h | h
        · exact Or.inl h
        · exact Or.inr (Or.inl h)
        · exact Or.inr (Or.inr (Or.inl h))
      | some st₂ =>
        simp only at hm
        rcases List.mem_append.mp hm with h1 | h2
        · rcases brInjLoop_rows cfg sec _ st1 r (by rw [hj]; exact h1) with h | h | h
          · exact Or.inl h
          · exact Or.inr (Or.inl h)
          · exact Or.inr (Or.inr (Or.inl h))
        · rcases List.mem_cons.mp h2 with h3 | h4
          · subst h3
            exact Or.inr (Or.inr (Or.inr ⟨a, rfl, by simp [csActRow]⟩))
          · exact ih _ r h4
    rw [show brActLoop cfg sec sInj (a :: rest) st =
        (if st.clock + a.durationMin > cfg.dayEndMin then
          if st.dayIndex + 1 ≥ max 1 (cfg.numberOfDays.getD 1) then
            ([brOverflowRow cfg sec st.clock (st.clock + a.durationMin)], none)
          else
            match brInjLoop cfg sec
                (sInj.filter (fun i => i.anchorBeforeActivityId = a.id))
                { dayIndex := st.dayIndex + 1, clock := cfg.dayStartMin } with
            | (rows, none) => (rows, none)
            | (rows, some st2) =>
              (rows ++ csActRow sec a st2.clock ::
                (brActLoop cfg sec sInj rest
                  { dayIndex := st2.dayIndex, clock := st2.clock + a.durationMin }).1,
                (brActLoop cfg sec sInj rest
                  { dayIndex := st2.dayIndex, clock := st2.clock + a.durationMin }).2)
        else
          match brInjLoop cfg sec
              (sInj.filter (fun i => i.anchorBeforeActivityId = a.id)) st with
          | (rows, none) => (rows, none)
          | (rows, some st2) =>
            (rows ++ csActRow sec a st2.clock ::
              (brActLoop cfg sec sInj rest
                { dayIndex := st2.dayIndex, clock := st2.clock + a.durationMin }).1,
              (brActLoop cfg sec sInj rest
                { dayIndex := st2.dayIndex, clock := st2.clock + a.durationMin }).2))
      from rfl] at hr
    by_cases hov : st.clock + a.durationMin > cfg.dayEndMin
    · rw [if_pos hov] at hr
      by_cases hstop : st.dayIndex + 1 ≥ max 1 (cfg.numberOfDays.getD 1)
      · rw [if_pos hstop] at hr
        simp only at hr
        rw [List.mem_singleton] at hr
        subst hr
        exact Or.inr (Or.inr (Or.inl ⟨"Runs past end of schedule", rfl⟩))
      · rw [if_neg hstop] at hr
        exact key _ hr
    · rw [if_neg hov] at hr
      exact key _ hr

/-- Every row of the Injection Renderer is a break, lunch or overflow row,
or an activity row with exact duration. -/
theorem buildScheduleWithInjections_rows (cfg : DayConfig) (sections : List Section)
    (activities : List Activity) (injs : List Injection) :
    ∀ r ∈ buildScheduleWithInjections cfg sections activities injs,
      (∃ lbl, r.kind = RowKind.breakRow lbl) ∨ (∃ lbl, r.kind = RowKind.lunch lbl) ∨
      (∃ lbl, r.kind = RowKind.overflow lbl) ∨
      (∃ a, r.kind = RowKind.activity a ∧ r.endMin - r.startMin = a.durationMin) := by
  have hsec : ∀ (secs : List Section) (st : BRState),
      ∀ r ∈ (brSecLoop cfg (actsFor sections activities) injs secs st).1,
        (∃ lbl, r.kind = RowKind.breakRow lbl) ∨ (∃ lbl, r.kind = RowKind.lunch lbl) ∨
        (∃ lbl, r.kind = RowKind.overflow lbl) ∨
        (∃ a, r.kind = RowKind.activity a ∧ r.endMin - r.startMin = a.durationMin) := by
    intro secs
    induction secs with
    | nil =>
      intro st r hr
      cases hr
    | cons s rest ih =>
      intro st r hr
      simp only [brSecLoop] at hr
      rcases h1 : brActLoop cfg s
          (sortInjByAnchor (injs.filter (fun inj => inj.sectionId = s.id)))
          (actsFor sections activities s.id) st with ⟨rows₁, st₁?⟩
      rw [h1] at hr
      cases st₁? with
      | none =>
        simp only at hr
        exact brActLoop_rows cfg s _ _ st r (by rw [h1]; exact hr)
      | some st₁ =>
        simp only at hr
        rcases List.mem_append.mp hr with h2 | h3
        · exact brActLoop_rows cfg s _ _ st r (by rw [h1]; exact h2)
        · exact ih st₁ r h3
  intro r hr
  simp only [buildScheduleWithInjections] at hr
  exact hsec (sortByOrder sections) _ r hr

theorem isOverflowRow_csActRow (sec : Section) (a : Activity) (c : Int) :
    isOverflowRow (csActRow sec a c) = false := rfl

theorem isOverflowRow_csOverflowRow (cfg : DayConfig) (sec : Section) (c : Int) :
    isOverflowRow (csOverflowRow cfg sec c) = true := rfl

theorem chain'_le_of_const (c : Int) (l : List ComputedRow)
    (h : ∀ r ∈ l, r.startMin = c) :
    List.Chain' (fun r r' => r.startMin ≤ r'.startMin) l := by
  induction l with
  | nil => exact List.chain'_nil
  | cons x xs ih =>
    refine List.Chain'.cons' (ih fun r hr => h r (List.mem_cons_of_mem x hr)) ?_
    intro y hy
    rw [h x (List.mem_cons_self x xs),
      h y (List.mem_cons_of_mem x (List.mem_of_mem_head? hy))]

theorem chain_le_of_consecutive :
    ∀ l : List ComputedRow,
      List.Chain' (fun r r' => r'.startMin = r.endMin) l →
      (∀ r ∈ l, r.startMin ≤ r.endMin) →
      List.Chain' (fun r r' => r.startMin ≤ r'.startMin) l
  | [], _, _ => List.chain'_nil
  | [x], _, _ => List.chain'_singleton x
  | x :: y :: xs, hc, hd => by
    rw [List.chain'_cons] at hc ⊢
    refine ⟨?_, chain_le_of_consecutive (y :: xs) hc.2
      (fun r hr => hd r (List.mem_cons_of_mem x hr))⟩
    rw [hc.1]
    exact hd x (List.mem_cons_self x (y :: xs))

/-- The pre-activity rows of the Direct Walker start at the current clock,
end at the advanced clock, and never move the clock backwards when break and
lunch durations are nonnegative. -/
theorem csPre_clock_rows (cfg : DayConfig) (sec : Section) (a : Activity)
    (st : CSState) (hb : 0 ≤ cfg.breakDurationMin.getD 0)
    (hl : 0 ≤ cfg.lunchDurationMin.getD 0) :
    st.clock ≤ (csPre cfg sec a st).2.clock ∧
    ∀ r ∈ (csPre cfg sec a st).1,
      r.startMin = st.clock ∧ r.endMin = (csPre cfg sec a st).2.clock := by
  simp only [csPre]
  split_ifs with h1 h2
  · refine ⟨?_, ?_⟩
    · show st.clock ≤ st.clock + cfg.lunchDurationMin.getD 0
      omega
    · show ∀ r ∈ [(pushBreak "Lunch" (some sec.id) (cfg.lunchDurationMin.getD 0) st).1],
        r.startMin = st.clock ∧
          r.endMin = st.clock + cfg.lunchDurationMin.getD 0
      intro r hr
      rw [List.mem_singleton] at hr
      subst hr
      exact ⟨rfl, rfl⟩
  · refine ⟨?_, ?_⟩
    · show st.clock ≤ st.clock + cfg.breakDurationMin.getD 0
      omega
    · show ∀ r ∈ [(pushBreak "Break" (some sec.id) (cfg.breakDurationMin.getD 0) st).1],
        r.startMin = st.clock ∧
          r.endMin = st.clock + cfg.breakDurationMin.getD 0
      intro r hr
      rw [List.mem_singleton] at hr
      subst hr
      exact ⟨rfl, rfl⟩
  · exact ⟨le_refl _, fun r hr => absurd hr (List.not_mem_nil r)⟩

/-- Monotonicity invariant of the Direct Walker's inner loop: with
nonnegative durations the non-overflow rows are sorted by `startMin`, start
no earlier than the incoming clock, and (when the loop completes) end no
later than the final clock, which never went backwards. -/
theorem csActLoop_mono (cfg : DayConfig) (sec : Section)
    (hb : 0 ≤ cfg.breakDurationMin.getD 0) (hl : 0 ≤ cfg.lunchDurationMin.getD 0)
    (acts : List Activity) :
    ∀ st, (∀ a ∈ acts, 0 ≤ a.durationMin) →
      List.Chain' (fun r r' => r.startMin ≤ r'.startMin)
        (nonOverflowRows (csActLoop cfg sec acts st).1) ∧
      (∀ r ∈ nonOverflowRows (csActLoop cfg sec acts st).1, st.clock ≤ r.startMin) ∧
      (∀ st', (csActLoop cfg sec acts st).2 = some st' →
        st.clock ≤ st'.clock ∧
        ∀ r ∈ nonOverflowRows (csActLoop cfg sec acts st).1,
          r.startMin ≤ st'.clock) := by
  induction acts with
  | nil =>
    intro st _
    refine ⟨List.chain'_nil, fun r hr => absurd hr (List.not_mem_nil r), ?_⟩
    intro st' h
    simp only [csActLoop] at h
    rw [Option.some.injEq] at h
    subst h
    exact ⟨le_refl _, fun r hr => absurd hr (List.not_mem_nil r)⟩
  | cons a rest ih =>
    intro st hd
    have hda : 0 ≤ a.durationMin := hd a (List.mem_cons_self a rest)
    obtain ⟨hpc, hpr⟩ := csPre_clock_rows cfg sec a st hb hl
    have hpreNO : nonOverflowRows (csPre cfg sec a st).1 = (csPre cfg sec a st).1 := by
      unfold nonOverflowRows
      apply List.filter_eq_self.mpr
      intro r hr
      rcases csPre_kinds cfg sec a st r hr with ⟨l, hk⟩ | ⟨l, hk⟩ <;>
        simp [isOverflowRow, hk]
    have hrowstart : (csActRow sec a (csPre cfg sec a st).2.clock).startMin =
        (csPre cfg sec a st).2.clock := rfl
    by_cases hov : (csPre cfg sec a st).2.clock + a.durationMin > cfg.dayEndMin
    · have hE : csActLoop cfg sec (a :: rest) st =
          ((csPre cfg sec a st).1 ++
            [csActRow sec a (csPre cfg sec a st).2.clock,
              csOverflowRow cfg sec ((csPre cfg sec a st).2.clock + a.durationMin)],
            none) := by
        rw [csActLoop_cons, if_pos hov]
      have hfilter : nonOverflowRows ((csPre cfg sec a st).1 ++
          [csActRow sec a (csPre cfg sec a st).2.clock,
            csOverflowRow cfg sec ((csPre cfg sec a st).2.clock + a.durationMin)]) =
          (csPre cfg sec a st).1 ++ [csActRow sec a (csPre cfg sec a st).2.clock] := by
        unfold nonOverflowRows at hpreNO ⊢
        rw [List.filter_append, hpreNO]
        simp [List.filter_cons, isOverflowRow_csActRow, isOverflowRow_csOverflowRow]
      refine ⟨?_, ?_, ?_⟩
      · rw [hE]
        show List.Chain' _ (nonOverflowRows ((csPre cfg sec a st).1 ++
          [csActRow sec a (csPre cfg sec a st).2.clock,
            csOverflowRow cfg sec ((csPre cfg sec a st).2.clock + a.durationMin)]))
        rw [hfilter]
        refine List.Chain'.append
          (chain'_le_of_const st.clock _ (fun r hr => (hpr r hr).1))
          (List.chain'_singleton _) ?_
        intro x hx y hy
        rw [(hpr x (List.mem_of_mem_getLast? hx)).1]
        simp only [List.head?_cons, Option.mem_def, Option.some.injEq] at hy
        rw [← hy, hrowstart]
        exact hpc
      · rw [hE]
        show ∀ r ∈ nonOverflowRows ((csPre cfg sec a st).1 ++
          [csActRow sec a (csPre cfg sec a st).2.clock,
            csOverflowRow cfg sec ((csPre cfg sec a st).2.clock + a.durationMin)]),
          st.clock ≤ r.startMin
        rw [hfilter]
        intro r hr
        rcases List.mem_append.mp hr with h1 | h2
        · rw [(hpr r h1).1]
        · rw [List.mem_singleton] at h2
          subst h2
          rw [hrowstart]
          exact hpc
      · intro st' h
        rw [hE] at h
        simp at h
    · have hE : csActLoop cfg sec (a :: rest) st =
          ((csPre cfg sec a st).1 ++
            csActRow sec a (csPre cfg sec a st).2.clock ::
              (csActLoop cfg sec rest
                { clock := (csPre cfg sec a st).2.clock + a.durationMin
                  msb := (csPre cfg sec a st).2.msb + a.durationMin
                  lunchIns := (csPre cfg sec a st).2.lunchIns }).1,
            (csActLoop cfg sec rest
              { clock := (csPre cfg sec a st).2.clock + a.durationMin
                msb := (csPre cfg sec a st).2.msb + a.durationMin
                lunchIns := (csPre cfg sec a st).2.lunchIns }).2) := by
        rw [csActLoop_cons, if_neg hov]
      obtain ⟨ihchain, ihlb, ihcont⟩ :=
        ih { clock := (csPre cfg sec a st).2.clock + a.durationMin
             msb := (csPre cfg sec a st).2.msb + a.durationMin
             lunchIns := (csPre cfg sec a st).2.lunchIns }
          (fun b hb' => hd b (List.mem_cons_of_mem a hb'))
      have hst2clock : ({ clock := (csPre cfg sec a st).2.clock + a.durationMin, msb := (csPre cfg sec a st).2.msb + a.durationMin, lunchIns := (csPre cfg sec a st).2.lunchIns } : CSState).clock = (csPre cfg sec a st).2.clock + a.durationMin := rfl
      have hfilter : nonOverflowRows ((csPre cfg sec a st).1 ++
          csActRow sec a (csPre cfg sec a st).2.clock ::
            (csActLoop cfg sec rest
              { clock := (csPre cfg sec a st).2.clock + a.durationMin
                msb := (csPre cfg sec a st).2.msb + a.durationMin
                lunchIns := (csPre cfg sec a st).2.lunchIns }).1) =
          (csPre cfg sec a st).1 ++
            csActRow sec a (csPre cfg sec a st).2.clock ::
              nonOverflowRows (csActLoop cfg sec rest
                { clock := (csPre cfg sec a st).2.clock + a.durationMin
                  msb := (csPre cfg sec a st).2.msb + a.durationMin
                  lunchIns := (csPre cfg sec a st).2.lunchIns }).1 := by
        unfold nonOverflowRows at hpreNO ⊢
        rw [List.filter_append, hpreNO]
        simp [List.filter_cons, isOverflowRow_csActRow]
      have hstep : st.clock ≤ (csPre cfg sec a st).2.clock + a.durationMin := by omega
      refine ⟨?_, ?_, ?_⟩
      · rw [hE]
        show List.Chain' _ (nonOverflowRows ((csPre cfg sec a st).1 ++
          csActRow sec a (csPre cfg sec a st).2.clock ::
            (csActLoop cfg sec rest
              { clock := (csPre cfg sec a st).2.clock + a.durationMin
                msb := (csPre cfg sec a st).2.msb + a.durationMin
                lunchIns := (csPre cfg sec a st).2.lunchIns }).1))
        rw [hfilter]
        refine List.Chain'.append
          (chain'_le_of_const st.clock _ (fun r hr => (hpr r hr).1))
          (List.Chain'.cons' ihchain ?_) ?_
        · intro y hy
          have := ihlb y (List.mem_of_mem_head? hy)
          rw [hrowstart]
          omega
        · intro x hx y hy
          rw [(hpr x (List.mem_of_mem_getLast? hx)).1]
          simp only [List.head?_cons, Option.mem_def, Option.some.injEq] at hy
          rw [← hy, hrowstart]
          exact hpc
      · rw [hE]
        show ∀ r ∈ nonOverflowRows ((csPre cfg sec a st).1 ++
          csActRow sec a (csPre cfg sec a st).2.clock ::
            (csActLoop cfg sec rest
              { clock := (csPre cfg sec a st).2.clock + a.durationMin
                msb := (csPre cfg sec a st).2.msb + a.durationMin
                lunchIns := (csPre cfg sec a st).2.lunchIns }).1),
          st.clock ≤ r.startMin
        rw [hfilter]
        intro r hr
        rcases List.mem_append.mp hr with h1 | h2
        · rw [(hpr r h1).1]
        · rcases List.mem_cons.mp h2 with h3 | h4
          · subst h3
            rw [hrowstart]
            exact hpc
          · have := ihlb r h4
            omega
      · intro st' h
        rw [hE] at h
        simp only at h
        obtain ⟨hle, hbound⟩ := ihcont st' h
        constructor
        · omega
        · rw [hE]
          show ∀ r ∈ nonOverflowRows ((csPre cfg sec a st).1 ++
            csActRow sec a (csPre cfg sec a st).2.clock ::
              (csActLoop cfg sec rest
                { clock := (csPre cfg sec a st).2.clock + a.durationMin
                  msb := (csPre cfg sec a st).2.msb + a.durationMin
                  lunchIns := (csPre cfg sec a st).2.lunchIns }).1),
            r.startMin ≤ st'.clock
          rw [hfilter]
          intro r hr
          rcases List.mem_append.mp hr with h1 | h2
          · rw [(hpr r h1).1]
            omega
          · rcases List.mem_cons.mp h2 with h3 | h4
            · subst h3
              rw [hrowstart]
              omega
            · exact hbound r h4

/-- Monotonicity invariant of the Direct Walker's outer loop. -/
theorem csSecLoop_mono (cfg : DayConfig) (g : ID → List Activity)
    (hb : 0 ≤ cfg.breakDurationMin.getD 0) (hl : 0 ≤ cfg.lunchDurationMin.getD 0)
    (hg : ∀ sid, ∀ a ∈ g sid, 0 ≤ a.durationMin) (secs : List Section) :
    ∀ st,
      List.Chain' (fun r r' => r.startMin ≤ r'.startMin)
        (nonOverflowRows (csSecLoop cfg g secs st).1) ∧
      (∀ r ∈ nonOverflowRows (csSecLoop cfg g secs st).1, st.clock ≤ r.startMin) ∧
      (∀ st', (csSecLoop cfg g secs st).2 = some st' →
        st.clock ≤ st'.clock ∧
        ∀ r ∈ nonOverflowRows (csSecLoop cfg g secs st).1,
          r.startMin ≤ st'.clock) := by
  induction secs with
  | nil =>
    intro st
    refine ⟨List.chain'_nil, fun r hr => absurd hr (List.not_mem_nil r), ?_⟩
    intro st' h
    simp only [csSecLoop] at h
    rw [Option.some.injEq] at h
    subst h
    exact ⟨le_refl _, fun r hr => absurd hr (List.not_mem_nil r)⟩
  | cons s rest ih =>
    intro st
    obtain ⟨achain, alb, acont⟩ := csActLoop_mono cfg s hb hl (g s.id) st (hg s.id)
    rcases h1 : csActLoop cfg s (g s.id) st with ⟨rows₁, st₁?⟩
    have hE : csSecLoop cfg g (s :: rest) st =
        (match (rows₁, st₁?) with
          | (rows, none) => (rows, none)
          | (rows, some st') =>
            (rows ++ (csSecLoop cfg g rest st').1, (csSecLoop cfg g rest st').2)) := by
      simp only [csSecLoop, h1]
    rw [h1] at achain alb acont
    cases st₁? with
    | none =>
      simp only at hE
      refine ⟨?_, ?_, ?_⟩
      · rw [hE]
        exact achain
      · rw [hE]
        exact alb
      · intro st' h
        rw [hE] at h
        simp at h
    | some st₁ =>
      simp only at hE
      obtain ⟨hle₁, hbound₁⟩ := acont st₁ rfl
      obtain ⟨ihchain, ihlb, ihcont⟩ := ih st₁
      have hfilter : nonOverflowRows (rows₁ ++ (csSecLoop cfg g rest st₁).1) =
          nonOverflowRows rows₁ ++ nonOverflowRows (csSecLoop cfg g rest st₁).1 := by
        unfold nonOverflowRows
        exact List.filter_append _ _
      refine ⟨?_, ?_, ?_⟩
      · rw [hE]
        show List.Chain' _ (nonOverflowRows (rows₁ ++ (csSecLoop cfg g rest st₁).1))
        rw [hfilter]
        refine List.Chain'.append achain ihchain ?_
        intro x hx y hy
        have hx' := hbound₁ x (List.mem_of_mem_getLast? hx)
        have hy' := ihlb y (List.mem_of_mem_head? hy)
        omega
      · rw [hE]
        show ∀ r ∈ nonOverflowRows (rows₁ ++ (csSecLoop cfg g rest st₁).1),
          st.clock ≤ r.startMin
        rw [hfilter]
        intro r hr
        rcases List.mem_append.mp hr with hr1 | hr2
        · exact alb r hr1
        · have := ihlb r hr2
          omega
      · intro st' h
        rw [hE] at h
        simp only at h
        obtain ⟨hle₂, hbound₂⟩ := ihcont st' h
        refine ⟨by omega, ?_⟩
        rw [hE]
        show ∀ r ∈ nonOverflowRows (rows₁ ++ (csSecLoop cfg g rest st₁).1),
          r.startMin ≤ st'.clock
        rw [hfilter]
        intro r hr
        rcases List.mem_append.mp hr with hr1 | hr2
        · have := hbound₁ r hr1
          omega
        · exact hbound₂ r hr2

theorem csTrailingLunch_start (cfg : DayConfig) (ordered : List Section)
    (st : CSState) :
    ∀ r ∈ csTrailingLunch cfg ordered st, r.startMin = st.clock := by
  intro r hr
  simp only [csTrailingLunch] at hr
  split at hr
  · rw [List.mem_singleton] at hr
    subst hr
    rfl
  · cases hr

/-- Direct Walker monotonicity: with nonnegative break, lunch and activity
durations the non-overflow rows of `computeSchedule` are monotonically
non-decreasing in `startMin`. -/
theorem computeSchedule_mono (cfg : DayConfig) (sections : List Section)
    (activities : List Activity) (hb : 0 ≤ cfg.breakDurationMin.getD 0)
    (hl : 0 ≤ cfg.lunchDurationMin.getD 0)
    (hacts : ∀ a ∈ activities, 0 ≤ a.durationMin) :
    List.Chain' (fun r r' => r.startMin ≤ r'.startMin)
      (nonOverflowRows (computeSchedule cfg sections activities)) := by
  have hg : ∀ sid, ∀ a ∈ actsFor sections activities sid, 0 ≤ a.durationMin :=
    fun sid a ha => hacts a (mem_actsFor ha)
  obtain ⟨hchain, hlb, hcont⟩ := csSecLoop_mono cfg (actsFor sections activities)
    hb hl hg (sortByOrder sections)
    { clock := cfg.dayStartMin, msb := 0, lunchIns := false }
  rcases hrun : csSecLoop cfg (actsFor sections activities) (sortByOrder sections)
      { clock := cfg.dayStartMin, msb := 0, lunchIns := false } with ⟨rows, st?⟩
  rw [hrun] at hchain hlb hcont
  simp only [computeSchedule]
  rw [hrun]
  cases st? with
  | none => exact hchain
  | some st =>
    simp only
    obtain ⟨hle, hbound⟩ := hcont st rfl
    have hTkeep : nonOverflowRows (csTrailingLunch cfg (sortByOrder sections) st) =
        csTrailingLunch cfg (sortByOrder sections) st := by
      unfold nonOverflowRows
      apply List.filter_eq_self.mpr
      intro r hr
      obtain ⟨lbl, hk⟩ := csTrailingLunch_kinds cfg (sortByOrder sections) st r hr
      simp [isOverflowRow, hk]
    have hfilter : nonOverflowRows (rows ++ csTrailingLunch cfg (sortByOrder sections) st) =
        nonOverflowRows rows ++ csTrailingLunch cfg (sortByOrder sections) st := by
      unfold nonOverflowRows at hTkeep ⊢
      rw [List.filter_append, hTkeep]
    rw [hfilter]
    refine List.Chain'.append hchain
      (chain'_le_of_const st.clock _
        (csTrailingLunch_start cfg (sortByOrder sections) st)) ?_
    intro x hx y hy
    have hx' := hbound x (List.mem_of_mem_getLast? hx)
    have hy' := csTrailingLunch_start cfg (sortByOrder sections) st y
      (List.mem_of_mem_head? hy)
    omega

theorem brActLoop_cons (cfg : DayConfig) (sec : Section) (sInj : List Injection)
    (a : Activity) (rest : List Activity) (st : BRState) :
    brActLoop cfg sec sInj (a :: rest) st =
      (if st.clock + a.durationMin > cfg.dayEndMin then
        if st.dayIndex + 1 ≥ max 1 (cfg.numberOfDays.getD 1) then
          ([brOverflowRow cfg sec st.clock (st.clock + a.durationMin)], none)
        else
          match brInjLoop cfg sec
              (sInj.filter (fun i => i.anchorBeforeActivityId = a.id))
              { dayIndex := st.dayIndex + 1, clock := cfg.dayStartMin } with
          | (rows, none) => (rows, none)
          | (rows, some st2) =>
            (rows ++ csActRow sec a st2.clock ::
              (brActLoop cfg sec sInj rest
                { dayIndex := st2.dayIndex, clock := st2.clock + a.durationMin }).1,
              (brActLoop cfg sec sInj rest
                { dayIndex := st2.dayIndex, clock := st2.clock + a.durationMin }).2)
      else
        match brInjLoop cfg sec
            (sInj.filter (fun i => i.anchorBeforeActivityId = a.id)) st with
        | (rows, none) => (rows, none)
        | (rows, some st2) =>
          (rows ++ csActRow sec a st2.clock ::
            (brActLoop cfg sec sInj rest
              { dayIndex := st2.dayIndex, clock := st2.clock + a.durationMin }).1,
            (brActLoop cfg sec sInj rest
              { dayIndex := st2.dayIndex, clock := st2.clock + a.durationMin }).2)) := rfl

/-- Monotonicity invariant of the renderer's injection loop (single-day
configuration): rows are sorted, start no earlier than the incoming clock,
and on completion the clock has not gone backwards and stays within the
day. -/
theorem brInjLoop_inv (cfg : DayConfig) (sec : Section)
    (hnum : cfg.numberOfDays.getD 1 ≤ 1) (injs : List Injection) :
    ∀ st : BRState, st.clock ≤ cfg.dayEndMin → 0 ≤ st.dayIndex →
      (∀ i ∈ injs, 0 ≤ i.durationMin) →
      List.Chain' (fun r r' => r.startMin ≤ r'.startMin) (brInjLoop cfg sec injs st).1 ∧
      (∀ r ∈ (brInjLoop cfg sec injs st).1, st.clock ≤ r.startMin) ∧
      (∀ st', (brInjLoop cfg sec injs st).2 = some st' →
        st.clock ≤ st'.clock ∧ st'.clock ≤ cfg.dayEndMin ∧
        st'.dayIndex = st.dayIndex ∧
        ∀ r ∈ (brInjLoop cfg sec injs st).1, r.startMin ≤ st'.clock) := by
  have hN : max 1 (cfg.numberOfDays.getD 1) = 1 := max_eq_left hnum
  induction injs with
  | nil =>
    intro st hcl hd _
    refine ⟨List.chain'_nil, fun r hr => absurd hr (List.not_mem_nil r), ?_⟩
    intro st' h
    simp only [brInjLoop] at h
    rw [Option.some.injEq] at h
    subst h
    exact ⟨le_refl _, hcl, rfl, fun r hr => absurd hr (List.not_mem_nil r)⟩
  | cons inj rest ih =>
    intro st hcl hd hdur
    have hdi : 0 ≤ inj.durationMin := hdur inj (List.mem_cons_self inj rest)
    by_cases hov : st.clock + inj.durationMin > cfg.dayEndMin
    · have hstop : st.dayIndex + 1 ≥ max 1 (cfg.numberOfDays.getD 1) := by
        rw [hN]
        omega
      have hE : brInjLoop cfg sec (inj :: rest) st =
          ([brOverflowRow cfg sec st.clock (st.clock + inj.durationMin)], none) := by
        rw [brInjLoop_cons, if_pos hov, if_pos hstop]
      refine ⟨?_, ?_, ?_⟩
      · rw [hE]
        exact List.chain'_singleton _
      · rw [hE]
        intro r hr
        rw [List.mem_singleton] at hr
        subst hr
        exact hcl
      · intro st' h
        rw [hE] at h
        simp at h
    · have hE : brInjLoop cfg sec (inj :: rest) st =
          (brInjRow sec inj st.clock ::
            (brInjLoop cfg sec rest
              { dayIndex := st.dayIndex, clock := st.clock + inj.durationMin }).1,
            (brInjLoop cfg sec rest
              { dayIndex := st.dayIndex, clock := st.clock + inj.durationMin }).2) := by
        rw [brInjLoop_cons, if_neg hov]
      obtain ⟨ihchain, ihlb, ihcont⟩ :=
        ih { dayIndex := st.dayIndex, clock := st.clock + inj.durationMin }
          (by show st.clock + inj.durationMin ≤ cfg.dayEndMin; omega)
          (by show (0 : Int) ≤ st.dayIndex; exact hd)
          (fun i hi => hdur i (List.mem_cons_of_mem inj hi))
      have hrowst : (brInjRow sec inj st.clock).startMin = st.clock := rfl
      have hstc : ({ dayIndex := st.dayIndex, clock := st.clock + inj.durationMin } : BRState).clock = st.clock + inj.durationMin := rfl
      refine ⟨?_, ?_, ?_⟩
      · rw [hE]
        refine List.Chain'.cons' ihchain ?_
        intro y hy
        have := ihlb y (List.mem_of_mem_head? hy)
        omega
      · rw [hE]
        intro r hr
        rcases List.mem_cons.mp hr with h1 | h2
        · subst h1
          omega
        · have := ihlb r h2
          omega
      · intro st' h
        rw [hE] at h
        simp only at h
        obtain ⟨h1, h2, h3, h4⟩ := ihcont st' h
        refine ⟨by omega, h2, h3, ?_⟩
        rw [hE]
        intro r hr
        rcases List.mem_cons.mp hr with hr1 | hr2
        · subst hr1
          omega
        · exact h4 r hr2

/-- Monotonicity invariant of the renderer's activity loop (single-day
configuration).  The clock can overrun `dayEndMin` (an activity placed after
injections is not rechecked), but every row still starts at or before
`dayEndMin`, which is what keeps the overflow row in order. -/
theorem brActLoop_inv (cfg : DayConfig) (sec : Section)
    (hnum : cfg.numberOfDays.getD 1 ≤ 1) (sInj : List Injection)
    (hsdur : ∀ i ∈ sInj, 0 ≤ i.durationMin) (acts : List Activity) :
    ∀ st : BRState, 0 ≤ st.dayIndex → (∀ a ∈ acts, 0 ≤ a.durationMin) →
      List.Chain' (fun r r' => r.startMin ≤ r'.startMin)
        (brActLoop cfg sec sInj acts st).1 ∧
      (∀ r ∈ (brActLoop cfg sec sInj acts st).1,
        st.clock ≤ r.startMin ∨ r.startMin = cfg.dayEndMin) ∧
      (∀ st', (brActLoop cfg sec sInj acts st).2 = some st' →
        st.clock ≤ st'.clock ∧ st'.dayIndex = st.dayIndex ∧
        ∀ r ∈ (brActLoop cfg sec sInj acts st).1,
          r.startMin ≤ st'.clock ∧ r.startMin ≤ cfg.dayEndMin) := by
  have hN : max 1 (cfg.numberOfDays.getD 1) = 1 := max_eq_left hnum
  induction acts with
  | nil =>
    intro st hd _
    refine ⟨List.chain'_nil, fun r hr => absurd hr (List.not_mem_nil r), ?_⟩
    intro st' h
    simp only [brActLoop] at h
    rw [Option.some.injEq] at h
    subst h
    exact ⟨le_refl _, rfl, fun r hr => absurd hr (List.not_mem_nil r)⟩
  | cons a rest ih =>
    intro st hd hadur
    have hda : 0 ≤ a.durationMin := hadur a (List.mem_cons_self a rest)
    by_cases hov : st.clock + a.durationMin > cfg.dayEndMin
    · have hstop : st.dayIndex + 1 ≥ max 1 (cfg.numberOfDays.getD 1) := by
        rw [hN]
        omega
      have hE : brActLoop cfg sec sInj (a :: rest) st =
          ([brOverflowRow cfg sec st.clock (st.clock + a.durationMin)], none) := by
        rw [brActLoop_cons, if_pos hov, if_pos hstop]
      refine ⟨?_, ?_, ?_⟩
      · rw [hE]
        exact List.chain'_singleton _
      · rw [hE]
        intro r hr
        rw [List.mem_singleton] at hr
        subst hr
        right
        rfl
      · intro st' h
        rw [hE] at h
        simp at h
    · have hcl : st.clock ≤ cfg.dayEndMin := by omega
      have hfdur : ∀ i ∈ sInj.filter (fun i => i.anchorBeforeActivityId = a.id),
          0 ≤ i.durationMin := fun i hi => hsdur i (List.mem_of_mem_filter hi)
      obtain ⟨jchain, jlb, jcont⟩ := brInjLoop_inv cfg sec hnum
        (sInj.filter (fun i => i.anchorBeforeActivityId = a.id)) st hcl hd hfdur
      rcases hj : brInjLoop cfg sec
          (sInj.filter (fun i => i.anchorBeforeActivityId = a.id)) st
        with ⟨rows₁, st₂?⟩
      rw [hj] at jchain jlb jcont
      have hE : brActLoop cfg sec sInj (a :: rest) st =
          (match (rows₁, st₂?) with
            | (rows, none) => (rows, (none : Option BRState))
            | (rows, some st2) =>
              (rows ++ csActRow sec a st2.clock ::
                (brActLoop cfg sec sInj rest
                  { dayIndex := st2.dayIndex, clock := st2.clock + a.durationMin }).1,
                (brActLoop cfg sec sInj rest
                  { dayIndex := st2.dayIndex, clock := st2.clock + a.durationMin }).2)) := by
        rw [brActLoop_cons, if_neg hov, hj]
      cases st₂? with
      | none =>
        simp only at hE
        refine ⟨?_, ?_, ?_⟩
        · rw [hE]
          exact jchain
        · rw [hE]
          intro r hr
          left
          exact jlb r hr
        · intro st' h
          rw [hE] at h
          simp at h
      | some st₂ =>
        simp only at hE
        obtain ⟨hle₂, hcl₂, hdi₂, hbound₂⟩ := jcont st₂ rfl
        obtain ⟨ihchain, ihlb, ihcont⟩ :=
          ih { dayIndex := st₂.dayIndex, clock := st₂.clock + a.durationMin }
            (by show (0 : Int) ≤ st₂.dayIndex; omega)
            (fun b hb' => hadur b (List.mem_cons_of_mem a hb'))
        have hrowst : (csActRow sec a st₂.clock).startMin = st₂.clock := rfl
        have hstc : ({ dayIndex := st₂.dayIndex, clock := st₂.clock + a.durationMin } : BRState).clock = st₂.clock + a.durationMin := rfl
        refine ⟨?_, ?_, ?_⟩
        · rw [hE]
          refine List.Chain'.append jchain (List.Chain'.cons' ihchain ?_) ?_
          · intro y hy
            rcases ihlb y (List.mem_of_mem_head? hy) with h1 | h1 <;> omega
          · intro x hx y hy
            have hx' := hbound₂ x (List.mem_of_mem_getLast? hx)
            simp only [List.head?_cons, Option.mem_def, Option.some.injEq] at hy
            rw [← hy, hrowst]
            omega
        · rw [hE]
          intro r hr
          rcases List.mem_append.mp hr with h1 | h2
          · left
            exact jlb r h1
          · rcases List.mem_cons.mp h2 with h3 | h4
            · subst h3
              left
              omega
            · rcases ihlb r h4 with h5 | h5
              · left
                omega
              · right
                exact h5
        · intro st' h
          rw [hE] at h
          simp only at h
          obtain ⟨hle₃, hdi₃, hbound₃⟩ := ihcont st' h
          refine ⟨by omega, by rw [hdi₃]; exact hdi₂, ?_⟩
          rw [hE]
          intro r hr
          rcases List.mem_append.mp hr with h1 | h2
          · have := hbound₂ r h1
            constructor <;> omega
          · rcases List.mem_cons.mp h2 with h3 | h4
            · subst h3
              rw [hrowst]
              constructor <;> omega
            · exact hbound₃ r h4

theorem insertByAnchor_perm (i : Injection) (l : List Injection) :
    List.Perm (insertByAnchor i l) (i :: l) := by
  induction l with
  | nil => exact List.Perm.refl _
  | cons j js ih =>
    simp only [insertByAnchor]
    split
    · exact List.Perm.refl _
    · exact (ih.cons j).trans (List.Perm.swap i j js)

theorem sortInjByAnchor_perm (l : List Injection) :
    List.Perm (sortInjByAnchor l) l := by
  induction l with
  | nil => exact List.Perm.refl _
  | cons i is ih =>
    exact (insertByAnchor_perm i (sortInjByAnchor is)).trans (ih.cons i)

/-- Monotonicity invariant of the renderer's section loop (single-day
configuration). -/
theorem brSecLoop_inv (cfg : DayConfig) (g : ID → List Activity)
    (injections : List Injection) (hnum : cfg.numberOfDays.getD 1 ≤ 1)
    (hidur : ∀ i ∈ injections, 0 ≤ i.durationMin)
    (hgdur : ∀ sid, ∀ a ∈ g sid, 0 ≤ a.durationMin) (secs : List Section) :
    ∀ st : BRState, 0 ≤ st.dayIndex →
      List.Chain' (fun r r' => r.startMin ≤ r'.startMin)
        (brSecLoop cfg g injections secs st).1 ∧
      (∀ r ∈ (brSecLoop cfg g injections secs st).1,
        st.clock ≤ r.startMin ∨ r.startMin = cfg.dayEndMin) ∧
      (∀ st', (brSecLoop cfg g injections secs st).2 = some st' →
        st.clock ≤ st'.clock ∧ st'.dayIndex = st.dayIndex ∧
        ∀ r ∈ (brSecLoop cfg g injections secs st).1,
          r.startMin ≤ st'.clock ∧ r.startMin ≤ cfg.dayEndMin) := by
  induction secs with
  | nil =>
    intro st hd
    refine ⟨List.chain'_nil, fun r hr => absurd hr (List.not_mem_nil r), ?_⟩
    intro st' h
    simp only [brSecLoop] at h
    rw [Option.some.injEq] at h
    subst h
    exact ⟨le_refl _, rfl, fun r hr => absurd hr (List.not_mem_nil r)⟩
  | cons s rest ih =>
    intro st hd
    have hsdur : ∀ i ∈ sortInjByAnchor
        (injections.filter (fun inj => inj.sectionId = s.id)), 0 ≤ i.durationMin := by
      intro i hi
      exact hidur i (List.mem_of_mem_filter
        ((sortInjByAnchor_perm _).subset hi))
    obtain ⟨achain, alb, acont⟩ := brActLoop_inv cfg s hnum _ hsdur (g s.id) st hd
      (hgdur s.id)
    rcases h1 : brActLoop cfg s
        (sortInjByAnchor (injections.filter (fun inj => inj.sectionId = s.id)))
        (g s.id) st with ⟨rows₁, st₁?⟩
    rw [h1] at achain alb acont
    have hE : brSecLoop cfg g injections (s :: rest) st =
        (match (rows₁, st₁?) with
          | (rows, none) => (rows, (none : Option BRState))
          | (rows, some st') =>
            (rows ++ (brSecLoop cfg g injections rest st').1,
              (brSecLoop cfg g injections rest st').2)) := by
      simp only [brSecLoop, h1]
    cases st₁? with
    | none =>
      simp only at hE
      refine ⟨?_, ?_, ?_⟩
      · rw [hE]
        exact achain
      · rw [hE]
        exact alb
      · intro st' h
        rw [hE] at h
        simp at h
    | some st₁ =>
      simp only at hE
      obtain ⟨hle₁, hdi₁, hbound₁⟩ := acont st₁ rfl
      obtain ⟨ihchain, ihlb, ihcont⟩ := ih st₁ (by omega)
      refine ⟨?_, ?_, ?_⟩
      · rw [hE]
        refine List.Chain'.append achain ihchain ?_
        intro x hx y hy
        obtain ⟨hx1, hx2⟩ := hbound₁ x (List.mem_of_mem_getLast? hx)
        rcases ihlb y (List.mem_of_mem_head? hy) with h2 | h2 <;> omega
      · rw [hE]
        intro r hr
        rcases List.mem_append.mp hr with h2 | h3
        · exact alb r h2
        · rcases ihlb r h3 with h4 | h4
          · left
            omega
          · right
            exact h4
      · intro st' h
        rw [hE] at h
        simp only at h
        obtain ⟨hle₂, hdi₂, hbound₂⟩ := ihcont st' h
        refine ⟨by omega, by rw [hdi₂]; exact hdi₁, ?_⟩
        rw [hE]
        intro r hr
        rcases List.mem_append.mp hr with h2 | h3
        · obtain ⟨h4, h5⟩ := hbound₁ r h2
          exact ⟨by omega, h5⟩
        · exact hbound₂ r h3

/-- Day-Partitioned Walker monotonicity: with nonnegative activity durations
and all sections carrying one and the same day number, the clock never
resets and the rows are sorted by `startMin`. -/
theorem buildScheduleFromActivities_mono (cfg : DayConfig) (sections : List Section)
    (activities : List Activity) (hacts : ∀ a ∈ activities, 0 ≤ a.durationMin)
    (hsame : ∀ s ∈ sections, ∀ t ∈ sections, s.dayNumber = t.dayNumber) :
    List.Chain' (fun r r' => r.startMin ≤ r'.startMin)
      (buildScheduleFromActivities cfg sections activities) := by
  have hdur : ∀ r ∈ buildScheduleFromActivities cfg sections activities,
      r.startMin ≤ r.endMin := by
    intro r hr
    simp only [buildScheduleFromActivities] at hr
    obtain ⟨_, s, hs, _, a, ham, _, hx⟩ := dpSecLoop_rows cfg
      (actsFor sections activities) (sortByDayOrder sections) _ r hr
    have := hacts a (mem_actsFor ham)
    omega
  have hcons : List.Chain' (fun r r' => r'.startMin = r.endMin)
      (buildScheduleFromActivities cfg sections activities) := by
    simp only [buildScheduleFromActivities]
    cases hsorted : sortByDayOrder sections with
    | nil =>
      exact List.chain'_nil
    | cons s0 t =>
      have hmem : ∀ s ∈ s0 :: t, s ∈ sections := by
        intro s hs
        exact (hsorted ▸ sortByDayOrder_perm sections).subset hs
      have hnr : ∀ s ∈ s0 :: t,
          s.dayNumber.getD (s0.dayNumber.getD 1) = s0.dayNumber.getD 1 := by
        intro s hs
        have heq : s.dayNumber = s0.dayNumber :=
          hsame s (hmem s hs) s0 (hmem s0 (List.mem_cons_self s0 t))
        rw [heq]
        cases s0.dayNumber with
        | none => rfl
        | some d => rfl
      exact (dpSecLoop_no_reset cfg (actsFor sections activities) (s0 :: t)
        { dayIndex := 0, clock := cfg.dayStartMin, msb := 0, curDay := s0.dayNumber.getD 1 }
        hnr).1
  exact chain_le_of_consecutive _ hcons hdur

/-- C1 counterexample inputs: two sections on days 1 and 2. -/
def c1ccfg : DayConfig := { dayStartMin := 540, dayEndMin := 960 }

/-- C1 counterexample sections. -/
def c1csecs : List Section :=
  [ { id := "s1", order := 1, dayNumber := some 1 },
    { id := "s2", order := 2, dayNumber := some 2 } ]

/-- C1 counterexample activities (all durations positive). -/
def c1cacts : List Activity :=
  [ { id := "b1", durationMin := 20, sectionId := "s1" },
    { id := "b2", durationMin := 20, sectionId := "s1" },
    { id := "b3", durationMin := 20, sectionId := "s2" } ]

/-- C1 counterexample.  The Day-Partitioned Walker's output is NOT
monotonically non-decreasing in `startMin` for all inputs: with a section on
day 2, the clock resets to `dayStartMin`, so the rows start at 540, 560,
540. -/
theorem c1_counterexample :
    ¬ List.Chain' (fun r r' => r.startMin ≤ r'.startMin)
      (buildScheduleFromActivities c1ccfg c1csecs c1cacts) := by
  intro h
  have hrows : buildScheduleFromActivities c1ccfg c1csecs c1cacts =
      [ { id := "b1", sectionId := some "s1", startMin := 540, endMin := 560,
          computed := false,
          kind := RowKind.activity { id := "b1", durationMin := 20, sectionId := "s1" } },
        { id := "b2", sectionId := some "s1", startMin := 560, endMin := 580,
          computed := false,
          kind := RowKind.activity { id := "b2", durationMin := 20, sectionId := "s1" } },
        { id := "b3", sectionId := some "s2", startMin := 540, endMin := 560,
          computed := false,
          kind := RowKind.activity { id := "b3", durationMin := 20, sectionId := "s2" } } ] := by
    decide
  rw [hrows, List.chain'_cons, List.chain'_cons] at h
  exact absurd h.2.1 (by decide)

theorem exact_of_rows {r : ComputedRow}
    (h4 : (∃ lbl, r.kind = RowKind.breakRow lbl) ∨
      (∃ lbl, r.kind = RowKind.lunch lbl) ∨
      (∃ lbl, r.kind = RowKind.overflow lbl) ∨
      (∃ a, r.kind = RowKind.activity a ∧ r.endMin - r.startMin = a.durationMin)) :
    ∀ a, r.kind = RowKind.activity a → r.endMin - r.startMin = a.durationMin := by
  intro a ha
  rcases h4 with ⟨l, hk⟩ | ⟨l, hk⟩ | ⟨l, hk⟩ | ⟨b, hk, hx⟩
  · rw [ha] at hk
    cases hk
  · rw [ha] at hk
    cases hk
  · rw [ha] at hk
    cases hk
  · rw [ha] at hk
    injection hk with hab
    subst hab
    exact hx

/-- C1 amended.  Duration exactness holds unconditionally for all three
scheduling functions: every `activity` row satisfies
`endMin - startMin = durationMin`.  Monotonicity of `startMin` holds in the
regimes where no clock reset can occur: for the Direct Walker over the
non-overflow rows, given nonnegative break/lunch/activity durations (the
trailing overflow row starts back at `dayEndMin`); for the Injection
Renderer under a single-day configuration with nonnegative durations; and
for the Day-Partitioned Walker when all sections carry one and the same day
number (a differing day number resets the clock to `dayStartMin`, which is
what the counterexample exhibits). -/
theorem c1_amended (cfg : DayConfig) (sections : List Section)
    (activities : List Activity) (injs : List Injection) :
    (∀ r ∈ computeSchedule cfg sections activities, ∀ a,
      r.kind = RowKind.activity a → r.endMin - r.startMin = a.durationMin) ∧
    (∀ r ∈ buildScheduleWithInjections cfg sections activities injs, ∀ a,
      r.kind = RowKind.activity a → r.endMin - r.startMin = a.durationMin) ∧
    (∀ r ∈ buildScheduleFromActivities cfg sections activities, ∀ a,
      r.kind = RowKind.activity a → r.endMin - r.startMin = a.durationMin) ∧
    (0 ≤ cfg.breakDurationMin.getD 0 → 0 ≤ cfg.lunchDurationMin.getD 0 →
      (∀ a ∈ activities, 0 ≤ a.durationMin) →
      List.Chain' (fun r r' => r.startMin ≤ r'.startMin)
        (nonOverflowRows (computeSchedule cfg sections activities))) ∧
    (cfg.numberOfDays.getD 1 ≤ 1 → (∀ a ∈ activities, 0 ≤ a.durationMin) →
      (∀ i ∈ injs, 0 ≤ i.durationMin) →
      List.Chain' (fun r r' => r.startMin ≤ r'.startMin)
        (buildScheduleWithInjections cfg sections activities injs)) ∧
    ((∀ a ∈ activities, 0 ≤ a.durationMin) →
      (∀ s ∈ sections, ∀ t ∈ sections, s.dayNumber = t.dayNumber) →
      List.Chain' (fun r r' => r.startMin ≤ r'.startMin)
        (buildScheduleFromActivities cfg sections activities)) := by
  refine ⟨?_, ?_, ?_, ?_, ?_, ?_⟩
  · intro r hr
    exact exact_of_rows (computeSchedule_rows cfg sections activities r hr)
  · intro r hr
    exact exact_of_rows (buildScheduleWithInjections_rows cfg sections activities injs r hr)
  · intro r hr
    simp only [buildScheduleFromActivities] at hr
    obtain ⟨_, s, _, _, b, _, hk, hx⟩ := dpSecLoop_rows cfg
      (actsFor sections activities) (sortByDayOrder sections) _ r hr
    exact exact_of_rows (Or.inr (Or.inr (Or.inr ⟨b, hk, hx⟩)))
  · intro hb hl hacts
    exact computeSchedule_mono cfg sections activities hb hl hacts
  · intro hnum hacts hinjs
    have hgdur : ∀ sid, ∀ a ∈ actsFor sections activities sid, 0 ≤ a.durationMin :=
      fun sid a ha => hacts a (mem_actsFor ha)
    simp only [buildScheduleWithInjections]
    exact (brSecLoop_inv cfg (actsFor sections activities) injs hnum hinjs hgdur
      (sortByOrder sections) { dayIndex := 0, clock := cfg.dayStartMin }
      (by norm_num)).1
  · intro hacts hsame
    exact buildScheduleFromActivities_mono cfg sections activities hacts hsame

/-- C1 witness config. -/
def c1wcfg : DayConfig :=
  { dayStartMin := 540, dayEndMin := 960
    breakIntervalMin := some 60, breakDurationMin := some 15 }

/-- C1 witness sections. -/
def c1wsecs : List Section := [{ id := "s1", order := 1 }]

/-- C1 witness activities. -/
def c1wacts : List Activity :=
  [ { id := "a1", durationMin := 50, sectionId := "s1" },
    { id := "a2", durationMin := 60, sectionId := "s1" } ]

/-- C1 witness injections. -/
def c1winjs : List Injection :=
  [ { id := "i1", itype := .breakI, label := "Break", sectionId := "s1"
      durationMin := 10, anchorBeforeActivityId := "a2" } ]

/-- Witness for C1 amended at concrete inputs satisfying all hypotheses. -/
theorem c1_witness :
    List.Chain' (fun r r' => r.startMin ≤ r'.startMin)
      (nonOverflowRows (computeSchedule c1wcfg c1wsecs c1wacts)) ∧
    List.Chain' (fun r r' => r.startMin ≤ r'.startMin)
      (buildScheduleWithInjections c1wcfg c1wsecs c1wacts c1winjs) ∧
    List.Chain' (fun r r' => r.startMin ≤ r'.startMin)
      (buildScheduleFromActivities c1wcfg c1wsecs c1wacts) :=
  ⟨(c1_amended c1wcfg c1wsecs c1wacts c1winjs).2.2.2.1 (by decide) (by decide)
      (by decide),
    (c1_amended c1wcfg c1wsecs c1wacts c1winjs).2.2.2.2.1 (by decide) (by decide)
      (by decide),
    (c1_amended c1wcfg c1wsecs c1wacts c1winjs).2.2.2.2.2 (by decide) (by decide)⟩

/-! ## C5: per-day invariants of the Injection Planner

The planner is analysed through `planInjectionsTagged`, whose ghost tags
record the `dayIndex` at each push and whether a lunch came from the in-loop
crossing test.  `lunchCount d` counts the lunches planned for day `d`;
`crossingPre`/`crossingPost` state that every crossing lunch has a break for
the same day somewhere before / after it in the output list (`crossingPost`
carries an optional "still pending" day for the not-yet-backfilled
post-lunch break of the current day). -/

/-- Number of lunch injections tagged with day `d`. -/
def lunchCount (d : Int) (l : List PlannedInj) : Nat :=
  (l.filter (fun p => decide (p.inj.itype = InjectionType.lunchI) &&
    decide (p.day = d))).length

/-- A break injection tagged with day `d`. -/
def breakTagged (d : Int) (q : PlannedInj) : Prop :=
  q.inj.itype = InjectionType.breakI ∧ q.day = d

/-- Every crossing lunch in the list has a same-day break somewhere before
it. -/
def crossingPre (out : List PlannedInj) : Prop :=
  ∀ l₁ p l₂, out = l₁ ++ p :: l₂ → p.crossing = true →
    ∃ q ∈ l₁, breakTagged p.day q

/-- Every crossing lunch in the list has a same-day break somewhere after
it, except possibly lunches of the still-pending day `e`. -/
def crossingPost (e : Option Int) (out : List PlannedInj) : Prop :=
  ∀ l₁ p l₂, out = l₁ ++ p :: l₂ → p.crossing = true →
    (∃ q ∈ l₂, breakTagged p.day q) ∨ e = some p.day

/-- The planner state's pending post-lunch-break obligation: the current day
when lunch has started and no post-lunch break is planned yet. -/
def pending (st : PIState) : Option Int :=
  if st.afterLunchStarted = true ∧ st.postLunchBreakPlanned = false then
    some st.dayIndex
  else none

/-- State invariant of the planner used by the break-placement argument. -/
structure PInv (st : PIState) : Prop where
  pre : st.preLunchBreakPlanned = true → st.lunchPlanned = true
  alp : st.afterLunchStarted = st.lunchPlanned
  lact : st.afterLunchStarted = true → strTruthy st.lastActAfterLunch = true
  post : st.postLunchBreakPlanned = true → st.lunchPlanned = true

/-- Counting facts for a completed loop run from `st` to `st'`. -/
def AOut (st st' : PIState) (out : List PlannedInj) : Prop :=
  (∀ p ∈ out, st.dayIndex ≤ p.day ∧ p.day ≤ st'.dayIndex) ∧
  (∀ d, lunchCount d out ≤ 1) ∧
  (st.lunchPlanned = true → lunchCount st.dayIndex out = 0) ∧
  (st'.lunchPlanned = false → lunchCount st'.dayIndex out = 0) ∧
  st.dayIndex ≤ st'.dayIndex ∧
  (st'.dayIndex = st.dayIndex → st.lunchPlanned = true → st'.lunchPlanned = true)

/-- Counting facts for a loop run from `st` that returned early. -/
def AStop (st : PIState) (out : List PlannedInj) : Prop :=
  (∀ p ∈ out, st.dayIndex ≤ p.day) ∧
  (∀ d, lunchCount d out ≤ 1) ∧
  (st.lunchPlanned = true → lunchCount st.dayIndex out = 0)

/-- Break-placement facts for a completed loop run from `st` to `st'`. -/
def BOut (st st' : PIState) (out : List PlannedInj) : Prop :=
  crossingPre out ∧ crossingPost (pending st') out ∧
  (∀ d, pending st = some d → (∃ q ∈ out, breakTagged d q) ∨ pending st' = some d)

/-- Break-placement facts for a loop run from `st` that returned early (the
backfill before the early return discharges any pending obligation). -/
def BStop (st : PIState) (out : List PlannedInj) : Prop :=
  crossingPre out ∧ crossingPost none out ∧
  (∀ d, pending st = some d → ∃ q ∈ out, breakTagged d q)

theorem lunchCount_append (d : Int) (l₁ l₂ : List PlannedInj) :
    lunchCount d (l₁ ++ l₂) = lunchCount d l₁ + lunchCount d l₂ := by
  unfold lunchCount
  rw [List.filter_append, List.length_append]

theorem lunchCount_eq_zero (d : Int) (l : List PlannedInj)
    (h : ∀ p ∈ l, ¬(p.inj.itype = InjectionType.lunchI ∧ p.day = d)) :
    lunchCount d l = 0 := by
  unfold lunchCount
  rw [List.length_eq_zero]
  apply List.filter_eq_nil_iff.mpr
  intro p hp
  simp only [Bool.and_eq_true, decide_eq_true_eq, not_and]
  intro h1 h2
  exact h p hp ⟨h1, h2⟩

theorem split_of_append_eq {α : Type} {out₁ out₂ l₁ l₂ : List α} {p : α}
    (h : out₁ ++ out₂ = l₁ ++ p :: l₂) :
    (∃ m, out₂ = m ++ p :: l₂ ∧ l₁ = out₁ ++ m) ∨
    (∃ m, out₁ = l₁ ++ p :: m ∧ l₂ = m ++ out₂) := by
  rcases List.append_eq_append_iff.mp h with ⟨as, h1, h2⟩ | ⟨cs, h1, h2⟩
  · exact Or.inl ⟨as, h2, h1⟩
  · cases cs with
    | nil =>
      rw [List.append_nil] at h1
      simp only [List.nil_append] at h2
      exact Or.inl ⟨[], by rw [← h2]; rfl, by rw [h1, List.append_nil]⟩
    | cons c cs' =>
      simp only [List.cons_append, List.cons.injEq] at h2
      obtain ⟨hc, hl₂⟩ := h2
      exact Or.inr ⟨cs', by rw [h1, ← hc], hl₂⟩

theorem crossingPre_append {out₁ out₂ : List PlannedInj}
    (h₁ : crossingPre out₁) (h₂ : crossingPre out₂) :
    crossingPre (out₁ ++ out₂) := by
  intro l₁ p l₂ hsplit hcr
  rcases split_of_append_eq hsplit with ⟨m, hm1, hm2⟩ | ⟨m, hm1, hm2⟩
  · obtain ⟨q, hq, hbt⟩ := h₂ m p l₂ hm1 hcr
    exact ⟨q, by rw [hm2]; exact List.mem_append_right _ hq, hbt⟩
  · obtain ⟨q, hq, hbt⟩ := h₁ l₁ p m hm1 hcr
    exact ⟨q, hq, hbt⟩

/-- A list with no crossing lunches satisfies `crossingPre` vacuously. -/
theorem crossingPre_of_nocross {out : List PlannedInj}
    (h : ∀ p ∈ out, p.crossing = false) : crossingPre out := by
  intro l₁ p l₂ hsplit hcr
  have : p ∈ out := by
    rw [hsplit]
    exact List.mem_append_right _ (List.mem_cons_self p l₂)
  rw [h p this] at hcr
  cases hcr

theorem crossingPost_of_nocross (e : Option Int) {out : List PlannedInj}
    (h : ∀ p ∈ out, p.crossing = false) : crossingPost e out := by
  intro l₁ p l₂ hsplit hcr
  have : p ∈ out := by
    rw [hsplit]
    exact List.mem_append_right _ (List.mem_cons_self p l₂)
  rw [h p this] at hcr
  cases hcr

theorem crossingPost_append {e₁ e₂ : Option Int} {out₁ out₂ : List PlannedInj}
    (h₁ : crossingPost e₁ out₁) (h₂ : crossingPost e₂ out₂)
    (hres : ∀ d, e₁ = some d → (∃ q ∈ out₂, breakTagged d q) ∨ e₂ = some d) :
    crossingPost e₂ (out₁ ++ out₂) := by
  intro l₁ p l₂ hsplit hcr
  rcases split_of_append_eq hsplit with ⟨m, hm1, hm2⟩ | ⟨m, hm1, hm2⟩
  · exact h₂ m p l₂ hm1 hcr
  · rcases h₁ l₁ p m hm1 hcr with ⟨q, hq, hbt⟩ | he
    · exact Or.inl ⟨q, by rw [hm2]; exact List.mem_append_left _ hq, hbt⟩
    · rcases hres p.day he with ⟨q, hq, hbt⟩ | he₂
      · exact Or.inl ⟨q, by rw [hm2]; exact List.mem_append_right _ hq, hbt⟩
      · exact Or.inr he₂

theorem crossingPost_append_left_nocross {e : Option Int}
    {out₁ out₂ : List PlannedInj} (h₁ : ∀ p ∈ out₁, p.crossing = false)
    (h₂ : crossingPost e out₂) : crossingPost e (out₁ ++ out₂) := by
  intro l₁ p l₂ hsplit hcr
  rcases split_of_append_eq hsplit with ⟨m, hm1, hm2⟩ | ⟨m, hm1, hm2⟩
  · exact h₂ m p l₂ hm1 hcr
  · exfalso
    have : p ∈ out₁ := by
      rw [hm1]
      exact List.mem_append_right _ (List.mem_cons_self p m)
    rw [h₁ p this] at hcr
    cases hcr

theorem AOut_nil (st : PIState) : AOut st st [] := by
  refine ⟨fun p hp => absurd hp (List.not_mem_nil p), fun d => ?_, fun _ => rfl,
    fun _ => rfl, le_refl _, fun _ h => h⟩
  show lunchCount d [] ≤ 1
  unfold lunchCount
  simp

theorem BOut_nil (st : PIState) : BOut st st [] := by
  refine ⟨?_, ?_, fun d hd => Or.inr hd⟩
  · intro l₁ p l₂ hsplit _
    exact absurd hsplit.symm (List.append_ne_nil_of_right_ne_nil l₁ (by simp))
  · intro l₁ p l₂ hsplit _
    exact absurd hsplit.symm (List.append_ne_nil_of_right_ne_nil l₁ (by simp))

theorem AOut_comp {st st₁ st₂ : PIState} {out₁ out₂ : List PlannedInj}
    (h₁ : AOut st st₁ out₁) (h₂ : AOut st₁ st₂ out₂) :
    AOut st st₂ (out₁ ++ out₂) := by
  obtain ⟨r₁, c₁, z₁, z₁', m₁, v₁⟩ := h₁
  obtain ⟨r₂, c₂, z₂, z₂', m₂, v₂⟩ := h₂
  have hzero₁ : ∀ d, st₁.dayIndex < d → lunchCount d out₁ = 0 := by
    intro d hd
    apply lunchCount_eq_zero
    intro p hp h
    have := (r₁ p hp).2
    omega
  have hzero₂ : ∀ d, d < st₁.dayIndex → lunchCount d out₂ = 0 := by
    intro d hd
    apply lunchCount_eq_zero
    intro p hp h
    have := (r₂ p hp).1
    omega
  refine ⟨?_, ?_, ?_, ?_, by omega, ?_⟩
  · intro p hp
    rcases List.mem_append.mp hp with h | h
    · have := r₁ p h
      omega
    · have := r₂ p h
      omega
  · intro d
    rw [lunchCount_append]
    rcases lt_trichotomy d st₁.dayIndex with hd | hd | hd
    · rw [hzero₂ d hd]
      have := c₁ d
      omega
    · subst hd
      cases hlp : st₁.lunchPlanned with
      | true =>
        rw [z₂ hlp]
        have := c₁ st₁.dayIndex
        omega
      | false =>
        rw [z₁' hlp]
        have := c₂ st₁.dayIndex
        omega
    · rw [hzero₁ d hd]
      have := c₂ d
      omega
  · intro hlp
    rw [lunchCount_append, z₁ hlp]
    rcases eq_or_lt_of_le m₁ with he | hlt
    · rw [he, z₂ (v₁ he.symm hlp)]
    · have := hzero₂ st.dayIndex hlt
      omega
  · intro hlp₂
    rw [lunchCount_append, z₂' hlp₂]
    rcases eq_or_lt_of_le m₂ with he | hlt
    · cases hlp₁ : st₁.lunchPlanned with
      | true =>
        exfalso
        rw [v₂ he.symm hlp₁] at hlp₂
        cases hlp₂
      | false =>
        rw [← he, z₁' hlp₁]
    · have := hzero₁ st₂.dayIndex hlt
      omega
  · intro hday hlp
    have h1 : st₁.dayIndex = st.dayIndex := by omega
    exact v₂ (by omega) (v₁ h1 hlp)

/-- The `crossesLunch` test of the planner's loop, as a standalone value. -/
def piCL (cfg : DayConfig) (a : Activity) (st : PIState) : Bool :=
  truthy cfg.lunchTargetMin && truthy cfg.lunchDurationMin && !st.lunchPlanned &&
    decide (cfg.lunchTargetMin.getD 0 - cfg.dayStartMin > 0) &&
    decide (st.clockWithinDay < cfg.lunchTargetMin.getD 0 - cfg.dayStartMin) &&
    decide (st.clockWithinDay + a.durationMin > cfg.lunchTargetMin.getD 0 - cfg.dayStartMin)

/-- The `crossesBreak` test of the planner's loop, as a standalone value. -/
def piCB (cfg : DayConfig) (a : Activity) (st : PIState) : Bool :=
  truthy cfg.breakIntervalMin && truthy cfg.breakDurationMin &&
    decide (st.msb + a.durationMin > cfg.breakIntervalMin.getD 0)

theorem piBody_eq_lunch (cfg : DayConfig) (sec : Section) (a : Activity)
    (st : PIState) (hcl : piCL cfg a st = true)
    (hpre : (!st.preLunchBreakPlanned && truthy cfg.breakDurationMin &&
      truthy cfg.breakIntervalMin) = true) :
    piBody cfg sec a st =
      ([⟨{ id := "inj-break-pre-" ++ a.id, itype := .breakI, label := "Break"
           sectionId := sec.id, durationMin := cfg.breakDurationMin.getD 0
           anchorBeforeActivityId := a.id }, st.dayIndex, false⟩,
        ⟨{ id := "inj-lunch-" ++ a.id, itype := .lunchI, label := "Lunch"
           sectionId := sec.id, durationMin := cfg.lunchDurationMin.getD 0
           anchorBeforeActivityId := a.id }, st.dayIndex, true⟩],
       { st with
           clockWithinDay := st.clockWithinDay + cfg.lunchDurationMin.getD 0 + a.durationMin
           msb := 0 + a.durationMin, lunchPlanned := true, preLunchBreakPlanned := true
           afterLunchStarted := true, lastActAfterLunch := some a.id }) := by
  unfold piCL at hcl
  simp only [piBody, hcl, hpre, eq_self_iff_true, if_true, ite_true, Bool.or_true,
    Bool.or_false, List.isEmpty, Bool.not_false, Bool.not_true]
  rfl

theorem piBody_eq_lunch_nopre (cfg : DayConfig) (sec : Section) (a : Activity)
    (st : PIState) (hcl : piCL cfg a st = true)
    (hpre : (!st.preLunchBreakPlanned && truthy cfg.breakDurationMin &&
      truthy cfg.breakIntervalMin) = false) :
    piBody cfg sec a st =
      ([⟨{ id := "inj-lunch-" ++ a.id, itype := .lunchI, label := "Lunch"
           sectionId := sec.id, durationMin := cfg.lunchDurationMin.getD 0
           anchorBeforeActivityId := a.id }, st.dayIndex, true⟩],
       { st with
           clockWithinDay := st.clockWithinDay + cfg.lunchDurationMin.getD 0 + a.durationMin
           msb := 0 + a.durationMin, lunchPlanned := true
           preLunchBreakPlanned := st.preLunchBreakPlanned
           afterLunchStarted := true, lastActAfterLunch := some a.id }) := by
  unfold piCL at hcl
  simp only [piBody, hcl, hpre, eq_self_iff_true, if_true, ite_true, Bool.false_eq_true,
    if_false, ite_false, Bool.or_true, Bool.or_false, List.isEmpty, Bool.not_false,
    Bool.not_true]
  rfl

theorem piBody_eq_break (cfg : DayConfig) (sec : Section) (a : Activity)
    (st : PIState) (hcl : piCL cfg a st = false) (hcb : piCB cfg a st = true) :
    piBody cfg sec a st =
      ([⟨{ id := "inj-break-" ++ a.id, itype := .breakI, label := "Break"
           sectionId := sec.id, durationMin := cfg.breakDurationMin.getD 0
           anchorBeforeActivityId := a.id }, st.dayIndex, false⟩],
       { st with
           clockWithinDay := st.clockWithinDay + cfg.breakDurationMin.getD 0 + a.durationMin
           msb := 0 + a.durationMin
           postLunchBreakPlanned := st.postLunchBreakPlanned || st.afterLunchStarted
           lastActAfterLunch :=
             if st.afterLunchStarted then some a.id else st.lastActAfterLunch }) := by
  unfold piCL at hcl
  unfold piCB at hcb
  simp only [piBody, hcl, hcb, eq_self_iff_true, if_true, ite_true, Bool.false_eq_true,
    if_false, ite_false]

theorem piBody_eq_none (cfg : DayConfig) (sec : Section) (a : Activity)
    (st : PIState) (hcl : piCL cfg a st = false) (hcb : piCB cfg a st = false) :
    piBody cfg sec a st =
      ([],
       { st with
           clockWithinDay := st.clockWithinDay + a.durationMin
           msb := st.msb + a.durationMin
           lastActAfterLunch :=
             if st.afterLunchStarted then some a.id else st.lastActAfterLunch }) := by
  unfold piCL at hcl
  unfold piCB at hcb
  simp only [piBody, hcl, hcb, Bool.false_eq_true, if_false, ite_false]

theorem piCL_lunchPlanned {cfg : DayConfig} {a : Activity} {st : PIState}
    (hcl : piCL cfg a st = true) : st.lunchPlanned = false := by
  unfold piCL at hcl
  simp only [Bool.and_eq_true, Bool.not_eq_true'] at hcl
  exact hcl.1.1.1.2

theorem split_cons_nil {α : Type} {a x : α} {l₁ l₂ : List α}
    (h : l₁ ++ x :: l₂ = [a]) : l₁ = [] ∧ x = a ∧ l₂ = [] := by
  cases l₁ with
  | nil =>
    simp only [List.nil_append, List.cons.injEq] at h
    exact ⟨rfl, h.1, h.2⟩
  | cons c cs =>
    simp only [List.cons_append, List.cons.injEq] at h
    exact absurd h.2 (List.append_ne_nil_of_right_ne_nil cs (by simp))

theorem split_cons_pair {α : Type} {a b x : α} {l₁ l₂ : List α}
    (h : l₁ ++ x :: l₂ = [a, b]) :
    (l₁ = [] ∧ x = a ∧ l₂ = [b]) ∨ (l₁ = [a] ∧ x = b ∧ l₂ = []) := by
  cases l₁ with
  | nil =>
    simp only [List.nil_append, List.cons.injEq] at h
    exact Or.inl ⟨rfl, h.1, h.2⟩
  | cons c cs =>
    simp only [List.cons_append, List.cons.injEq] at h
    obtain ⟨hc, h2⟩ := h
    obtain ⟨hcs, hx, hl⟩ := split_cons_nil h2
    exact Or.inr ⟨by rw [hc, hcs], hx, hl⟩

theorem lunchCount_nil (d : Int) : lunchCount d [] = 0 := rfl

theorem lunchCount_cons_break (d : Int) (q : PlannedInj) (l : List PlannedInj)
    (hq : q.inj.itype = InjectionType.breakI) :
    lunchCount d (q :: l) = lunchCount d l := by
  unfold lunchCount
  rw [List.filter_cons]
  simp [hq]

theorem lunchCount_cons_lunch (d : Int) (q : PlannedInj) (l : List PlannedInj)
    (hq : q.inj.itype = InjectionType.lunchI) :
    lunchCount d (q :: l) = lunchCount d l + (if q.day = d then 1 else 0) := by
  unfold lunchCount
  rw [List.filter_cons]
  by_cases hd : q.day = d
  · simp [hq, hd]
  · simp [hq, hd]

/-- Counting facts for one pass of the loop body. -/
theorem piBody_A (cfg : DayConfig) (sec : Section) (a : Activity) (st : PIState)
    {out : List PlannedInj} {st' : PIState}
    (hE : piBody cfg sec a st = (out, st')) :
    AOut st st' out ∧ st'.dayIndex = st.dayIndex := by
  cases hcl : piCL cfg a st with
  | true =>
    have hlp : st.lunchPlanned = false := piCL_lunchPlanned hcl
    cases hpre : (!st.preLunchBreakPlanned && truthy cfg.breakDurationMin &&
        truthy cfg.breakIntervalMin) with
    | true =>
      rw [piBody_eq_lunch cfg sec a st hcl hpre] at hE
      injection hE with h1 h2
      subst h1
      subst h2
      refine ⟨⟨?_, ?_, ?_, ?_, le_refl _, ?_⟩, rfl⟩
      · intro p hp
        simp only [List.mem_cons, List.not_mem_nil, or_false] at hp
        rcases hp with rfl | rfl
        · exact ⟨le_refl _, le_refl _⟩
        · exact ⟨le_refl _, le_refl _⟩
      · intro d
        rw [lunchCount_cons_break d _ _ rfl, lunchCount_cons_lunch d _ _ rfl,
          lunchCount_nil]
        split <;> omega
      · intro h
        rw [h] at hlp
        cases hlp
      · intro h
        exact nomatch h
      · intro _ _
        rfl
    | false =>
      rw [piBody_eq_lunch_nopre cfg sec a st hcl hpre] at hE
      injection hE with h1 h2
      subst h1
      subst h2
      refine ⟨⟨?_, ?_, ?_, ?_, le_refl _, ?_⟩, rfl⟩
      · intro p hp
        simp only [List.mem_cons, List.not_mem_nil, or_false] at hp
        rcases hp with rfl
        exact ⟨le_refl _, le_refl _⟩
      · intro d
        rw [lunchCount_cons_lunch d _ _ rfl, lunchCount_nil]
        split <;> omega
      · intro h
        rw [h] at hlp
        cases hlp
      · intro h
        exact nomatch h
      · intro _ _
        rfl
  | false =>
    cases hcb : piCB cfg a st with
    | true =>
      rw [piBody_eq_break cfg sec a st hcl hcb] at hE
      injection hE with h1 h2
      subst h1
      subst h2
      refine ⟨⟨?_, ?_, ?_, ?_, le_refl _, ?_⟩, rfl⟩
      · intro p hp
        simp only [List.mem_cons, List.not_mem_nil, or_false] at hp
        rcases hp with rfl
        exact ⟨le_refl _, le_refl _⟩
      · intro d
        rw [lunchCount_cons_break d _ _ rfl, lunchCount_nil]
        omega
      · intro _
        rw [lunchCount_cons_break _ _ _ rfl, lunchCount_nil]
      · intro _
        rw [lunchCount_cons_break _ _ _ rfl, lunchCount_nil]
      · intro _ h
        exact h
    | false =>
      rw [piBody_eq_none cfg sec a st hcl hcb] at hE
      injection hE with h1 h2
      subst h1
      subst h2
      refine ⟨⟨?_, ?_, ?_, ?_, le_refl _, ?_⟩, rfl⟩
      · intro p hp
        exact absurd hp (List.not_mem_nil p)
      · intro d
        rw [lunchCount_nil]
        omega
      · intro _
        rfl
      · intro _
        rfl
      · intro _ h
        exact h

/-- Break-placement facts for one pass of the loop body. -/
theorem piBody_B (cfg : DayConfig) (sec : Section) (a : Activity) (st : PIState)
    {out : List PlannedInj} {st' : PIState}
    (hE : piBody cfg sec a st = (out, st'))
    (hP : PInv st) (ha : a.id ≠ "")
    (hbI : truthy cfg.breakIntervalMin = true)
    (hbD : truthy cfg.breakDurationMin = true) :
    BOut st st' out ∧ PInv st' := by
  cases hcl : piCL cfg a st with
  | true =>
    have hlp : st.lunchPlanned = false := piCL_lunchPlanned hcl
    have hafter : st.afterLunchStarted = false := hP.alp.trans hlp
    have hpost : st.postLunchBreakPlanned = false := by
      cases hc : st.postLunchBreakPlanned with
      | false => rfl
      | true =>
        rw [hP.post hc] at hlp
        cases hlp
    have hpreb : st.preLunchBreakPlanned = false := by
      cases hc : st.preLunchBreakPlanned with
      | false => rfl
      | true =>
        rw [hP.pre hc] at hlp
        cases hlp
    have hpre : (!st.preLunchBreakPlanned && truthy cfg.breakDurationMin &&
        truthy cfg.breakIntervalMin) = true := by
      rw [hpreb, hbD, hbI]
      rfl
    rw [piBody_eq_lunch cfg sec a st hcl hpre] at hE
    injection hE with h1 h2
    subst h1
    subst h2
    have hpend : pending { st with
        clockWithinDay := st.clockWithinDay + cfg.lunchDurationMin.getD 0 + a.durationMin
        msb := 0 + a.durationMin, lunchPlanned := true, preLunchBreakPlanned := true
        afterLunchStarted := true, lastActAfterLunch := some a.id } =
        some st.dayIndex := by
      simp [pending, hpost]
    refine ⟨⟨?_, ?_, ?_⟩, ?_, ?_, ?_, ?_⟩
    · intro l₁ p l₂ hsplit hcr
      rcases split_cons_pair hsplit.symm with ⟨hl₁, hx, hl₂⟩ | ⟨hl₁, hx, hl₂⟩
      · subst hx
        exact nomatch hcr
      · subst hx
        subst hl₁
        exact ⟨_, List.mem_cons_self _ _, rfl, rfl⟩
    · intro l₁ p l₂ hsplit hcr
      rcases split_cons_pair hsplit.symm with ⟨hl₁, hx, hl₂⟩ | ⟨hl₁, hx, hl₂⟩
      · subst hx
        exact nomatch hcr
      · subst hx
        exact Or.inr (by rw [hpend])
    · intro d hd
      unfold pending at hd
      rw [hafter] at hd
      simp at hd
    · intro _
      rfl
    · rfl
    · intro _
      simp [strTruthy, ha]
    · intro _
      rfl
  | false =>
    cases hcb : piCB cfg a st with
    | true =>
      rw [piBody_eq_break cfg sec a st hcl hcb] at hE
      injection hE with h1 h2
      subst h1
      subst h2
      refine ⟨⟨?_, ?_, ?_⟩, ?_, ?_, ?_, ?_⟩
      · apply crossingPre_of_nocross
        intro p hp
        simp only [List.mem_cons, List.not_mem_nil, or_false] at hp
        subst hp
        rfl
      · apply crossingPost_of_nocross
        intro p hp
        simp only [List.mem_cons, List.not_mem_nil, or_false] at hp
        subst hp
        rfl
      · intro d hd
        unfold pending at hd
        by_cases hcond : st.afterLunchStarted = true ∧ st.postLunchBreakPlanned = false
        · rw [if_pos hcond] at hd
          refine Or.inl ⟨_, List.mem_cons_self _ _, rfl, ?_⟩
          exact Option.some.inj hd
        · rw [if_neg hcond] at hd
          exact nomatch hd
      · exact hP.pre
      · exact hP.alp
      · intro h
        have hafter : st.afterLunchStarted = true := h
        simp only [hafter, if_true, ite_true]
        simp [strTruthy, ha]
      · intro h
        have h2 : st.postLunchBreakPlanned = true ∨ st.afterLunchStarted = true := by
          cases hx : st.postLunchBreakPlanned with
          | true => exact Or.inl rfl
          | false =>
            rw [hx, Bool.false_or] at h
            exact Or.inr h
        rcases h2 with h' | h'
        · exact hP.post h'
        · rw [← hP.alp]
          exact h'
    | false =>
      rw [piBody_eq_none cfg sec a st hcl hcb] at hE
      injection hE with h1 h2
      subst h1
      subst h2
      refine ⟨⟨?_, ?_, ?_⟩, ?_, ?_, ?_, ?_⟩
      · apply crossingPre_of_nocross
        intro p hp
        exact absurd hp (List.not_mem_nil p)
      · apply crossingPost_of_nocross
        intro p hp
        exact absurd hp (List.not_mem_nil p)
      · intro d hd
        exact Or.inr hd
      · exact hP.pre
      · exact hP.alp
      · intro h
        have hafter : st.afterLunchStarted = true := h
        simp only [hafter, if_true, ite_true]
        simp [strTruthy, ha]
      · exact hP.post

/-- Facts about the backfill pushed at a day rollover. -/
theorem piBackfill_nocross (cfg : DayConfig) (sec : Section) (st : PIState) :
    ∀ p ∈ piBackfill cfg sec st,
      p.day = st.dayIndex ∧ p.inj.itype = InjectionType.breakI ∧
      p.crossing = false := by
  intro p hp
  unfold piBackfill at hp
  by_cases hcond : (st.afterLunchStarted && !st.postLunchBreakPlanned &&
      strTruthy st.lastActAfterLunch && truthy cfg.breakDurationMin &&
      truthy cfg.breakIntervalMin) = true
  · rw [if_pos hcond] at hp
    simp only [List.mem_cons, List.not_mem_nil, or_false] at hp
    subst hp
    exact ⟨rfl, rfl, rfl⟩
  · rw [if_neg hcond] at hp
    exact absurd hp (List.not_mem_nil p)

/-- The backfill discharges a pending post-lunch-break obligation. -/
theorem piBackfill_discharges (cfg : DayConfig) (sec : Section) (st : PIState)
    (hP : PInv st)
    (hbI : truthy cfg.breakIntervalMin = true)
    (hbD : truthy cfg.breakDurationMin = true) :
    ∀ d, pending st = some d → ∃ q ∈ piBackfill cfg sec st, breakTagged d q := by
  intro d hd
  unfold pending at hd
  by_cases hcond : st.afterLunchStarted = true ∧ st.postLunchBreakPlanned = false
  · rw [if_pos hcond] at hd
    have hcond2 : (st.afterLunchStarted && !st.postLunchBreakPlanned &&
        strTruthy st.lastActAfterLunch && truthy cfg.breakDurationMin &&
        truthy cfg.breakIntervalMin) = true := by
      rw [hcond.1, hcond.2, hP.lact hcond.1, hbD, hbI]
      rfl
    unfold piBackfill
    rw [if_pos hcond2]
    exact ⟨_, List.mem_cons_self _ _, rfl, Option.some.inj hd⟩
  · rw [if_neg hcond] at hd
    exact nomatch hd

theorem lunchCount_backfill (cfg : DayConfig) (sec : Section) (st : PIState)
    (d : Int) : lunchCount d (piBackfill cfg sec st) = 0 := by
  apply lunchCount_eq_zero
  intro p hp h
  have h2 := (piBackfill_nocross cfg sec st p hp).2.1
  rw [h2] at h
  exact nomatch h.1

/-- The fresh state installed at a day rollover. -/
def piReset (st : PIState) : PIState :=
  { dayIndex := st.dayIndex + 1, clockWithinDay := 0, msb := 0
    lunchPlanned := false, preLunchBreakPlanned := false
    afterLunchStarted := false, postLunchBreakPlanned := false
    lastActAfterLunch := none }

theorem PInv_piReset (st : PIState) : PInv (piReset st) := by
  refine ⟨fun h => ?_, rfl, fun h => ?_, fun h => ?_⟩
  · exact nomatch h
  · exact nomatch h
  · exact nomatch h

theorem piStep_eq_norm (cfg : DayConfig) (sec : Section) (a : Activity)
    (st : PIState) {outB : List PlannedInj} {stB : PIState}
    (hEb : piBody cfg sec a st = (outB, stB))
    (hov : ¬(st.clockWithinDay + a.durationMin >
      max 1 (cfg.dayEndMin - cfg.dayStartMin))) :
    piStep cfg sec a st = (outB, some stB) := by
  simp only [piStep]
  rw [if_neg hov]
  show ((piBody cfg sec a st).1, some (piBody cfg sec a st).2) = _
  rw [hEb]

theorem piStep_eq_stop (cfg : DayConfig) (sec : Section) (a : Activity)
    (st : PIState)
    (hov : st.clockWithinDay + a.durationMin >
      max 1 (cfg.dayEndMin - cfg.dayStartMin))
    (hlast : st.dayIndex + 1 ≥ max 1 (cfg.numberOfDays.getD 1)) :
    piStep cfg sec a st = (piBackfill cfg sec st, none) := by
  simp only [piStep]
  rw [if_pos hov, if_pos hlast]

theorem piStep_eq_roll (cfg : DayConfig) (sec : Section) (a : Activity)
    (st : PIState) {outB : List PlannedInj} {stB : PIState}
    (hEb : piBody cfg sec a (piReset st) = (outB, stB))
    (hov : st.clockWithinDay + a.durationMin >
      max 1 (cfg.dayEndMin - cfg.dayStartMin))
    (hlast : ¬(st.dayIndex + 1 ≥ max 1 (cfg.numberOfDays.getD 1))) :
    piStep cfg sec a st = (piBackfill cfg sec st ++ outB, some stB) := by
  simp only [piStep]
  rw [if_pos hov, if_neg hlast]
  show (piBackfill cfg sec st ++ (piBody cfg sec a (piReset st)).1,
    some (piBody cfg sec a (piReset st)).2) = _
  rw [hEb]

/-- Counting facts for one activity step that continues. -/
theorem piStep_A (cfg : DayConfig) (sec : Section) (a : Activity) (st : PIState)
    {out : List PlannedInj} {st' : PIState}
    (hE : piStep cfg sec a st = (out, some st')) : AOut st st' out := by
  by_cases hov : st.clockWithinDay + a.durationMin >
      max 1 (cfg.dayEndMin - cfg.dayStartMin)
  · by_cases hlast : st.dayIndex + 1 ≥ max 1 (cfg.numberOfDays.getD 1)
    · rw [piStep_eq_stop cfg sec a st hov hlast] at hE
      exact nomatch (Prod.mk.injEq _ _ _ _ ▸ hE).2
    · rcases hEb : piBody cfg sec a (piReset st) with ⟨outB, stB⟩
      rw [piStep_eq_roll cfg sec a st hEb hov hlast] at hE
      injection hE with h1 h2
      have h2' := Option.some.inj h2
      obtain ⟨hB, hday⟩ := piBody_A cfg sec a (piReset st) hEb
      subst h1
      subst h2'
      obtain ⟨r₂, c₂, z₂, z₂', m₂, v₂⟩ := hB
      have hdayR : (piReset st).dayIndex = st.dayIndex + 1 := rfl
      have hlpR : (piReset st).lunchPlanned = false := rfl
      have hpre0 : ∀ e, lunchCount e (piBackfill cfg sec st) = 0 :=
        lunchCount_backfill cfg sec st
      have hpreday : ∀ p ∈ piBackfill cfg sec st, p.day = st.dayIndex :=
        fun p hp => (piBackfill_nocross cfg sec st p hp).1
      refine ⟨?_, ?_, ?_, ?_, ?_, ?_⟩
      · intro p hp
        rcases List.mem_append.mp hp with h | h
        · have := hpreday p h
          omega
        · have := r₂ p h
          omega
      · intro e
        rw [lunchCount_append, hpre0 e]
        have := c₂ e
        omega
      · intro _
        rw [lunchCount_append, hpre0]
        have : lunchCount st.dayIndex outB = 0 := by
          apply lunchCount_eq_zero
          intro p hp h
          have := (r₂ p hp).1
          omega
        omega
      · intro hlp'
        rw [lunchCount_append, hpre0, z₂' hlp']
      · omega
      · intro hd _
        exfalso
        omega
  · rcases hEb : piBody cfg sec a st with ⟨outB, stB⟩
    rw [piStep_eq_norm cfg sec a st hEb hov] at hE
    injection hE with h1 h2
    have h2' := Option.some.inj h2
    obtain ⟨hB, _⟩ := piBody_A cfg sec a st hEb
    subst h1
    subst h2'
    exact hB

/-- Counting facts for one activity step that returns early. -/
theorem piStep_A_stop (cfg : DayConfig) (sec : Section) (a : Activity)
    (st : PIState) {out : List PlannedInj}
    (hE : piStep cfg sec a st = (out, none)) : AStop st out := by
  by_cases hov : st.clockWithinDay + a.durationMin >
      max 1 (cfg.dayEndMin - cfg.dayStartMin)
  · by_cases hlast : st.dayIndex + 1 ≥ max 1 (cfg.numberOfDays.getD 1)
    · rw [piStep_eq_stop cfg sec a st hov hlast] at hE
      injection hE with h1 _
      subst h1
      refine ⟨?_, ?_, ?_⟩
      · intro p hp
        rw [(piBackfill_nocross cfg sec st p hp).1]
      · intro d
        rw [lunchCount_backfill]
        omega
      · intro _
        rw [lunchCount_backfill]
    · rcases hEb : piBody cfg sec a (piReset st) with ⟨outB, stB⟩
      rw [piStep_eq_roll cfg sec a st hEb hov hlast] at hE
      exact nomatch (Prod.mk.injEq _ _ _ _ ▸ hE).2
  · rcases hEb : piBody cfg sec a st with ⟨outB, stB⟩
    rw [piStep_eq_norm cfg sec a st hEb hov] at hE
    exact nomatch (Prod.mk.injEq _ _ _ _ ▸ hE).2

/-- Break-placement facts for one activity step that continues. -/
theorem piStep_B (cfg : DayConfig) (sec : Section) (a : Activity) (st : PIState)
    {out : List PlannedInj} {st' : PIState}
    (hE : piStep cfg sec a st = (out, some st'))
    (hP : PInv st) (ha : a.id ≠ "")
    (hbI : truthy cfg.breakIntervalMin = true)
    (hbD : truthy cfg.breakDurationMin = true) :
    BOut st st' out ∧ PInv st' := by
  by_cases hov : st.clockWithinDay + a.durationMin >
      max 1 (cfg.dayEndMin - cfg.dayStartMin)
  · by_cases hlast : st.dayIndex + 1 ≥ max 1 (cfg.numberOfDays.getD 1)
    · rw [piStep_eq_stop cfg sec a st hov hlast] at hE
      exact nomatch (Prod.mk.injEq _ _ _ _ ▸ hE).2
    · rcases hEb : piBody cfg sec a (piReset st) with ⟨outB, stB⟩
      rw [piStep_eq_roll cfg sec a st hEb hov hlast] at hE
      injection hE with h1 h2
      have h2' := Option.some.inj h2
      obtain ⟨hB, hPR⟩ := piBody_B cfg sec a (piReset st) hEb
        (PInv_piReset st) ha hbI hbD
      subst h1
      subst h2'
      obtain ⟨hpre₂, hpost₂, hres₂⟩ := hB
      have hnc : ∀ p ∈ piBackfill cfg sec st, p.crossing = false :=
        fun p hp => (piBackfill_nocross cfg sec st p hp).2.2
      refine ⟨⟨?_, ?_, ?_⟩, hPR⟩
      · exact crossingPre_append (crossingPre_of_nocross hnc) hpre₂
      · exact crossingPost_append_left_nocross hnc hpost₂
      · intro d hd
        obtain ⟨q, hq, hbt⟩ := piBackfill_discharges cfg sec st hP hbI hbD d hd
        exact Or.inl ⟨q, List.mem_append_left _ hq, hbt⟩
  · rcases hEb : piBody cfg sec a st with ⟨outB, stB⟩
    rw [piStep_eq_norm cfg sec a st hEb hov] at hE
    injection hE with h1 h2
    have h2' := Option.some.inj h2
    obtain ⟨hB, hP'⟩ := piBody_B cfg sec a st hEb hP ha hbI hbD
    subst h1
    subst h2'
    exact ⟨hB, hP'⟩

/-- Break-placement facts for one activity step that returns early. -/
theorem piStep_B_stop (cfg : DayConfig) (sec : Section) (a : Activity)
    (st : PIState) {out : List PlannedInj}
    (hE : piStep cfg sec a st = (out, none)) (hP : PInv st)
    (hbI : truthy cfg.breakIntervalMin = true)
    (hbD : truthy cfg.breakDurationMin = true) :
    BStop st out := by
  by_cases hov : st.clockWithinDay + a.durationMin >
      max 1 (cfg.dayEndMin - cfg.dayStartMin)
  · by_cases hlast : st.dayIndex + 1 ≥ max 1 (cfg.numberOfDays.getD 1)
    · rw [piStep_eq_stop cfg sec a st hov hlast] at hE
      injection hE with h1 _
      subst h1
      have hnc : ∀ p ∈ piBackfill cfg sec st, p.crossing = false :=
        fun p hp => (piBackfill_nocross cfg sec st p hp).2.2
      exact ⟨crossingPre_of_nocross hnc, crossingPost_of_nocross none hnc,
        piBackfill_discharges cfg sec st hP hbI hbD⟩
    · rcases hEb : piBody cfg sec a (piReset st) with ⟨outB, stB⟩
      rw [piStep_eq_roll cfg sec a st hEb hov hlast] at hE
      exact nomatch (Prod.mk.injEq _ _ _ _ ▸ hE).2
  · rcases hEb : piBody cfg sec a st with ⟨outB, stB⟩
    rw [piStep_eq_norm cfg sec a st hEb hov] at hE
    exact nomatch (Prod.mk.injEq _ _ _ _ ▸ hE).2

theorem AOut_AStop {st st₁ : PIState} {out₁ out₂ : List PlannedInj}
    (h₁ : AOut st st₁ out₁) (h₂ : AStop st₁ out₂) : AStop st (out₁ ++ out₂) := by
  obtain ⟨r₁, c₁, z₁, z₁', m₁, v₁⟩ := h₁
  obtain ⟨r₂, c₂, z₂⟩ := h₂
  have hzero₁ : ∀ d, st₁.dayIndex < d → lunchCount d out₁ = 0 := by
    intro d hd
    apply lunchCount_eq_zero
    intro p hp h
    have := (r₁ p hp).2
    omega
  have hzero₂ : ∀ d, d < st₁.dayIndex → lunchCount d out₂ = 0 := by
    intro d hd
    apply lunchCount_eq_zero
    intro p hp h
    have := r₂ p hp
    omega
  refine ⟨?_, ?_, ?_⟩
  · intro p hp
    rcases List.mem_append.mp hp with h | h
    · exact (r₁ p h).1
    · have := r₂ p h
      omega
  · intro d
    rw [lunchCount_append]
    rcases lt_trichotomy d st₁.dayIndex with hd | hd | hd
    · rw [hzero₂ d hd]
      have := c₁ d
      omega
    · subst hd
      cases hlp : st₁.lunchPlanned with
      | true =>
        rw [z₂ hlp]
        have := c₁ st₁.dayIndex
        omega
      | false =>
        rw [z₁' hlp]
        have := c₂ st₁.dayIndex
        omega
    · rw [hzero₁ d hd]
      have := c₂ d
      omega
  · intro hlp
    rw [lunchCount_append, z₁ hlp]
    rcases eq_or_lt_of_le m₁ with he | hlt
    · rw [he, z₂ (v₁ he.symm hlp)]
    · have := hzero₂ st.dayIndex hlt
      omega

theorem BOut_BStop {st st₁ : PIState} {out₁ out₂ : List PlannedInj}
    (h₁ : BOut st st₁ out₁) (h₂ : BStop st₁ out₂) : BStop st (out₁ ++ out₂) := by
  obtain ⟨p₁, q₁, r₁⟩ := h₁
  obtain ⟨p₂, q₂, r₂⟩ := h₂
  refine ⟨crossingPre_append p₁ p₂, ?_, ?_⟩
  · apply crossingPost_append q₁ q₂
    intro d hd
    exact Or.inl (r₂ d hd)
  · intro d hd
    rcases r₁ d hd with ⟨q, hq, hbt⟩ | hpend
    · exact ⟨q, List.mem_append_left _ hq, hbt⟩
    · obtain ⟨q, hq, hbt⟩ := r₂ d hpend
      exact ⟨q, List.mem_append_right _ hq, hbt⟩

theorem BOut_comp {st st₁ st₂ : PIState} {out₁ out₂ : List PlannedInj}
    (h₁ : BOut st st₁ out₁) (h₂ : BOut st₁ st₂ out₂) :
    BOut st st₂ (out₁ ++ out₂) := by
  obtain ⟨p₁, q₁, r₁⟩ := h₁
  obtain ⟨p₂, q₂, r₂⟩ := h₂
  refine ⟨crossingPre_append p₁ p₂, ?_, ?_⟩
  · exact crossingPost_append q₁ q₂ r₂
  · intro d hd
    rcases r₁ d hd with ⟨q, hq, hbt⟩ | hpend
    · exact Or.inl ⟨q, List.mem_append_left _ hq, hbt⟩
    · rcases r₂ d hpend with ⟨q, hq, hbt⟩ | hpend₂
      · exact Or.inl ⟨q, List.mem_append_right _ hq, hbt⟩
      · exact Or.inr hpend₂

theorem piActLoop_cons_stop₁ (cfg : DayConfig) (sec : Section) (a : Activity)
    (rest : List Activity) (st : PIState) {out : List PlannedInj}
    (hstep : piStep cfg sec a st = (out, none)) :
    (piActLoop cfg sec (a :: rest) st).1 = out := by
  simp only [piActLoop]
  rw [hstep]

theorem piActLoop_cons_stop₂ (cfg : DayConfig) (sec : Section) (a : Activity)
    (rest : List Activity) (st : PIState) {out : List PlannedInj}
    (hstep : piStep cfg sec a st = (out, none)) :
    (piActLoop cfg sec (a :: rest) st).2 = none := by
  simp only [piActLoop]
  rw [hstep]

theorem piActLoop_cons_go₁ (cfg : DayConfig) (sec : Section) (a : Activity)
    (rest : List Activity) (st : PIState) {out : List PlannedInj} {st₁ : PIState}
    (hstep : piStep cfg sec a st = (out, some st₁)) :
    (piActLoop cfg sec (a :: rest) st).1 =
      out ++ (piActLoop cfg sec rest st₁).1 := by
  simp only [piActLoop]
  rw [hstep]

theorem piActLoop_cons_go₂ (cfg : DayConfig) (sec : Section) (a : Activity)
    (rest : List Activity) (st : PIState) {out : List PlannedInj} {st₁ : PIState}
    (hstep : piStep cfg sec a st = (out, some st₁)) :
    (piActLoop cfg sec (a :: rest) st).2 = (piActLoop cfg sec rest st₁).2 := by
  simp only [piActLoop]
  rw [hstep]

/-- Counting facts for the inner activity loop. -/
theorem piActLoop_A (cfg : DayConfig) (sec : Section) (acts : List Activity) :
    ∀ st : PIState,
      (∀ st', (piActLoop cfg sec acts st).2 = some st' →
        AOut st st' (piActLoop cfg sec acts st).1) ∧
      ((piActLoop cfg sec acts st).2 = none →
        AStop st (piActLoop cfg sec acts st).1) := by
  induction acts with
  | nil =>
    intro st
    constructor
    · intro st' h
      have h' := Option.some.inj h
      subst h'
      exact AOut_nil st
    · intro h
      exact nomatch h
  | cons a rest ih =>
    intro st
    rcases hstep : piStep cfg sec a st with ⟨out₁, ost⟩
    cases ost with
    | none =>
      rw [piActLoop_cons_stop₁ cfg sec a rest st hstep,
        piActLoop_cons_stop₂ cfg sec a rest st hstep]
      constructor
      · intro st' h
        exact nomatch h
      · intro _
        exact piStep_A_stop cfg sec a st hstep
    | some st₁ =>
      have hstepA := piStep_A cfg sec a st hstep
      rcases hrest : piActLoop cfg sec rest st₁ with ⟨out₂, ost₂⟩
      have h1 : (piActLoop cfg sec rest st₁).1 = out₂ := by rw [hrest]
      have h2 : (piActLoop cfg sec rest st₁).2 = ost₂ := by rw [hrest]
      rw [piActLoop_cons_go₁ cfg sec a rest st hstep,
        piActLoop_cons_go₂ cfg sec a rest st hstep, h1, h2]
      obtain ⟨ihA, ihS⟩ := ih st₁
      rw [h1, h2] at ihA ihS
      constructor
      · intro st' h
        exact AOut_comp hstepA (ihA st' h)
      · intro h
        exact AOut_AStop hstepA (ihS h)

/-- Break-placement facts for the inner activity loop. -/
theorem piActLoop_B (cfg : DayConfig) (sec : Section)
    (hbI : truthy cfg.breakIntervalMin = true)
    (hbD : truthy cfg.breakDurationMin = true) (acts : List Activity) :
    ∀ st : PIState, PInv st → (∀ a ∈ acts, a.id ≠ "") →
      (∀ st', (piActLoop cfg sec acts st).2 = some st' →
        BOut st st' (piActLoop cfg sec acts st).1 ∧ PInv st') ∧
      ((piActLoop cfg sec acts st).2 = none →
        BStop st (piActLoop cfg sec acts st).1) := by
  induction acts with
  | nil =>
    intro st hP _
    constructor
    · intro st' h
      have h' := Option.some.inj h
      subst h'
      exact ⟨BOut_nil st, hP⟩
    · intro h
      exact nomatch h
  | cons a rest ih =>
    intro st hP hids
    have ha : a.id ≠ "" := hids a (List.mem_cons_self a rest)
    have hrids : ∀ x ∈ rest, x.id ≠ "" :=
      fun x hx => hids x (List.mem_cons_of_mem a hx)
    rcases hstep : piStep cfg sec a st with ⟨out₁, ost⟩
    cases ost with
    | none =>
      rw [piActLoop_cons_stop₁ cfg sec a rest st hstep,
        piActLoop_cons_stop₂ cfg sec a rest st hstep]
      constructor
      · intro st' h
        exact nomatch h
      · intro _
        exact piStep_B_stop cfg sec a st hstep hP hbI hbD
    | some st₁ =>
      obtain ⟨hBstep, hP₁⟩ := piStep_B cfg sec a st hstep hP ha hbI hbD
      rcases hrest : piActLoop cfg sec rest st₁ with ⟨out₂, ost₂⟩
      have h1 : (piActLoop cfg sec rest st₁).1 = out₂ := by rw [hrest]
      have h2 : (piActLoop cfg sec rest st₁).2 = ost₂ := by rw [hrest]
      rw [piActLoop_cons_go₁ cfg sec a rest st hstep,
        piActLoop_cons_go₂ cfg sec a rest st hstep, h1, h2]
      obtain ⟨ihB, ihS⟩ := ih st₁ hP₁ hrids
      rw [h1, h2] at ihB ihS
      constructor
      · intro st' h
        obtain ⟨hB₂, hP'⟩ := ihB st' h
        exact ⟨BOut_comp hBstep hB₂, hP'⟩
      · intro h
        exact BOut_BStop hBstep (ihS h)

theorem piSecLoop_cons_stop₁ (cfg : DayConfig) (g : ID → List Activity)
    (s : Section) (rest : List Section) (st : PIState) {out : List PlannedInj}
    (hfirst : piActLoop cfg s (g s.id) st = (out, none)) :
    (piSecLoop cfg g (s :: rest) st).1 = out := by
  simp only [piSecLoop]
  rw [hfirst]

theorem piSecLoop_cons_stop₂ (cfg : DayConfig) (g : ID → List Activity)
    (s : Section) (rest : List Section) (st : PIState) {out : List PlannedInj}
    (hfirst : piActLoop cfg s (g s.id) st = (out, none)) :
    (piSecLoop cfg g (s :: rest) st).2 = none := by
  simp only [piSecLoop]
  rw [hfirst]

theorem piSecLoop_cons_go₁ (cfg : DayConfig) (g : ID → List Activity)
    (s : Section) (rest : List Section) (st : PIState) {out : List PlannedInj}
    {st₁ : PIState} (hfirst : piActLoop cfg s (g s.id) st = (out, some st₁)) :
    (piSecLoop cfg g (s :: rest) st).1 =
      out ++ (piSecLoop cfg g rest st₁).1 := by
  simp only [piSecLoop]
  rw [hfirst]

theorem piSecLoop_cons_go₂ (cfg : DayConfig) (g : ID → List Activity)
    (s : Section) (rest : List Section) (st : PIState) {out : List PlannedInj}
    {st₁ : PIState} (hfirst : piActLoop cfg s (g s.id) st = (out, some st₁)) :
    (piSecLoop cfg g (s :: rest) st).2 = (piSecLoop cfg g rest st₁).2 := by
  simp only [piSecLoop]
  rw [hfirst]

/-- Counting facts for the outer section loop. -/
theorem piSecLoop_A (cfg : DayConfig) (g : ID → List Activity)
    (secs : List Section) :
    ∀ st : PIState,
      (∀ st', (piSecLoop cfg g secs st).2 = some st' →
        AOut st st' (piSecLoop cfg g secs st).1) ∧
      ((piSecLoop cfg g secs st).2 = none →
        AStop st (piSecLoop cfg g secs st).1) := by
  induction secs with
  | nil =>
    intro st
    constructor
    · intro st' h
      have h' := Option.some.inj h
      subst h'
      exact AOut_nil st
    · intro h
      exact nomatch h
  | cons s rest ih =>
    intro st
    obtain ⟨actA, actS⟩ := piActLoop_A cfg s (g s.id) st
    rcases hfirst : piActLoop cfg s (g s.id) st with ⟨out₁, ost⟩
    have ha1 : (piActLoop cfg s (g s.id) st).1 = out₁ := by rw [hfirst]
    have ha2 : (piActLoop cfg s (g s.id) st).2 = ost := by rw [hfirst]
    rw [ha1, ha2] at actA actS
    cases ost with
    | none =>
      rw [piSecLoop_cons_stop₁ cfg g s rest st hfirst,
        piSecLoop_cons_stop₂ cfg g s rest st hfirst]
      constructor
      · intro st' h
        exact nomatch h
      · intro _
        exact actS rfl
    | some st₁ =>
      have hA₁ := actA st₁ rfl
      rcases hrest : piSecLoop cfg g rest st₁ with ⟨out₂, ost₂⟩
      have h1 : (piSecLoop cfg g rest st₁).1 = out₂ := by rw [hrest]
      have h2 : (piSecLoop cfg g rest st₁).2 = ost₂ := by rw [hrest]
      rw [piSecLoop_cons_go₁ cfg g s rest st hfirst,
        piSecLoop_cons_go₂ cfg g s rest st hfirst, h1, h2]
      obtain ⟨ihA, ihS⟩ := ih st₁
      rw [h1, h2] at ihA ihS
      constructor
      · intro st' h
        exact AOut_comp hA₁ (ihA st' h)
      · intro h
        exact AOut_AStop hA₁ (ihS h)

/-- Break-placement facts for the outer section loop. -/
theorem piSecLoop_B (cfg : DayConfig) (g : ID → List Activity)
    (hbI : truthy cfg.breakIntervalMin = true)
    (hbD : truthy cfg.breakDurationMin = true) (secs : List Section) :
    ∀ st : PIState, PInv st → (∀ s ∈ secs, ∀ x ∈ g s.id, x.id ≠ "") →
      (∀ st', (piSecLoop cfg g secs st).2 = some st' →
        BOut st st' (piSecLoop cfg g secs st).1 ∧ PInv st') ∧
      ((piSecLoop cfg g secs st).2 = none →
        BStop st (piSecLoop cfg g secs st).1) := by
  induction secs with
  | nil =>
    intro st hP _
    constructor
    · intro st' h
      have h' := Option.some.inj h
      subst h'
      exact ⟨BOut_nil st, hP⟩
    · intro h
      exact nomatch h
  | cons s rest ih =>
    intro st hP hids
    have hsids : ∀ x ∈ g s.id, x.id ≠ "" := hids s (List.mem_cons_self s rest)
    have hrids : ∀ t ∈ rest, ∀ x ∈ g t.id, x.id ≠ "" :=
      fun t ht => hids t (List.mem_cons_of_mem s ht)
    obtain ⟨actB, actS⟩ := piActLoop_B cfg s hbI hbD (g s.id) st hP hsids
    rcases hfirst : piActLoop cfg s (g s.id) st with ⟨out₁, ost⟩
    have ha1 : (piActLoop cfg s (g s.id) st).1 = out₁ := by rw [hfirst]
    have ha2 : (piActLoop cfg s (g s.id) st).2 = ost := by rw [hfirst]
    rw [ha1, ha2] at actB actS
    cases ost with
    | none =>
      rw [piSecLoop_cons_stop₁ cfg g s rest st hfirst,
        piSecLoop_cons_stop₂ cfg g s rest st hfirst]
      constructor
      · intro st' h
        exact nomatch h
      · intro _
        exact actS rfl
    | some st₁ =>
      obtain ⟨hB₁, hP₁⟩ := actB st₁ rfl
      rcases hrest : piSecLoop cfg g rest st₁ with ⟨out₂, ost₂⟩
      have h1 : (piSecLoop cfg g rest st₁).1 = out₂ := by rw [hrest]
      have h2 : (piSecLoop cfg g rest st₁).2 = ost₂ := by rw [hrest]
      rw [piSecLoop_cons_go₁ cfg g s rest st hfirst,
        piSecLoop_cons_go₂ cfg g s rest st hfirst, h1, h2]
      obtain ⟨ihB, ihS⟩ := ih st₁ hP₁ hrids
      rw [h1, h2] at ihB ihS
      constructor
      · intro st' h
        obtain ⟨hB₂, hP'⟩ := ihB st' h
        exact ⟨BOut_comp hB₁ hB₂, hP'⟩
      · intro h
        exact BOut_BStop hB₁ (ihS h)

theorem lunchCount_le_length (d : Int) (l : List PlannedInj) :
    lunchCount d l ≤ l.length :=
  List.length_filter_le _ _

/-- The forced lunch the final block pushes, as a named value. -/
def piForcedLunchInj (cfg : DayConfig) (last : Section) (first : Activity)
    (st : PIState) : PlannedInj :=
  ⟨{ id := "inj-lunch-" ++ first.id, itype := .lunchI, label := "Lunch"
     sectionId := last.id, durationMin := cfg.lunchDurationMin.getD 0
     anchorBeforeActivityId := first.id }, st.dayIndex, false⟩

/-- The final post-lunch break the final block pushes, as a named value. -/
def piPostBreakInj (cfg : DayConfig) (sid : ID) (st : PIState) : PlannedInj :=
  ⟨{ id := "inj-break-post-" ++ st.lastActAfterLunch.getD "", itype := .breakI
     label := "Break", sectionId := sid
     durationMin := cfg.breakDurationMin.getD 0
     anchorBeforeActivityId := st.lastActAfterLunch.getD "" }, st.dayIndex, false⟩

/-- The two post-loop blocks push at most two injections: an optional forced
lunch (never `crossing`, only when none was planned) then an optional final
post-lunch break, all tagged with the final `dayIndex`. -/
theorem piFinal_cases (cfg : DayConfig) (ordered : List Section)
    (g : ID → List Activity) (activities : List Activity) (st : PIState) :
    piFinal cfg ordered g activities st = [] ∨
    (∃ q, piFinal cfg ordered g activities st = [q] ∧
      q.day = st.dayIndex ∧ q.crossing = false ∧
      (q.inj.itype = InjectionType.lunchI → st.lunchPlanned = false)) ∨
    (∃ q r, piFinal cfg ordered g activities st = [q, r] ∧
      q.day = st.dayIndex ∧ q.crossing = false ∧
      q.inj.itype = InjectionType.lunchI ∧ st.lunchPlanned = false ∧
      r.day = st.dayIndex ∧ r.crossing = false ∧
      r.inj.itype = InjectionType.breakI) := by
  simp only [piFinal]
  by_cases hg : (truthy cfg.lunchTargetMin && truthy cfg.lunchDurationMin &&
      !st.lunchPlanned && !ordered.isEmpty &&
      decide (st.dayIndex < max 1 (cfg.numberOfDays.getD 1))) = true
  · have hlp : st.lunchPlanned = false := by
      have h := hg
      simp only [Bool.and_eq_true, Bool.not_eq_true'] at h
      exact h.1.1.2
    rw [if_pos hg]
    by_cases hb : (st.afterLunchStarted && !st.postLunchBreakPlanned &&
        strTruthy st.lastActAfterLunch && truthy cfg.breakDurationMin &&
        truthy cfg.breakIntervalMin) = true
    · rw [if_pos hb]
      cases hlast : ordered.getLast? with
      | none => exact Or.inr (Or.inl ⟨_, rfl, rfl, rfl, fun h => nomatch h⟩)
      | some last =>
        cases hfirst : (g last.id).head? with
        | none =>
          refine Or.inr (Or.inl ⟨piPostBreakInj cfg last.id st, ?_, rfl, rfl,
            fun h => nomatch h⟩)
          simp only [hfirst]
          rfl
        | some first =>
          refine Or.inr (Or.inr ⟨piForcedLunchInj cfg last first st,
            piPostBreakInj cfg last.id st, ?_, rfl, rfl, rfl, hlp, rfl, rfl, rfl⟩)
          simp only [hfirst]
          rfl
    · rw [if_neg hb]
      cases hlast : ordered.getLast? with
      | none => exact Or.inl rfl
      | some last =>
        cases hfirst : (g last.id).head? with
        | none =>
          refine Or.inl ?_
          simp only [hfirst]
          rfl
        | some first =>
          refine Or.inr (Or.inl ⟨piForcedLunchInj cfg last first st, ?_, rfl, rfl,
            fun _ => hlp⟩)
          simp only [hfirst]
          rfl
  · rw [if_neg hg]
    by_cases hb : (st.afterLunchStarted && !st.postLunchBreakPlanned &&
        strTruthy st.lastActAfterLunch && truthy cfg.breakDurationMin &&
        truthy cfg.breakIntervalMin) = true
    · rw [if_pos hb]
      exact Or.inr (Or.inl ⟨_, rfl, rfl, rfl, fun h => nomatch h⟩)
    · rw [if_neg hb]
      exact Or.inl rfl

theorem piFinal_facts (cfg : DayConfig) (ordered : List Section)
    (g : ID → List Activity) (activities : List Activity) (st : PIState) :
    (∀ p ∈ piFinal cfg ordered g activities st,
      p.day = st.dayIndex ∧ p.crossing = false) ∧
    (∀ d, lunchCount d (piFinal cfg ordered g activities st) ≤ 1) ∧
    (st.lunchPlanned = true →
      ∀ d, lunchCount d (piFinal cfg ordered g activities st) = 0) := by
  rcases piFinal_cases cfg ordered g activities st with
    h | ⟨q, hq, hd, hc, hl⟩ | ⟨q, r, hqr, hd, hc, hi, hlpf, hrd, hrc, hri⟩
  · rw [h]
    refine ⟨fun p hp => absurd hp (List.not_mem_nil p), fun d => ?_, fun _ d => rfl⟩
    rw [lunchCount_nil]
    omega
  · rw [hq]
    refine ⟨?_, ?_, ?_⟩
    · intro p hp
      simp only [List.mem_cons, List.not_mem_nil, or_false] at hp
      subst hp
      exact ⟨hd, hc⟩
    · intro d
      simpa using lunchCount_le_length d [q]
    · intro hlpT d
      cases hqt : q.inj.itype with
      | lunchI =>
        have hf := hl hqt
        rw [hf] at hlpT
        cases hlpT
      | breakI =>
        rw [lunchCount_cons_break d q [] hqt, lunchCount_nil]
  · rw [hqr]
    refine ⟨?_, ?_, ?_⟩
    · intro p hp
      simp only [List.mem_cons, List.not_mem_nil, or_false] at hp
      rcases hp with rfl | rfl
      · exact ⟨hd, hc⟩
      · exact ⟨hrd, hrc⟩
    · intro d
      rw [lunchCount_cons_lunch d q [r] hi, lunchCount_cons_break d r [] hri,
        lunchCount_nil]
      split <;> omega
    · intro hlpT _
      rw [hlpT] at hlpf
      cases hlpf

/-- The final break block discharges a pending post-lunch-break obligation. -/
theorem piFinal_discharges (cfg : DayConfig) (ordered : List Section)
    (g : ID → List Activity) (activities : List Activity) (st : PIState)
    (hP : PInv st)
    (hbI : truthy cfg.breakIntervalMin = true)
    (hbD : truthy cfg.breakDurationMin = true) :
    ∀ d, pending st = some d →
      ∃ q ∈ piFinal cfg ordered g activities st, breakTagged d q := by
  intro d hd
  unfold pending at hd
  by_cases hcond : st.afterLunchStarted = true ∧ st.postLunchBreakPlanned = false
  · rw [if_pos hcond] at hd
    have hcond2 : (st.afterLunchStarted && !st.postLunchBreakPlanned &&
        strTruthy st.lastActAfterLunch && truthy cfg.breakDurationMin &&
        truthy cfg.breakIntervalMin) = true := by
      rw [hcond.1, hcond.2, hP.lact hcond.1, hbD, hbI]
      rfl
    simp only [piFinal]
    rw [if_pos hcond2]
    exact ⟨_, List.mem_append_right _ (List.mem_cons_self _ _), rfl,
      Option.some.inj hd⟩
  · rw [if_neg hcond] at hd
    exact nomatch hd

theorem PInv_piInit : PInv piInit := by
  refine ⟨fun h => ?_, rfl, fun h => ?_, fun h => ?_⟩
  · exact nomatch h
  · exact nomatch h
  · exact nomatch h

/-- C5.  The Injection Planner plans at most one lunch per simulated day
(counted over the day tag each injection was pushed with), and every lunch
planned by the in-loop crossing test — the case where an activity's duration
straddles the day-relative lunch target, i.e. the day has activity time on
both sides of its lunch — has, when break interval and duration are both
configured (truthy) and activity ids are nonempty, at least one break
injection for the same day earlier in the planned list (the pre-lunch break
pushed immediately before it) and at least one later (the post-lunch break
planned in-loop, backfilled at the day rollover or early return, or pushed
by the final block). -/
theorem c5_planner_invariants (cfg : DayConfig) (sections : List Section)
    (activities : List Activity) :
    planInjections cfg sections activities =
      (planInjectionsTagged cfg sections activities).map (fun p => p.inj) ∧
    (∀ d : Int, lunchCount d (planInjectionsTagged cfg sections activities) ≤ 1) ∧
    (truthy cfg.breakIntervalMin = true → truthy cfg.breakDurationMin = true →
      (∀ a ∈ activities, a.id ≠ "") →
      ∀ l₁ p l₂, planInjectionsTagged cfg sections activities = l₁ ++ p :: l₂ →
        p.crossing = true →
        (∃ q ∈ l₁, breakTagged p.day q) ∧ (∃ q ∈ l₂, breakTagged p.day q)) := by
  rcases hrun : piSecLoop cfg (actsFor sections activities) (sortByOrder sections)
    piInit with ⟨out, ost⟩
  have e1 : (piSecLoop cfg (actsFor sections activities) (sortByOrder sections)
      piInit).1 = out := by rw [hrun]
  have e2 : (piSecLoop cfg (actsFor sections activities) (sortByOrder sections)
      piInit).2 = ost := by rw [hrun]
  obtain ⟨secA, secS⟩ := piSecLoop_A cfg (actsFor sections activities)
    (sortByOrder sections) piInit
  rw [e1, e2] at secA secS
  cases ost with
  | none =>
    have hTag : planInjectionsTagged cfg sections activities = out := by
      simp only [planInjectionsTagged]
      rw [hrun]
    have hStop : AStop piInit out := secS rfl
    refine ⟨rfl, ?_, ?_⟩
    · intro d
      rw [hTag]
      exact hStop.2.1 d
    · intro hbI hbD hids l₁ p l₂ hsplit hcr
      have hsecids : ∀ s ∈ sortByOrder sections,
          ∀ x ∈ actsFor sections activities s.id, x.id ≠ "" :=
        fun s _ x hx => hids x (mem_actsFor hx)
      obtain ⟨_, secBS⟩ := piSecLoop_B cfg (actsFor sections activities) hbI hbD
        (sortByOrder sections) piInit PInv_piInit hsecids
      rw [e1, e2] at secBS
      have hBS : BStop piInit out := secBS rfl
      rw [hTag] at hsplit
      exact ⟨hBS.1 l₁ p l₂ hsplit hcr,
        (hBS.2.1 l₁ p l₂ hsplit hcr).resolve_right (fun he => nomatch he)⟩
  | some stF =>
    have hTag : planInjectionsTagged cfg sections activities =
        out ++ piFinal cfg (sortByOrder sections) (actsFor sections activities)
          activities stF := by
      simp only [planInjectionsTagged]
      rw [hrun]
    have hA : AOut piInit stF out := secA stF rfl
    obtain ⟨fmem, fcount, fzero⟩ := piFinal_facts cfg (sortByOrder sections)
      (actsFor sections activities) activities stF
    refine ⟨rfl, ?_, ?_⟩
    · intro d
      rw [hTag, lunchCount_append]
      obtain ⟨r₁, c₁, z₁, z₁', m₁, v₁⟩ := hA
      by_cases hd : d = stF.dayIndex
      · subst hd
        cases hlp : stF.lunchPlanned with
        | true =>
          rw [fzero hlp stF.dayIndex]
          have := c₁ stF.dayIndex
          omega
        | false =>
          rw [z₁' hlp]
          have := fcount stF.dayIndex
          omega
      · have hf0 : lunchCount d (piFinal cfg (sortByOrder sections)
            (actsFor sections activities) activities stF) = 0 := by
          apply lunchCount_eq_zero
          intro p hp h
          exact hd ((h.2.symm.trans (fmem p hp).1).symm ▸ rfl)
        rw [hf0]
        have := c₁ d
        omega
    · intro hbI hbD hids l₁ p l₂ hsplit hcr
      have hsecids : ∀ s ∈ sortByOrder sections,
          ∀ x ∈ actsFor sections activities s.id, x.id ≠ "" :=
        fun s _ x hx => hids x (mem_actsFor hx)
      obtain ⟨secB, _⟩ := piSecLoop_B cfg (actsFor sections activities) hbI hbD
        (sortByOrder sections) piInit PInv_piInit hsecids
      rw [e1, e2] at secB
      obtain ⟨hBout, hPF⟩ := secB stF rfl
      have hfnc : ∀ q ∈ piFinal cfg (sortByOrder sections)
          (actsFor sections activities) activities stF, q.crossing = false :=
        fun q hq => (fmem q hq).2
      have hpreT := crossingPre_append hBout.1 (crossingPre_of_nocross hfnc)
      have hpostT := crossingPost_append hBout.2.1
        (crossingPost_of_nocross none hfnc)
        (fun d hd => Or.inl (piFinal_discharges cfg (sortByOrder sections)
          (actsFor sections activities) activities stF hPF hbI hbD d hd))
      rw [hTag] at hsplit
      exact ⟨hpreT l₁ p l₂ hsplit hcr,
        (hpostT l₁ p l₂ hsplit hcr).resolve_right (fun he => nomatch he)⟩

def c5wcfg : DayConfig :=
  { dayStartMin := 540, dayEndMin := 960, numberOfDays := some 1
    breakIntervalMin := some 60, breakDurationMin := some 15
    lunchTargetMin := some 720, lunchDurationMin := some 60 }

def c5wsec : Section := { id := "s1", order := 1 }

def c5wacts : List Activity :=
  [{ id := "a1", durationMin := 100, sectionId := "s1" },
   { id := "a2", durationMin := 100, sectionId := "s1" },
   { id := "a3", durationMin := 100, sectionId := "s1" }]

def c5wbrk1 : PlannedInj :=
  ⟨{ id := "inj-break-a1", itype := .breakI, label := "Break", sectionId := "s1"
     durationMin := 15, anchorBeforeActivityId := "a1" }, 0, false⟩

def c5wpre : PlannedInj :=
  ⟨{ id := "inj-break-pre-a2", itype := .breakI, label := "Break"
     sectionId := "s1", durationMin := 15, anchorBeforeActivityId := "a2" },
   0, false⟩

def c5wlunch : PlannedInj :=
  ⟨{ id := "inj-lunch-a2", itype := .lunchI, label := "Lunch", sectionId := "s1"
     durationMin := 60, anchorBeforeActivityId := "a2" }, 0, true⟩

def c5wbrk3 : PlannedInj :=
  ⟨{ id := "inj-break-a3", itype := .breakI, label := "Break", sectionId := "s1"
     durationMin := 15, anchorBeforeActivityId := "a3" }, 0, false⟩

theorem c5_witness :
    lunchCount 0 (planInjectionsTagged c5wcfg [c5wsec] c5wacts) ≤ 1 ∧
    (∃ q ∈ [c5wbrk1, c5wpre], breakTagged c5wlunch.day q) ∧
    (∃ q ∈ [c5wbrk3], breakTagged c5wlunch.day q) := by
  refine ⟨(c5_planner_invariants c5wcfg [c5wsec] c5wacts).2.1 0, ?_⟩
  exact (c5_planner_invariants c5wcfg [c5wsec] c5wacts).2.2 (by decide) (by decide)
    (by decide) [c5wbrk1, c5wpre] c5wlunch [c5wbrk3] (by decide) (by decide)

end AgendaMover
